import Mathlib

/-!
# Service-discovery agent: registries, handlers and lifecycle

A shallow embedding of the Go package `discovery` (files `info.go`,
`discovery.go`, `comm.go`, `handler.go`, `subject.go`, `options.go`).

* `*ServiceInfo` pointers are indices into a store (`Agent.mem`), `nil` is
  `none`.  Every field write of the source is one store update, in the order
  of the source.
* Loops over a linked list take a fuel argument; a result `none` means that
  the call did not return within that fuel (or dereferenced an index that is
  not allocated, or blocked on a nil channel).
* `time.Time` and `time.Duration` are integers counting nanoseconds.
-/

namespace Discovery

/-! ## info.go -/

/-- The struct `ServiceInfo`; `next` and `prev` are indices into the store. -/
structure ServiceInfo where
  Name : String
  Address : String
  UpdatedAt : Int
  GoodUntil : Int
  updatedBy : String
  next : Option Nat
  prev : Option Nat
deriving DecidableEq, Repr

/-- The method `equals`: same `Name` and same `Address`. -/
def ServiceInfo.equals (left right : ServiceInfo) : Bool :=
  left.Name == right.Name && left.Address == right.Address

/-- The struct `infoList`. -/
structure infoList where
  first : Option Nat
  last : Option Nat
  size : Int
deriving DecidableEq, Repr

/-- The allocated `ServiceInfo` objects; object `p` is the entry at index `p`. -/
abbrev Store := List ServiceInfo

/-- One field write `(*p).field = ...`: fails on an index that is not allocated. -/
def Store.upd (m : Store) (p : Nat) (f : ServiceInfo → ServiceInfo) : Option Store :=
  match m[p]? with
  | none => none
  | some v => some (m.set p (f v))

/-- The loop of `find`: `current` walks the `next` links until a node equal
to `item` is met or `nil` is reached. -/
def findLoop (m : Store) (item : ServiceInfo) : Nat → Option Nat → Option (Option Nat)
  | 0, _ => none
  | _ + 1, none => some none
  | fuel + 1, some c =>
    match m[c]? with
    | none => none
    | some current =>
      if current.equals item then some (some c) else findLoop m item fuel current.next

/-- The method `find`; `item` is a pointer, only its `Name` and `Address` are read. -/
def infoList.find (l : infoList) (m : Store) (item : Nat) (fuel : Nat) :
    Option (Option Nat) :=
  match m[item]? with
  | none => none
  | some it => findLoop m it fuel l.first

/-- The method `insert`: links `item` behind `l.last`. -/
def infoList.insert (l : infoList) (m : Store) (item : Nat) : Option (Store × infoList) := do
  let m ← m.upd item (fun v => { v with prev := l.last })
  let m ← m.upd item (fun v => { v with next := none })
  let m ← match l.last with
    | some lp => m.upd lp (fun v => { v with next := some item })
    | none => some m
  let l := { l with last := some item }
  let l := if l.first = none then { l with first := some item } else l
  some (m, { l with size := l.size + 1 })

/-- The method `remove`, statement by statement.  In the branch `item.prev == nil`
the source assigns `l.first = item.prev`, and in the branch `item.next == nil`
it assigns `l.last = item`. -/
def infoList.remove (l : infoList) (m : Store) (item : Nat) : Option (Store × infoList) := do
  let it ← m[item]?
  let (m, l) ← match it.prev with
    | some pp => (m.upd pp (fun v => { v with next := it.next })).map (fun m1 => (m1, l))
    | none => some (m, { l with first := it.prev })
  let it ← m[item]?
  let (m, l) ← match it.next with
    | some np => (m.upd np (fun v => { v with prev := it.prev })).map (fun m1 => (m1, l))
    | none => some (m, { l with last := some item })
  some (m, { l with size := l.size - 1 })

/-- The function `contains` on a slice of strings. -/
def contains (slice : List String) (element : String) : Bool :=
  match slice with
  | [] => false
  | s :: rest => if s = element then true else contains rest element

/-- The loop of `clear`: resets `next` and `prev` of every node met. -/
def clearLoop : Nat → Store → Option Nat → Option Store
  | 0, _, _ => none
  | _ + 1, m, none => some m
  | fuel + 1, m, some p =>
    match m[p]? with
    | none => none
    | some it =>
      let next := it.next
      match m.upd p (fun v => { v with next := none }) with
      | none => none
      | some m1 =>
        match m1.upd p (fun v => { v with prev := none }) with
        | none => none
        | some m2 => clearLoop fuel m2 next

/-- The method `clear`; `size` is not reset by the source. -/
def infoList.clear (l : infoList) (m : Store) (fuel : Nat) : Option (Store × infoList) :=
  match clearLoop fuel m l.first with
  | none => none
  | some m1 => some (m1, { l with first := none, last := none })

/-- The loop shared by `Unwatch`, `handleStopMessage` and `checkExpiration`:
`next := item.next` is read first, then the node is removed when `cond` holds. -/
def removeLoop (cond : ServiceInfo → Bool) :
    Nat → Store → infoList → Option Nat → Option (Store × infoList)
  | 0, _, _, _ => none
  | _ + 1, m, l, none => some (m, l)
  | fuel + 1, m, l, some p =>
    match m[p]? with
    | none => none
    | some it =>
      let next := it.next
      if cond it then
        match l.remove m p with
        | none => none
        | some (m1, l1) => removeLoop cond fuel m1 l1 next
      else removeLoop cond fuel m l next

/-- The records met when walking from `start` along `next`, as store indices. -/
def chain (m : Store) : Nat → Option Nat → Option (List Nat)
  | 0, _ => none
  | _ + 1, none => some []
  | fuel + 1, some p =>
    match m[p]? with
    | none => none
    | some it => (chain m fuel it.next).map (fun rest => p :: rest)

/-! ## proto/discovery.pb.go, comm.go (message types) -/

/-- The message `ServiceInfoProto`. -/
structure ServiceInfoProto where
  Name : String
  Address : String
  ClientId : String
deriving DecidableEq, Repr

/-- The three message kinds behind the interface `proto.Message`. -/
inductive protoMessage where
  | ServiceInterest (ServiceName : List String)
  | ServicesList (Services : List ServiceInfoProto)
  | AgentStopped (AgentId : String)
deriving DecidableEq, Repr

/-- The struct `msgWrapper`; `msg` may be nil. -/
structure msgWrapper where
  subject : String
  msg : Option protoMessage
deriving DecidableEq, Repr

/-- A channel of `*msgWrapper`: the buffered messages, oldest first, and whether
`close` was called.  The capacity of 10 is not modelled: a send on a full
channel waits for the worker and then appends. -/
structure chanState where
  buf : List msgWrapper
  closed : Bool
deriving DecidableEq, Repr

/-- An inbound `nats.Msg`: its subject, and what `proto.Unmarshal` makes of its
payload for each of the three target types (`none` when decoding fails). -/
structure Msg where
  Subject : String
  asServiceInterest : Option (List String)
  asServicesList : Option (List ServiceInfoProto)
  asAgentStopped : Option String
deriving DecidableEq, Repr

/-! ## discovery.go -/

/-- The constant `DefaultSubjectPrefix`. -/
def DefaultSubjectPrefix : String := "github.com.hatobitoio.discovery"

/-- The constant `time.Millisecond`, in nanoseconds. -/
def Millisecond : Int := 1000000

/-- The constant `DefaultUpdateInterval`. -/
def DefaultUpdateInterval : Int := Millisecond * 1000

/-- The struct `Agent`.  `mem` holds the `ServiceInfo` objects and `chans` the
channels allocated so far; `send` is an index into `chans` or nil; `subs` tells
whether the subscription is non-nil; `watched` lists the keys of the map
(every stored value is `true`).  The connection and the lock are left out. -/
structure Agent where
  mem : Store
  chans : List chanState
  subjectPrefix : String
  prefixParts : Nat
  knownServices : infoList
  providedServices : infoList
  subs : Bool
  watched : List String
  connected : Bool
  running : Bool
  send : Option Nat
  clientID : String
deriving DecidableEq, Repr

/-- The type `Option` of options.go: a function on the agent that may fail. -/
abbrev AgentOption := Agent → Except String Agent

/-- The option `SubjectPrefix`: it checks the prefix and returns without
writing to the agent. -/
def SubjectPrefix (pfx : String) : AgentOption :=
  fun s => if pfx.length = 0 then .error "Empty topic prefix" else .ok s

/-- The function `strings.Split` for the one-character separator: the pieces between the
occurrences of `sep`, one more piece than there are occurrences. -/
def splitChars (sep : Char) : List Char → List (List Char)
  | [] => [[]]
  | c :: cs =>
    if c = sep then [] :: splitChars sep cs
    else
      match splitChars sep cs with
      | [] => [[c]]
      | p :: ps => (c :: p) :: ps

/-- The call `strings.Split(s, ".")`. -/
def Split (s : String) : List String := (splitChars '.' s.data).map String.mk

/-- The call `strings.Join(parts, ".")`. -/
def Join : List String → String
  | [] => ""
  | [p] => p
  | p :: q :: rest => p ++ "." ++ Join (q :: rest)

/-- The applying of the options in `NewAgent`, stopping at the first error. -/
def applyOpts : List AgentOption → Agent → Except String Agent
  | [], s => .ok s
  | opt :: rest, s =>
    match opt s with
    | .error e => .error e
    | .ok s1 => applyOpts rest s1

/-- The function `NewAgent`.  `rnd` is the outcome of `rand.Read` followed by
`hex.EncodeToString`: an error, or the identifier. -/
def NewAgent (rnd : Except String String) (opts : List AgentOption) : Except String Agent :=
  let s : Agent :=
    { mem := [], chans := [], subjectPrefix := DefaultSubjectPrefix, prefixParts := 0,
      knownServices := ⟨none, none, 0⟩, providedServices := ⟨none, none, 0⟩, subs := false,
      watched := [], connected := false, running := false, send := none, clientID := "" }
  match rnd with
  | .error e => .error e
  | .ok cid =>
    let s := { s with prefixParts := (Split s.subjectPrefix).length }
    let s := { s with clientID := cid }
    applyOpts opts s

/-! ## subject.go -/

/-- The method `serviceListSubject`. -/
def Agent.serviceListSubject (a : Agent) : String :=
  a.subjectPrefix ++ ".servicelist." ++ a.clientID

/-- The method `stopSubject`. -/
def Agent.stopSubject (a : Agent) : String :=
  a.subjectPrefix ++ ".stop." ++ a.clientID

/-- The method `interestSubject`. -/
def Agent.interestSubject (a : Agent) : String :=
  a.subjectPrefix ++ ".interest." ++ a.clientID

/-- The method `parseNatsMessage`: the decoded message (or nil), the sender
identifier and the flag `myself`. -/
def Agent.parseNatsMessage (a : Agent) (msg : Msg) : Option protoMessage × String × Bool :=
  let parts := Split msg.Subject
  let nParts := parts.length
  let matched := decide (nParts > a.prefixParts + 1) &&
    (Join (parts.take a.prefixParts) == a.subjectPrefix)
  if !matched then (none, "", false)
  else
    let action := parts.getD a.prefixParts ""
    let clientID := Join (parts.drop (a.prefixParts + 1))
    let myself := clientID == a.clientID
    let result : Option protoMessage :=
      if action = "interest" then msg.asServiceInterest.map protoMessage.ServiceInterest
      else if action = "servicelist" then msg.asServicesList.map protoMessage.ServicesList
      else if action = "stop" then msg.asAgentStopped.map protoMessage.AgentStopped
      else none
    (result, clientID, myself)

/-! ## comm.go, discovery.go (operations) -/

/-- A channel send `a.send <- w`: on a nil channel it blocks for ever, on a
closed channel it panics; both give `none`. -/
def Agent.enqueue (a : Agent) (w : msgWrapper) : Option Agent :=
  match a.send with
  | none => none
  | some c =>
    match a.chans[c]? with
    | none => none
    | some ch =>
      if ch.closed then none
      else some { a with chans := a.chans.set c { ch with buf := ch.buf ++ [w] } }

/-- The method `publish`. -/
def Agent.publish (a : Agent) (subject : String) (msg : Option protoMessage) : Option Agent :=
  a.enqueue ⟨subject, msg⟩

/-- The method `Register`; the returned error is always nil. -/
def Agent.Register (a : Agent) (info : Nat) (fuel : Nat) : Option Agent := do
  let item ← a.providedServices.find a.mem info fuel
  let a ← match item with
    | some ip => do
      let inf ← a.mem[info]?
      let m ← a.mem.upd ip (fun v => { v with Address := inf.Address })
      let inf ← m[info]?
      let m ← m.upd ip (fun v => { v with Name := inf.Name })
      some { a with mem := m }
    | none => do
      let (m, l) ← a.providedServices.insert a.mem info
      some { a with mem := m, providedServices := l }
  if a.running && a.connected then do
    let inf ← a.mem[info]?
    a.enqueue ⟨a.serviceListSubject,
      some (protoMessage.ServicesList [⟨inf.Name, inf.Address, ""⟩])⟩
  else some a

/-- The method `Unregister`; the returned error is always nil. -/
def Agent.Unregister (a : Agent) (info : Nat) (fuel : Nat) : Option Agent := do
  let item ← a.providedServices.find a.mem info fuel
  match item with
  | some ip => do
    let (m, l) ← a.providedServices.remove a.mem ip
    some { a with mem := m, providedServices := l }
  | none => some a

/-- The method `startStopWorker`.  On start a new channel is made and the
interest message is sent on it; the slice of names is made with
`len(a.watched)` elements and then appended to.  On stop `close(a.send)`
panics when the channel is nil. -/
def Agent.startStopWorker (a : Agent) (start : Bool) : Option Agent :=
  if start then
    let a : Agent :=
      { a with send := some a.chans.length, chans := a.chans ++ [chanState.mk [] false] }
    let watchedServices := List.replicate a.watched.length "" ++ a.watched
    a.enqueue ⟨a.interestSubject, some (protoMessage.ServiceInterest watchedServices)⟩
  else
    match a.send with
    | none => none
    | some c =>
      match a.chans[c]? with
      | none => none
      | some ch =>
        if ch.closed then none
        else some { a with chans := a.chans.set c { ch with closed := true }, send := none }

/-- The method `Start`; `subscribeErr` is the error of `conn.Subscribe`.  The
result is the new state and the returned error. -/
def Agent.Start (a : Agent) (subscribeErr : Option String) : Option (Agent × Option String) :=
  if a.running then some (a, some "discovery agent is already running")
  else
    match subscribeErr with
    | some err => some (a, some err)
    | none =>
      let a := { a with subs := true }
      let a := { a with running := true }
      if a.connected then (a.startStopWorker true).map (fun a1 => (a1, none))
      else some (a, none)

/-- The method `Stop`.  The result is the new state and the returned error. -/
def Agent.Stop (a : Agent) (fuel : Nat) : Option (Agent × Option String) :=
  if !a.running then some (a, some "discovery agent is not running")
  else do
    let a := { a with running := false }
    let a := { a with subs := false }
    let (m, l) ← a.knownServices.clear a.mem fuel
    let a := { a with mem := m, knownServices := l }
    if a.connected then do
      let a ← a.publish a.stopSubject none
      let a ← a.startStopWorker false
      some (a, none)
    else some (a, none)

/-- The method `Watch`; the returned error is always nil. -/
def Agent.Watch (a : Agent) (serviceName : String) : Option Agent :=
  if contains a.watched serviceName then some a
  else
    let a := { a with watched := a.watched ++ [serviceName] }
    if a.connected && a.running then
      a.publish a.interestSubject (some (protoMessage.ServiceInterest [serviceName]))
    else some a

/-- The method `Unwatch`. -/
def Agent.Unwatch (a : Agent) (serviceName : String) (fuel : Nat) : Option Agent :=
  match removeLoop (fun item => item.Name == serviceName) fuel a.mem a.knownServices
      a.knownServices.first with
  | none => none
  | some (m, l) =>
    some { a with mem := m, knownServices := l,
                  watched := a.watched.filter (fun w => w != serviceName) }

/-- The inner loop of `Discover` over one list: copies of the nodes whose
`Name` is `serviceName` are appended to `ret`. -/
def discoverLoop (m : Store) (serviceName : String) :
    Nat → Option Nat → List ServiceInfo → Option (List ServiceInfo)
  | 0, _, _ => none
  | _ + 1, none, ret => some ret
  | fuel + 1, some p, ret =>
    match m[p]? with
    | none => none
    | some s =>
      discoverLoop m serviceName fuel s.next (if s.Name = serviceName then ret ++ [s] else ret)

/-- The outer loop of `Discover` over the chosen lists. -/
def discoverLists (m : Store) (serviceName : String) (fuel : Nat) :
    List infoList → List ServiceInfo → Option (List ServiceInfo)
  | [], ret => some ret
  | list :: rest, ret =>
    match discoverLoop m serviceName fuel list.first ret with
    | none => none
    | some ret1 => discoverLists m serviceName fuel rest ret1

/-- The method `Discover`: it writes to no field and returns copies, given
here as values. -/
def Agent.Discover (a : Agent) (serviceName : String) (includeLocal : Bool) (fuel : Nat) :
    Option (List ServiceInfo) :=
  let lists := if includeLocal then [a.knownServices, a.providedServices]
    else [a.knownServices]
  discoverLists a.mem serviceName fuel lists []

/-- The method `ConnStateHandler`; `connected` is what `conn.IsConnected()` returns. -/
def Agent.ConnStateHandler (a : Agent) (connected : Bool) : Option Agent :=
  if connected = a.connected then some a
  else
    let a := { a with connected := connected }
    if a.running then a.startStopWorker connected else some a

/-- The method `checkExpiration`; `now` is what `time.Now()` returns, and
`now.After(item.GoodUntil)` is `item.GoodUntil < now`. -/
def Agent.checkExpiration (a : Agent) (now : Int) (fuel : Nat) : Option Agent :=
  match removeLoop (fun item => decide (item.GoodUntil < now)) fuel a.mem a.knownServices
      a.knownServices.first with
  | none => none
  | some (m, l) => some { a with mem := m, knownServices := l }

/-- The loop of `sendUpdates` over the provided list. -/
def sendUpdatesLoop (m : Store) (clientID : String) :
    Nat → Option Nat → List ServiceInfoProto → Option (List ServiceInfoProto)
  | 0, _, _ => none
  | _ + 1, none, acc => some acc
  | fuel + 1, some p, acc =>
    match m[p]? with
    | none => none
    | some item =>
      sendUpdatesLoop m clientID fuel item.next (acc ++ [⟨item.Name, item.Address, clientID⟩])

/-- The method `sendUpdates`: the message handed to `publishMessage`, if any.
It writes to no field of the agent. -/
def Agent.sendUpdates (a : Agent) (fuel : Nat) : Option (Option msgWrapper) :=
  match sendUpdatesLoop a.mem a.clientID fuel a.providedServices.first [] with
  | none => none
  | some services =>
    if services.length > 0 then
      some (some ⟨a.serviceListSubject, some (protoMessage.ServicesList services)⟩)
    else some none

/-! ## handler.go -/

/-- The method `handleStopMessage`. -/
def Agent.handleStopMessage (a : Agent) (clientID : String) (fuel : Nat) : Option Agent :=
  match removeLoop (fun item => item.updatedBy == clientID) fuel a.mem a.knownServices
      a.knownServices.first with
  | none => none
  | some (m, l) => some { a with mem := m, knownServices := l }

/-- The loop of `handleServiceListMessage`: for each entry a `search` object is
allocated, an equal known node is refreshed, otherwise `search` is inserted. -/
def serviceListLoop (clientID : String) (now deadline : Int) (fuel : Nat) :
    List ServiceInfoProto → Store → infoList → Option (Store × infoList)
  | [], m, l => some (m, l)
  | svc :: rest, m, l =>
    let search := m.length
    let m := m ++ [{ Address := svc.Address, Name := svc.Name, updatedBy := clientID,
                     UpdatedAt := now, GoodUntil := deadline, next := none, prev := none }]
    match l.find m search fuel with
    | none => none
    | some (some item) =>
      match m.upd item (fun v => { v with updatedBy := clientID }) with
      | none => none
      | some m1 =>
        match m1.upd item (fun v => { v with UpdatedAt := now }) with
        | none => none
        | some m2 =>
          match m2.upd item (fun v => { v with GoodUntil := deadline }) with
          | none => none
          | some m3 => serviceListLoop clientID now deadline fuel rest m3 l
    | some none =>
      match l.insert m search with
      | none => none
      | some (m1, l1) => serviceListLoop clientID now deadline fuel rest m1 l1

/-- The method `handleServiceListMessage`; `now` is what `time.Now()` returns. -/
def Agent.handleServiceListMessage (a : Agent) (msg : List ServiceInfoProto)
    (clientID : String) (now : Int) (fuel : Nat) : Option Agent :=
  let deadline := now + (DefaultUpdateInterval + DefaultUpdateInterval / 10)
  if msg.length < 1 then some a
  else
    match serviceListLoop clientID now deadline fuel msg a.mem a.knownServices with
    | none => none
    | some (m, l) => some { a with mem := m, knownServices := l }

/-- The loop of `handleInterestMessage` over the provided list. -/
def interestLoop (m : Store) (names : List String) (clientID : String) :
    Nat → Option Nat → List ServiceInfoProto → Option (List ServiceInfoProto)
  | 0, _, _ => none
  | _ + 1, none, acc => some acc
  | fuel + 1, some p, acc =>
    match m[p]? with
    | none => none
    | some item =>
      interestLoop m names clientID fuel item.next
        (if contains names item.Name then acc ++ [⟨item.Name, item.Address, clientID⟩] else acc)

/-- The method `handleInterestMessage`. -/
def Agent.handleInterestMessage (a : Agent) (msg : List String) (fuel : Nat) : Option Agent :=
  if msg.length < 1 then some a
  else
    match interestLoop a.mem msg a.clientID fuel a.providedServices.first [] with
    | none => none
    | some reply =>
      if reply.length > 0 then
        a.enqueue ⟨a.serviceListSubject, some (protoMessage.ServicesList reply)⟩
      else some a

/-- The method `handleMessage`; `now` is the clock reading used if the message
is a service list. -/
def Agent.handleMessage (a : Agent) (msg : Msg) (now : Int) (fuel : Nat) : Option Agent :=
  match a.parseNatsMessage msg with
  | (none, _, _) => some a
  | (some (protoMessage.ServiceInterest names), _, myself) =>
    if !myself then a.handleInterestMessage names fuel else some a
  | (some (protoMessage.ServicesList services), clientID, myself) =>
    if !myself then a.handleServiceListMessage services clientID now fuel else some a
  | (some (protoMessage.AgentStopped _), clientID, myself) =>
    if !myself then a.handleStopMessage clientID fuel else some a

/-! ## Runs of the agent -/

/-- The events that act on an agent: the caller making a record, the public
operations, the connectivity callback, an inbound message, and the two
periodic actions of the worker and its taking of a queued message. -/
inductive Op where
  | alloc (Name Address : String)
  | Register (info : Nat)
  | Unregister (info : Nat)
  | Start (subscribeErr : Option String)
  | Stop
  | Watch (serviceName : String)
  | Unwatch (serviceName : String)
  | ConnStateHandler (connected : Bool)
  | handleMessage (msg : Msg) (now : Int)
  | checkExpiration (now : Int)
  | sendUpdates
  | workerRecv (c : Nat)
deriving DecidableEq, Repr

/-- The worker receiving one message from channel `c`. -/
def Agent.workerRecv (a : Agent) (c : Nat) : Option Agent :=
  match a.chans[c]? with
  | none => none
  | some ch =>
    match ch.buf with
    | [] => none
    | _ :: rest => some { a with chans := a.chans.set c { ch with buf := rest } }

/-- One event applied to a state. -/
def step (fuel : Nat) (a : Agent) : Op → Option Agent
  | .alloc name address =>
    some { a with mem := a.mem ++ [{ Name := name, Address := address, UpdatedAt := 0,
                                     GoodUntil := 0, updatedBy := "", next := none,
                                     prev := none }] }
  | .Register info => a.Register info fuel
  | .Unregister info => a.Unregister info fuel
  | .Start err => (a.Start err).map Prod.fst
  | .Stop => (a.Stop fuel).map Prod.fst
  | .Watch n => a.Watch n
  | .Unwatch n => a.Unwatch n fuel
  | .ConnStateHandler c => a.ConnStateHandler c
  | .handleMessage msg now => a.handleMessage msg now fuel
  | .checkExpiration now => a.checkExpiration now fuel
  | .sendUpdates => (a.sendUpdates fuel).map (fun _ => a)
  | .workerRecv c => a.workerRecv c

/-- A sequence of events applied in order. -/
def run (fuel : Nat) : Agent → List Op → Option Agent
  | a, [] => some a
  | a, op :: rest =>
    match step fuel a op with
    | none => none
    | some a1 => run fuel a1 rest

/-- The agent that `NewAgent` returns for the identifier `cid` and no option. -/
def newAgent (cid : String) : Agent :=
  { mem := [], chans := [], subjectPrefix := DefaultSubjectPrefix,
    prefixParts := (Split DefaultSubjectPrefix).length,
    knownServices := ⟨none, none, 0⟩, providedServices := ⟨none, none, 0⟩, subs := false,
    watched := [], connected := false, running := false, send := none, clientID := cid }

/-- A state is reachable when some run from a new agent ends in it. -/
def Reachable (a : Agent) : Prop :=
  ∃ (cid : String) (fuel : Nat) (ops : List Op), run fuel (newAgent cid) ops = some a

/-- The provided records, in the order in which walking from `first` meets them. -/
def Agent.provided (a : Agent) (fuel : Nat) : Option (List ServiceInfo) :=
  (chain a.mem fuel a.providedServices.first).map (fun ps => ps.filterMap (fun p => a.mem[p]?))

/-- The known records, in the order in which walking from `first` meets them. -/
def Agent.known (a : Agent) (fuel : Nat) : Option (List ServiceInfo) :=
  (chain a.mem fuel a.knownServices.first).map (fun ps => ps.filterMap (fun p => a.mem[p]?))



/-! ## Messages and runs used by the evaluations below -/

/-- A service list published by `sender` on the default prefix; each entry is a
pair of name and address. -/
def serviceListFrom (sender : String) (entries : List (String × String)) : Msg :=
  { Subject := DefaultSubjectPrefix ++ ".servicelist." ++ sender,
    asServiceInterest := none,
    asServicesList := some (entries.map (fun e => ⟨e.1, e.2, sender⟩)),
    asAgentStopped := none }

/-- A stop notice published by `sender` on the default prefix, with the empty
payload that `Stop` sends. -/
def stopFrom (sender : String) : Msg :=
  { Subject := DefaultSubjectPrefix ++ ".stop." ++ sender,
    asServiceInterest := some [],
    asServicesList := some [],
    asAgentStopped := some "" }

/-- The run in which record 0 is registered and unregistered, then record 1 is made. -/
def runEmptied : List Op :=
  [.alloc "a" "1", .Register 0, .Unregister 0, .alloc "b" "2"]

/-- The run in which records 0 and 1 are registered. -/
def runTwoProvided : List Op :=
  [.alloc "a" "1", .alloc "b" "2", .Register 0, .Register 1]

/-- The run in which records 0 and 1 are registered, record 1 is unregistered
and record 2 is made. -/
def runTailRemoved : List Op :=
  [.alloc "a" "1", .alloc "b" "2", .alloc "c" "3", .Register 0, .Register 1, .Unregister 1]

/-- The run of a started, connected agent in which a known record expires and
is swept, and then a second record is announced at time 3 s. -/
def runSweptThenAnnounced : List Op :=
  [.Start none, .ConnStateHandler true,
   .handleMessage (serviceListFrom "peer" [("a", "1")]) 0,
   .checkExpiration 2000000000,
   .handleMessage (serviceListFrom "peer" [("b", "2")]) 3000000000]

/-- The run of a started, connected agent that learns one record from `peer`,
gets the stop notice of `peer`, and learns a second record from `peer`. -/
def runStoppedThenAnnounced : List Op :=
  [.Start none, .ConnStateHandler true,
   .handleMessage (serviceListFrom "peer" [("a", "1")]) 0,
   .handleMessage (stopFrom "peer") 1,
   .handleMessage (serviceListFrom "peer" [("b", "2")]) 2]

/-- The run of a started, connected agent that learns a record from `p1` and
one from `p2` and then gets the stop notice of `p2`. -/
def runKnownTailRemoved : List Op :=
  [.Start none, .ConnStateHandler true,
   .handleMessage (serviceListFrom "p1" [("a", "1")]) 0,
   .handleMessage (serviceListFrom "p2" [("b", "2")]) 0,
   .handleMessage (stopFrom "p2") 1]

/-- The run of a started, connected agent that learns a record from `p1` at
time 0 and one from `p2` at time 1 s. -/
def runTwoKnown : List Op :=
  [.Start none, .ConnStateHandler true,
   .handleMessage (serviceListFrom "p1" [("a", "1")]) 0,
   .handleMessage (serviceListFrom "p2" [("b", "2")]) 1000000000]

/-- The run of a started, connected agent that watches nothing and receives an
announcement from `p1`. -/
def runUnwatched : List Op :=
  [.Start none, .ConnStateHandler true,
   .handleMessage (serviceListFrom "p1" [("a", "1")]) 0]

/-- The run of a started, connected agent that provides (`svc`, `local:1`) and
learns (`svc`, `10.0.0.1:9000`) and (`other`, `x`) from `p1`. -/
def runKnownAndProvided : List Op :=
  [.alloc "svc" "local:1", .Register 0, .Start none, .ConnStateHandler true,
   .handleMessage (serviceListFrom "p1" [("svc", "10.0.0.1:9000"), ("other", "x")]) 0]

/-- The known record for (`svc`, `10.0.0.1:9000`) in that run. -/
def recKnownSvc : ServiceInfo :=
  { Name := "svc", Address := "10.0.0.1:9000", UpdatedAt := 0, GoodUntil := 1100000000,
    updatedBy := "p1", next := some 2, prev := none }

/-- The known record for (`other`, `x`) in that run. -/
def recKnownOther : ServiceInfo :=
  { Name := "other", Address := "x", UpdatedAt := 0, GoodUntil := 1100000000,
    updatedBy := "p1", next := none, prev := some 1 }

/-- The provided record for (`svc`, `local:1`) in that run. -/
def recProvidedSvc : ServiceInfo :=
  { Name := "svc", Address := "local:1", UpdatedAt := 0, GoodUntil := 0, updatedBy := "",
    next := none, prev := none }

/-- The state in which `runKnownAndProvided` ends. -/
def stateKnownAndProvided : Agent :=
  (run 10 (newAgent "me") runKnownAndProvided).getD (newAgent "me")

/-! ## Lifecycle invariant -/

/-- The worker invariant: `send` is non-nil exactly when the agent is running
and connected, and a non-nil `send` is an allocated channel that is not closed. -/
def QueueInv (a : Agent) : Prop :=
  (a.send ≠ none ↔ (a.running = true ∧ a.connected = true)) ∧
    ∀ c, a.send = some c → ∃ ch, a.chans[c]? = some ch ∧ ch.closed = false

/-- The state of a new agent after `Start`, before any connectivity callback. -/
def stateStarted : Agent :=
  (run 10 (newAgent "me") [.Start none]).getD (newAgent "me")

/-- The state of a started, connected agent that watches `x` and `y`. -/
def stateWatching : Agent :=
  (run 10 (newAgent "me") [.Watch "x", .Watch "y", .Start none, .ConnStateHandler true]).getD
    (newAgent "me")

/-- An interest message published by `sender` on the default prefix. -/
def interestFrom (sender : String) (names : List String) : Msg :=
  { Subject := DefaultSubjectPrefix ++ ".interest." ++ sender,
    asServiceInterest := some names,
    asServicesList := none,
    asAgentStopped := none }

/-- Two states agree on what the worker invariant reads: the flags, `send`, and
which channels are closed. -/
def QueueFrame (a b : Agent) : Prop :=
  b.running = a.running ∧ b.connected = a.connected ∧ b.send = a.send ∧
    b.chans.map chanState.closed = a.chans.map chanState.closed

/-! ## Store invariant -/

/-- Node `i` with value `v` is well linked with respect to the set `K` of
records made by the handlers: its `next` and `prev` are allocated, lie on the
same side of `K` as `i`, and for a record of `K` the `next` has a larger and
the `prev` a smaller index. -/
def nodeOK (K : List Nat) (n : Nat) (i : Nat) (v : ServiceInfo) : Prop :=
  (∀ j, v.next = some j → j < n ∧ (j ∈ K ↔ i ∈ K) ∧ (i ∈ K → i < j)) ∧
    (∀ j, v.prev = some j → j < n ∧ (j ∈ K ↔ i ∈ K) ∧ (i ∈ K → j < i))

/-- Every node of the store is well linked and `K` holds allocated indices only. -/
def StoreOK (K : List Nat) (m : Store) : Prop :=
  (∀ i v, m[i]? = some v → nodeOK K m.length i v) ∧ ∀ i ∈ K, i < m.length

/-- The ends of the list `l` are allocated and lie in `K` exactly when `side` holds. -/
def listOK (K : List Nat) (n : Nat) (side : Prop) (l : infoList) : Prop :=
  (∀ j, l.first = some j → j < n ∧ (j ∈ K ↔ side)) ∧
    (∀ j, l.last = some j → j < n ∧ (j ∈ K ↔ side))

/-- The store invariant of an agent: the known list lives in `K`, the provided
list outside of it. -/
def HeapInv (K : List Nat) (a : Agent) : Prop :=
  StoreOK K a.mem ∧ listOK K a.mem.length True a.knownServices ∧
    listOK K a.mem.length False a.providedServices

/-- One event of a run in which the caller passes to `Register` and
`Unregister` only records that are not in `K` (records it made itself); the
records that a handler allocates are added to `K`. -/
def stepOwned (fuel : Nat) (a : Agent) (K : List Nat) (op : Op) : Option (Agent × List Nat) :=
  match op with
  | .Register info => if info ∈ K then none else (step fuel a op).map (fun b => (b, K))
  | .Unregister info => if info ∈ K then none else (step fuel a op).map (fun b => (b, K))
  | .handleMessage _ _ =>
    (step fuel a op).map
      (fun b => (b, K ++ List.range' a.mem.length (b.mem.length - a.mem.length)))
  | _ => (step fuel a op).map (fun b => (b, K))

/-- A sequence of events applied in order, with the set `K` carried along. -/
def runOwned (fuel : Nat) : Agent → List Nat → List Op → Option (Agent × List Nat)
  | a, K, [] => some (a, K)
  | a, K, op :: rest =>
    match stepOwned fuel a K op with
    | none => none
    | some (a1, K1) => runOwned fuel a1 K1 rest

/-- A state is reachable by the caller when a run from a new agent ends in it
in which `Register` and `Unregister` get caller-made records only. -/
def ReachableOwned (a : Agent) : Prop :=
  ∃ (cid : String) (fuel : Nat) (ops : List Op) (K : List Nat),
    runOwned fuel (newAgent cid) [] ops = some (a, K)

/-- A state is well formed when it satisfies the store invariant for some set
of handler-made records, and the worker invariant. -/
def WellFormed (a : Agent) : Prop :=
  (∃ K, HeapInv K a) ∧ QueueInv a

/-- Two states have the same store and the same two lists. -/
def HeapFrame (a b : Agent) : Prop :=
  b.mem = a.mem ∧ b.knownServices = a.knownServices ∧
    b.providedServices = a.providedServices

/-- The state of a started agent that is not connected and provides (`svc`, `local:1`). -/
def stateStartedNotConnected : Agent :=
  (run 10 (newAgent "me") [.alloc "svc" "local:1", .Register 0, .Start none]).getD
    (newAgent "me")

/-- The run of a started, connected agent that provides (`svc`, `local:1`) and
(`db`, `local:2`), and learns (`svc`, `10.0.0.1:9000`) and (`other`, `x`). -/
def runServing : List Op :=
  [.alloc "svc" "local:1", .alloc "db" "local:2", .Register 0, .Register 1, .Start none,
   .ConnStateHandler true, .Watch "svc",
   .handleMessage (serviceListFrom "p1" [("svc", "10.0.0.1:9000"), ("other", "x")]) 0]

/-- The state in which `runServing` ends. -/
def stateServing : Agent :=
  (run 10 (newAgent "me") runServing).getD (newAgent "me")

/-- Store `m1` has the records of `m` with the same `Name` and `Address`. -/
def SameFields (m m1 : Store) : Prop :=
  m1.length = m.length ∧
    ∀ (i : Nat) (v : ServiceInfo), m[i]? = some v →
      ∃ w : ServiceInfo, m1[i]? = some w ∧ w.Name = v.Name ∧ w.Address = v.Address

/-- The channel `send` of `stateServing`: it holds the two interest messages
sent so far. -/
def chanServing : chanState :=
  ⟨[⟨"github.com.hatobitoio.discovery.interest.me", some (protoMessage.ServiceInterest [])⟩,
    ⟨"github.com.hatobitoio.discovery.interest.me",
      some (protoMessage.ServiceInterest ["svc"])⟩], false⟩

/-- The provided records of `stateServing`. -/
def providedServing : List ServiceInfo :=
  [{ Name := "svc", Address := "local:1", UpdatedAt := 0, GoodUntil := 0, updatedBy := "",
     next := some 1, prev := none },
   { Name := "db", Address := "local:2", UpdatedAt := 0, GoodUntil := 0, updatedBy := "",
     next := none, prev := some 0 }]

/-! ## Goroutines and the lock -/

/-- The atomic actions of a goroutine that the lock discipline is about: the
two operations on the channel `l` (`a.lock()` sends, `a.unlock()` receives),
the allocation and the three field writes with which `handleServiceListMessage`
refreshes a known record, and the body of `Discover`. -/
inductive Act where
  | lock
  | unlock
  | newSearch (v : ServiceInfo)
  | setUpdatedBy (item : Nat) (clientID : String)
  | setUpdatedAt (item : Nat) (now : Int)
  | setGoodUntil (item : Nat) (deadline : Int)
  | discover (serviceName : String) (includeLocal : Bool)
deriving DecidableEq, Repr

/-- The agent shared by some goroutines: `l` tells whether the channel `l`
holds its token, `threads` are the actions each goroutine has still to do,
`returned` collects what the calls of `Discover` returned. -/
structure Shared where
  agent : Agent
  l : Bool
  threads : List (List Act)
  returned : List (List ServiceInfo)
deriving DecidableEq, Repr

/-- Goroutine `t` does its next action.  A send on the full channel `l` and a
receive from the empty one block (`none`). -/
def Shared.step (fuel : Nat) (s : Shared) (t : Nat) : Option Shared :=
  match s.threads[t]? with
  | some (act :: rest) =>
    let s1 : Shared := { s with threads := s.threads.set t rest }
    match act with
    | .lock => if s.l then none else some { s1 with l := true }
    | .unlock => if s.l then some { s1 with l := false } else none
    | .newSearch v => some { s1 with agent := { s.agent with mem := s.agent.mem ++ [v] } }
    | .setUpdatedBy item clientID =>
      (s.agent.mem.upd item (fun v => { v with updatedBy := clientID })).map
        (fun m => { s1 with agent := { s.agent with mem := m } })
    | .setUpdatedAt item now =>
      (s.agent.mem.upd item (fun v => { v with UpdatedAt := now })).map
        (fun m => { s1 with agent := { s.agent with mem := m } })
    | .setGoodUntil item deadline =>
      (s.agent.mem.upd item (fun v => { v with GoodUntil := deadline })).map
        (fun m => { s1 with agent := { s.agent with mem := m } })
    | .discover serviceName includeLocal =>
      (s.agent.Discover serviceName includeLocal fuel).map
        (fun r => { s1 with returned := s.returned ++ [r] })
  | _ => none

/-- The goroutines run in the order given by the schedule. -/
def Shared.run (fuel : Nat) : Shared → List Nat → Option Shared
  | s, [] => some s
  | s, t :: rest =>
    match s.step fuel t with
    | none => none
    | some s1 => s1.run fuel rest

/-- The actions of `handleServiceListMessage` for a list with the one entry
`svc` when `find` returns the known record `item`: `a.lock()`, the allocation
of `search`, the three writes to `item`, and the deferred `a.unlock()`. -/
def refreshActs (svc : ServiceInfoProto) (clientID : String) (now : Int) (item : Nat) :
    List Act :=
  [.lock,
   .newSearch { Address := svc.Address, Name := svc.Name, updatedBy := clientID,
                UpdatedAt := now,
                GoodUntil := now + (DefaultUpdateInterval + DefaultUpdateInterval / 10),
                next := none, prev := none },
   .setUpdatedBy item clientID,
   .setUpdatedAt item now,
   .setGoodUntil item (now + (DefaultUpdateInterval + DefaultUpdateInterval / 10)),
   .unlock]

/-- The actions of a call of `Discover`: its body, with no `a.lock()` before
and no `a.unlock()` after. -/
def discoverActs (serviceName : String) (includeLocal : Bool) : List Act :=
  [.discover serviceName includeLocal]

/-- The actions `Discover` would have with the lock taken as in `Register`. -/
def lockedDiscoverActs (serviceName : String) (includeLocal : Bool) : List Act :=
  [.lock, .discover serviceName includeLocal, .unlock]

/-- The state of a started, connected agent that learned (`svc`,
`10.0.0.1:9000`) from `p1` at time 0. -/
def stateOneKnown : Agent :=
  (run 10 (newAgent "me") [.Start none, .ConnStateHandler true,
    .handleMessage (serviceListFrom "p1" [("svc", "10.0.0.1:9000")]) 0]).getD (newAgent "me")

/-- The agent `stateOneKnown` shared by the goroutine of a handler that
refreshes record 0 on behalf of `p2` at time 5 s and by a second goroutine. -/
def sharedRefresh (other : List Act) : Shared :=
  { agent := stateOneKnown, l := false,
    threads := [refreshActs ⟨"svc", "10.0.0.1:9000", "p2"⟩ "p2" 5000000000 0, other],
    returned := [] }


/-! ## Walks that do not end, and sends without a queue -/

/-- The run in which the caller registers record 0, unregisters it and
registers the same record again; record 1 is made but never registered. -/
def runRegisteredAgain : List Op :=
  [.alloc "a" "1", .alloc "b" "2", .Register 0, .Unregister 0, .Register 0]

/-- The state in which `runRegisteredAgain` ends. -/
def stateRegisteredAgain : Agent :=
  (run 10 (newAgent "me") runRegisteredAgain).getD (newAgent "me")

/-- The run of an agent that provides (`svc`, `local:1`), is started and
connected, and then loses the connection. -/
def runDisconnected : List Op :=
  [.alloc "svc" "local:1", .Register 0, .Start none, .ConnStateHandler true,
   .ConnStateHandler false]

/-- The state in which `runDisconnected` ends. -/
def stateDisconnected : Agent :=
  (run 10 (newAgent "me") runDisconnected).getD (newAgent "me")


/-! ## Distinct known records -/

/-- Record `p` is met when walking from `start` along the `next` links of `m`. -/
inductive Reach (m : Store) : Option Nat → Nat → Prop where
  | here (p : Nat) : Reach m (some p) p
  | step (s : Nat) (v : ServiceInfo) (p : Nat) :
      m[s]? = some v → Reach m v.next p → Reach m (some s) p

/-- The records met from `start` are allocated, and no two of them have the
same `Name` and the same `Address`. -/
def Distinct (m : Store) (start : Option Nat) : Prop :=
  (∀ p, Reach m start p → p < m.length) ∧
    ∀ (p q : Nat) (vp vq : ServiceInfo), Reach m start p → Reach m start q →
      m[p]? = some vp → m[q]? = some vq → vp.Name = vq.Name → vp.Address = vq.Address → p = q

/-- The run of a started, connected agent to which `p1` announces (`a`, `1`)
twice and (`b`, `2`) in one message, and then `p2` announces (`a`, `1`) and
(`a`, `2`). -/
def runAnnouncedTwice : List Op :=
  [.Start none, .ConnStateHandler true,
   .handleMessage (serviceListFrom "p1" [("a", "1"), ("a", "1"), ("b", "2")]) 0,
   .handleMessage (serviceListFrom "p2" [("a", "1"), ("a", "2")]) 1000000000]

/-- The state in which `runAnnouncedTwice` ends. -/
def stateAnnouncedTwice : Agent :=
  (run 10 (newAgent "me") runAnnouncedTwice).getD (newAgent "me")


/-! ## Workers, and walks of the provided list that do not end -/

/-- The indices, counted from `i`, of the channels of `chans` that are not closed. -/
def openFrom : Nat → List chanState → List Nat
  | _, [] => []
  | i, ch :: rest => if ch.closed then openFrom (i + 1) rest else i :: openFrom (i + 1) rest

/-- The Workers that exist, each named by its channel: `startStopWorker(true)`
makes a channel and starts `go worker(a)` on it, and that Worker leaves its
loop only when its channel is closed, so the Workers are the channels that
are not closed. -/
def Agent.workers (a : Agent) : List Nat := openFrom 0 a.chans

/-- Every channel that is not closed is `send`. -/
def OneWorker (a : Agent) : Prop :=
  ∀ (c : Nat) (ch : chanState), a.chans[c]? = some ch → ch.closed = false → a.send = some c

/-- The run of a started, connected agent that learns (`a`, `9`) from `p1`,
and whose caller registers record 0, unregisters it and registers the same
record again. -/
def runKnownRegisteredAgain : List Op :=
  [.alloc "a" "1", .Start none, .ConnStateHandler true,
   .handleMessage (serviceListFrom "p1" [("a", "9")]) 0,
   .Register 0, .Unregister 0, .Register 0]

/-- The state in which `runKnownRegisteredAgain` ends. -/
def stateKnownRegisteredAgain : Agent :=
  (run 10 (newAgent "me") runKnownRegisteredAgain).getD (newAgent "me")

/-- The run of a started, connected agent whose caller makes records 0 and 1,
registers record 0, unregisters it and registers it again. -/
def runQueueRegisteredAgain : List Op :=
  [.alloc "a" "1", .alloc "b" "2", .Start none, .ConnStateHandler true,
   .Register 0, .Unregister 0, .Register 0]

/-- The state in which `runQueueRegisteredAgain` ends. -/
def stateQueueRegisteredAgain : Agent :=
  (run 10 (newAgent "me") runQueueRegisteredAgain).getD (newAgent "me")

/-- The run of a started agent that is connected, loses the connection and is
connected again. -/
def runReconnected : List Op :=
  [.Watch "x", .Start none, .ConnStateHandler true, .ConnStateHandler false,
   .ConnStateHandler true]

/-- The state in which `runReconnected` ends: the first channel is closed and
`send` is the second one. -/
def stateReconnected : Agent :=
  (run 10 (newAgent "me") runReconnected).getD (newAgent "me")

/-! ## Evaluations of the registry operations -/

/-- C1: a state reached by `Register`, `Unregister` on a new agent has an empty
provided set; there `Register` of a second record followed by `Unregister` of
it leaves that record in the provided set, and `Discover` with local records
returns it. -/
theorem register_unregister_leaves_record :
    ∃ a : Agent, Reachable a ∧ a.provided 10 = some [] ∧
      ((a.Register 1 10).bind (fun b => b.Unregister 1 10)).bind (fun c => c.provided 10) =
        some [{ Name := "b", Address := "2", UpdatedAt := 0, GoodUntil := 0, updatedBy := "",
                next := none, prev := some 0 }] ∧
      ((a.Register 1 10).bind (fun b => b.Unregister 1 10)).bind
          (fun c => c.Discover "b" true 10) =
        some [{ Name := "b", Address := "2", UpdatedAt := 0, GoodUntil := 0, updatedBy := "",
                next := none, prev := some 0 }] := by
  refine ⟨_, ⟨"me", 10, runEmptied, rfl⟩, ?_, ?_, ?_⟩ <;> decide

/-- C2: in a state reached by a sweep followed by an announcement, the known
record has `GoodUntil` 4.1 s; after `checkExpiration` at 5 s that record is
still met when walking the known list, and `Discover` returns it. -/
theorem sweep_keeps_expired_record :
    ∃ a : Agent, Reachable a ∧
      (a.checkExpiration 5000000000 10).bind (fun b => b.known 10) =
        some [{ Name := "b", Address := "2", UpdatedAt := 3000000000,
                GoodUntil := 4100000000, updatedBy := "peer", next := none,
                prev := some 0 }] ∧
      (a.checkExpiration 5000000000 10).bind (fun b => b.Discover "b" false 10) =
        some [{ Name := "b", Address := "2", UpdatedAt := 3000000000,
                GoodUntil := 4100000000, updatedBy := "peer", next := none,
                prev := some 0 }] := by
  refine ⟨_, ⟨"me", 10, runSweptThenAnnounced, rfl⟩, ?_, ?_⟩ <;> decide

/-- C3: in a state reached by a stop notice followed by an announcement from
`peer`, handling a second stop notice whose subject carries the sender `peer`
(not the agent's own identifier) leaves a known record with `updatedBy`
equal to `peer`. -/
theorem stop_notice_keeps_record :
    ∃ a : Agent, Reachable a ∧ a.clientID ≠ "peer" ∧
      (a.handleMessage (stopFrom "peer") 3 10).bind (fun b => b.known 10) =
        some [{ Name := "b", Address := "2", UpdatedAt := 2, GoodUntil := 1100000002,
                updatedBy := "peer", next := none, prev := some 0 }] := by
  refine ⟨_, ⟨"me", 10, runStoppedThenAnnounced, rfl⟩, ?_, ?_⟩ <;> decide

/-- C4: after two records are registered and the second is unregistered,
`Register` of record 2 (name `c`) returns, but walking the provided list meets
only record 0, and `Discover` for `c` with local records returns nothing. -/
theorem register_after_unregister_not_provided :
    ∃ a : Agent, Reachable a ∧
      a.mem[2]? = some { Name := "c", Address := "3", UpdatedAt := 0, GoodUntil := 0,
                         updatedBy := "", next := none, prev := none } ∧
      (a.Register 2 10).bind (fun b => b.provided 10) =
        some [{ Name := "a", Address := "1", UpdatedAt := 0, GoodUntil := 0, updatedBy := "",
                next := none, prev := none }] ∧
      (a.Register 2 10).bind (fun b => b.Discover "c" true 10) = some [] := by
  refine ⟨_, ⟨"me", 10, runTailRemoved, rfl⟩, ?_, ?_, ?_⟩ <;> decide

/-- C5: after the last known record was removed by a stop notice, a service
list from `p3` with the entry (`c`, `3`) is handled, but walking the known
list meets only the older record, and `Discover` for `c` returns nothing. -/
theorem service_list_entry_not_known :
    ∃ a : Agent, Reachable a ∧ a.clientID ≠ "p3" ∧
      (a.handleMessage (serviceListFrom "p3" [("c", "3")]) 2 10).bind (fun b => b.known 10) =
        some [{ Name := "a", Address := "1", UpdatedAt := 0, GoodUntil := 1100000000,
                updatedBy := "p1", next := none, prev := none }] ∧
      (a.handleMessage (serviceListFrom "p3" [("c", "3")]) 2 10).bind
          (fun b => b.Discover "c" false 10) = some [] := by
  refine ⟨_, ⟨"me", 10, runKnownTailRemoved, rfl⟩, ?_, ?_, ?_⟩ <;> decide

/-- C6: with the records (`a`, `1`) and (`b`, `2`) provided in this order,
`Unregister` of the first leaves an empty provided sequence: the record
(`b`, `2`), which does not match, is gone as well. -/
theorem unregister_first_drops_all :
    ∃ a : Agent, Reachable a ∧
      a.provided 10 =
        some [{ Name := "a", Address := "1", UpdatedAt := 0, GoodUntil := 0, updatedBy := "",
                next := some 1, prev := none },
              { Name := "b", Address := "2", UpdatedAt := 0, GoodUntil := 0, updatedBy := "",
                next := none, prev := some 0 }] ∧
      (a.Unregister 0 10).bind (fun b => b.provided 10) = some [] := by
  refine ⟨_, ⟨"me", 10, runTwoProvided, rfl⟩, ?_, ?_⟩ <;> decide

/-- C7: with two known records, the second from `p2` and good until 2.1 s, a
sweep at 1.5 s (after the first record's deadline only) leaves the known
list empty; so does a stop notice from `p1`, which is not the origin of the
second record, and so does `Unwatch` of the first record's name. -/
theorem sweep_destroys_live_record :
    ∃ a : Agent, Reachable a ∧
      a.known 10 =
        some [{ Name := "a", Address := "1", UpdatedAt := 0, GoodUntil := 1100000000,
                updatedBy := "p1", next := some 1, prev := none },
              { Name := "b", Address := "2", UpdatedAt := 1000000000,
                GoodUntil := 2100000000, updatedBy := "p2", next := none,
                prev := some 0 }] ∧
      (a.checkExpiration 1500000000 10).bind (fun b => b.known 10) = some [] ∧
      (a.handleMessage (stopFrom "p1") 1500000000 10).bind (fun b => b.known 10) = some [] ∧
      (a.Unwatch "a" 10).bind (fun b => b.known 10) = some [] := by
  refine ⟨_, ⟨"me", 10, runTwoKnown, rfl⟩, ?_, ?_, ?_, ?_⟩ <;> decide

/-- C9: a started, connected agent with an empty watch set receives an
announcement for the name `a`; `Discover` for `a` without local records then
returns that record although `a` is not watched. -/
theorem unwatched_name_discovered :
    ∃ a : Agent, Reachable a ∧ a.watched = [] ∧
      a.Discover "a" false 10 =
        some [{ Name := "a", Address := "1", UpdatedAt := 0, GoodUntil := 1100000000,
                updatedBy := "p1", next := none, prev := none }] := by
  refine ⟨_, ⟨"me", 10, runUnwatched, rfl⟩, ?_, ?_⟩ <;> decide



/-! ## The subject codec on well-formed subjects -/

theorem splitChars_ne_nil (sep : Char) (cs : List Char) : splitChars sep cs ≠ [] := by
  cases cs with
  | nil => simp [splitChars]
  | cons c cs =>
    unfold splitChars
    split
    · simp
    · split <;> simp

theorem splitChars_append_sep (sep : Char) (xs ys : List Char) :
    splitChars sep (xs ++ sep :: ys) = splitChars sep xs ++ splitChars sep ys := by
  induction xs with
  | nil => simp [splitChars]
  | cons c xs ih =>
    by_cases hc : c = sep
    · simp [splitChars, hc, ih]
    · have hne := splitChars_ne_nil sep xs
      cases hx : splitChars sep xs with
      | nil => exact absurd hx hne
      | cons p ps => simp [splitChars, hc, ih, hx]

theorem Split_append_dot (s t : String) : Split (s ++ "." ++ t) = Split s ++ Split t := by
  have hdata : (s ++ "." ++ t).data = s.data ++ '.' :: t.data := by
    simp [String.data_append]
  simp [Split, hdata, splitChars_append_sep]

theorem Join_map_splitChars (cs : List Char) :
    Join ((splitChars '.' cs).map String.mk) = String.mk cs := by
  induction cs with
  | nil => simp [splitChars, Join]
  | cons c cs ih =>
    have hne := splitChars_ne_nil '.' cs
    cases hx : splitChars '.' cs with
    | nil => exact absurd hx hne
    | cons p ps =>
      rw [hx] at ih
      by_cases hc : c = '.'
      · subst hc
        simp only [splitChars, if_true, hx, List.map_cons, Join]
        simp only [List.map_cons] at ih
        rw [ih]
        apply String.ext
        simp [String.data_append]
      · cases ps with
        | nil =>
          simp only [List.map_cons, List.map_nil, Join] at ih
          simp only [splitChars, if_neg hc, hx, List.map_cons, List.map_nil, Join]
          have hp : p = cs := by simpa using congrArg String.data ih
          rw [hp]
        | cons q qs =>
          simp only [List.map_cons, Join] at ih
          simp only [splitChars, if_neg hc, hx, List.map_cons, Join]
          apply String.ext
          have hd := congrArg String.data ih
          simp only [String.data_append] at hd
          simp only [String.data_append]
          simpa using hd

theorem Join_Split (s : String) : Join (Split s) = s := by
  simpa [Split] using Join_map_splitChars s.data

theorem splitChars_not_mem (sep : Char) (cs : List Char) :
    ∀ q ∈ splitChars sep cs, sep ∉ q := by
  induction cs with
  | nil => intro q hq; simp [splitChars] at hq; simp [hq]
  | cons c cs ih =>
    intro q hq
    have hne := splitChars_ne_nil sep cs
    cases hx : splitChars sep cs with
    | nil => exact absurd hx hne
    | cons p ps =>
      rw [hx] at ih
      by_cases hc : c = sep
      · simp only [splitChars, if_pos hc, hx, List.mem_cons] at hq
        rcases hq with h | h | h
        · simp [h]
        · exact ih q (by simp [h])
        · exact ih q (by simp [h])
      · simp only [splitChars, if_neg hc, hx, List.mem_cons] at hq
        rcases hq with h | h
        · have hp := ih p (by simp)
          subst h
          simp only [List.mem_cons, not_or]
          exact ⟨fun e => hc e.symm, hp⟩
        · exact ih q (by simp [h])

theorem splitChars_of_not_mem (sep : Char) (cs : List Char) (h : sep ∉ cs) :
    splitChars sep cs = [cs] := by
  induction cs with
  | nil => simp [splitChars]
  | cons c cs ih =>
    simp only [List.mem_cons, not_or] at h
    have hc : ¬ c = sep := fun e => h.1 e.symm
    simp [splitChars, hc, ih h.2]

theorem Split_not_mem (s t : String) (ht : t ∈ Split s) : '.' ∉ t.data := by
  simp only [Split, List.mem_map] at ht
  obtain ⟨q, hq, rfl⟩ := ht
  exact splitChars_not_mem '.' s.data q hq

theorem Split_of_not_mem (s : String) (h : '.' ∉ s.data) : Split s = [s] := by
  simp [Split, splitChars_of_not_mem '.' s.data h]

theorem Split_Join (l : List String) (hne : l ≠ []) (h : ∀ s ∈ l, '.' ∉ s.data) :
    Split (Join l) = l := by
  induction l with
  | nil => exact absurd rfl hne
  | cons p rest ih =>
    cases rest with
    | nil => simpa [Join] using Split_of_not_mem p (h p (by simp))
    | cons q qs =>
      have ih1 := ih (by simp) (fun s hs => h s (List.mem_cons_of_mem _ hs))
      simp only [Join]
      rw [Split_append_dot, ih1, Split_of_not_mem p (h p (by simp))]
      simp

/-- When the message does not decode or the flag `myself` of the parsed
message is set, `handleMessage` returns the agent as it was. -/
theorem handleMessage_of_myself (a : Agent) (msg : Msg) (now : Int) (fuel : Nat)
    (h : (a.parseNatsMessage msg).1 = none ∨ (a.parseNatsMessage msg).2.2 = true) :
    a.handleMessage msg now fuel = some a := by
  unfold Agent.handleMessage
  rcases hp : a.parseNatsMessage msg with ⟨decoded, cid, myself⟩
  rw [hp] at h
  simp only at h
  rcases h with h | h
  · subst h; rfl
  · subst h
    cases decoded with
    | none => rfl
    | some d => cases d <;> rfl

/-- A subject built as prefix, action, sender splits into exactly these parts. -/
theorem Split_subject (p action c : String) (hact : Split action = [action]) :
    Split (p ++ "." ++ action ++ "." ++ c) = Split p ++ action :: Split c := by
  rw [Split_append_dot, Split_append_dot, hact]
  simp

/-- On a subject made of the agent's prefix, an action without a dot and the
agent's own identifier, `parseNatsMessage` either yields no message or sets the
flag `myself`, whatever the value of `prefixParts`. -/
theorem parseNatsMessage_self (a : Agent) (msg : Msg) (action : String)
    (hact : Split action = [action])
    (hsubj : msg.Subject = a.subjectPrefix ++ "." ++ action ++ "." ++ a.clientID) :
    (a.parseNatsMessage msg).1 = none ∨ (a.parseNatsMessage msg).2.2 = true := by
  have hs := Split_subject a.subjectPrefix action a.clientID hact
  have hnil : Split a.clientID ≠ [] := by
    have := splitChars_ne_nil '.' a.clientID.data
    simpa [Split] using this
  have hpnil : Split a.subjectPrefix ≠ [] := by
    have := splitChars_ne_nil '.' a.subjectPrefix.data
    simpa [Split] using this
  have hfree : ∀ t ∈ Split a.subjectPrefix ++ action :: Split a.clientID, '.' ∉ t.data := by
    intro t ht
    simp only [List.mem_append, List.mem_cons] at ht
    rcases ht with h | h | h
    · exact Split_not_mem _ t h
    · exact Split_not_mem action t (by rw [hact, h]; simp)
    · exact Split_not_mem _ t h
  unfold Agent.parseNatsMessage
  simp only [hsubj, hs]
  generalize hP : Split a.subjectPrefix ++ action :: Split a.clientID = P at hfree
  by_cases hm : (decide (P.length > a.prefixParts + 1) &&
      (Join (P.take a.prefixParts) == a.subjectPrefix)) = true
  swap
  · left
    simp only [Bool.not_eq_true] at hm
    simp [hm]
  · have hm1 := hm
    simp only [Bool.and_eq_true, decide_eq_true_eq, beq_iff_eq] at hm1
    obtain ⟨hlen, hjoin⟩ := hm1
    simp only [hm, Bool.not_true, Bool.false_eq_true, if_false]
    cases hk : a.prefixParts with
    | zero =>
      left
      rw [hk] at hjoin
      simp only [List.take_zero, Join] at hjoin
      have hsp : Split a.subjectPrefix = [""] := by rw [← hjoin]; decide
      have hP0 : P.getD 0 "" = "" := by rw [← hP, hsp]; rfl
      simp only [hP0]
      rw [if_neg (by decide), if_neg (by decide), if_neg (by decide)]
    | succ k =>
      right
      rw [hk] at hjoin hlen
      have htake : Split (Join (P.take (k + 1))) = P.take (k + 1) := by
        apply Split_Join
        · intro h0
          have := congrArg List.length h0
          simp only [List.length_take, List.length_nil] at this
          omega
        · intro t ht
          exact hfree t (List.mem_of_mem_take ht)
      rw [hjoin] at htake
      have hn : (Split a.subjectPrefix).length = k + 1 := by
        have := congrArg List.length htake
        simp only [List.length_take] at this
        omega
      have hdrop : P.drop (k + 1 + 1) = Split a.clientID := by
        rw [← hP, ← hn, ← List.drop_drop]
        simp
      simp [hdrop, Join_Split]

/-- C8: for every agent state, every action among interest, servicelist and
stop, and every message (any payload) whose subject is the agent's prefix, the
action and the agent's own identifier, `handleMessage` returns and leaves the
whole state as it was: store, known and provided lists, watch set and
channels. -/
theorem handleMessage_self_unchanged (a : Agent) (msg : Msg) (action : String) (now : Int)
    (fuel : Nat) (haction : action ∈ ["interest", "servicelist", "stop"])
    (hsubj : msg.Subject = a.subjectPrefix ++ "." ++ action ++ "." ++ a.clientID) :
    a.handleMessage msg now fuel = some a := by
  apply handleMessage_of_myself
  simp only [List.mem_cons, List.mem_singleton, List.not_mem_nil, or_false] at haction
  apply parseNatsMessage_self a msg action _ hsubj
  rcases haction with h | h | h <;> subst h <;> decide

/-- C8 at a concrete input: a new agent with identifier `me` handling a
service list whose subject carries the sender `me`. -/
theorem handleMessage_self_unchanged_witness :
    "servicelist" ∈ ["interest", "servicelist", "stop"] ∧
      (serviceListFrom "me" [("a", "1")]).Subject =
        (newAgent "me").subjectPrefix ++ "." ++ "servicelist" ++ "." ++ (newAgent "me").clientID ∧
      (newAgent "me").handleMessage (serviceListFrom "me" [("a", "1")]) 7 10 =
        some (newAgent "me") :=
  ⟨by decide, by decide,
   handleMessage_self_unchanged (newAgent "me") (serviceListFrom "me" [("a", "1")])
     "servicelist" 7 10 (by decide) (by decide)⟩

/-! ## Discover -/

/-- The inner loop of `Discover` appends to `ret` the records of the walk whose
name matches; it returns exactly when the walk ends. -/
theorem discoverLoop_eq_chain (m : Store) (name : String) (fuel : Nat) :
    ∀ (start : Option Nat) (ret : List ServiceInfo),
      discoverLoop m name fuel start ret =
        (chain m fuel start).map (fun ps =>
          ret ++ (ps.filterMap (fun p => m[p]?)).filter (fun s => decide (s.Name = name))) := by
  induction fuel with
  | zero => intro start ret; simp [discoverLoop, chain]
  | succ n ih =>
    intro start ret
    cases start with
    | none => simp [discoverLoop, chain]
    | some p =>
      cases hp : m[p]? with
      | none => simp [discoverLoop, chain, hp]
      | some s =>
        simp only [discoverLoop, chain, hp, ih]
        cases chain m n s.next with
        | none => simp
        | some rest =>
          by_cases hn : s.Name = name
          · simp [hp, hn, List.filter_cons]
          · simp [hp, hn, List.filter_cons]

/-- What `Discover` returns when the walks end: when walking the known list
ends with the records `K` (and, if `includeLocal` is set, walking the
provided list ends with the records `P`), `Discover` returns the records of `K` named `serviceName` in that order,
followed, only if `includeLocal` is set, by the records of `P` named
`serviceName` in that order.  `Discover` has no state result: the source
writes to no field. -/
theorem Discover_eq_known_then_provided (a : Agent) (serviceName : String)
    (includeLocal : Bool) (fuel : Nat) (K P : List ServiceInfo)
    (hk : a.known fuel = some K) (hp : includeLocal = true → a.provided fuel = some P) :
    a.Discover serviceName includeLocal fuel =
      some (K.filter (fun s => decide (s.Name = serviceName)) ++
        if includeLocal then P.filter (fun s => decide (s.Name = serviceName)) else []) := by
  unfold Agent.known at hk
  unfold Agent.provided at hp
  cases hck : chain a.mem fuel a.knownServices.first with
  | none => simp [hck] at hk
  | some ks =>
    simp only [hck, Option.map_some', Option.some.injEq] at hk
    cases includeLocal with
    | false =>
      simp [Agent.Discover, discoverLists, discoverLoop_eq_chain, hck, hk]
    | true =>
      have hp1 := hp rfl
      cases hcp : chain a.mem fuel a.providedServices.first with
      | none => simp [hcp] at hp1
      | some ps =>
        simp only [hcp, Option.map_some', Option.some.injEq] at hp1
        simp [Agent.Discover, discoverLists, discoverLoop_eq_chain, hck, hcp, hk, hp1]


/-- The lemma `Discover_eq_known_then_provided` at a concrete input: an agent
that knows (`svc`, `10.0.0.1:9000`) and (`other`, `x`) and provides
(`svc`, `local:1`); `Discover` for `svc` with local records returns the known
record first and the provided record second. -/
theorem Discover_eq_known_then_provided_witness :
    stateKnownAndProvided.known 10 = some [recKnownSvc, recKnownOther] ∧
      (true = true → stateKnownAndProvided.provided 10 = some [recProvidedSvc]) ∧
      stateKnownAndProvided.Discover "svc" true 10 =
        some ([recKnownSvc, recKnownOther].filter (fun s => decide (s.Name = "svc")) ++
          if true then [recProvidedSvc].filter (fun s => decide (s.Name = "svc")) else []) ∧
      stateKnownAndProvided.Discover "svc" true 10 = some [recKnownSvc, recProvidedSvc] ∧
      stateKnownAndProvided.Discover "svc" false 10 = some [recKnownSvc] :=
  ⟨by decide, fun _ => by decide,
   Discover_eq_known_then_provided stateKnownAndProvided "svc" true 10
     [recKnownSvc, recKnownOther] [recProvidedSvc] (by decide) (fun _ => by decide),
   by decide, by decide⟩

/-! ## Usage errors, options, subjects -/

/-- C12: in a state with `running` set, `Start` returns the already-running
error and the state itself, whatever `conn.Subscribe` would do; in a state
with `running` unset, `Stop` returns the not-running error and the state
itself. -/
theorem usage_errors_change_nothing (a : Agent) :
    (a.running = true → ∀ subscribeErr,
        a.Start subscribeErr = some (a, some "discovery agent is already running")) ∧
      (a.running = false → ∀ fuel,
        a.Stop fuel = some (a, some "discovery agent is not running")) := by
  constructor
  · intro h err
    simp [Agent.Start, h]
  · intro h fuel
    simp [Agent.Stop, h]

/-- C12 at concrete inputs: a second `Start` on a started agent, and `Stop` on
an agent that was never started. -/
theorem usage_errors_change_nothing_witness :
    stateStarted.running = true ∧
      stateStarted.Start none =
        some (stateStarted, some "discovery agent is already running") ∧
      (newAgent "me").running = false ∧
      (newAgent "me").Stop 10 = some (newAgent "me", some "discovery agent is not running") :=
  ⟨by decide, (usage_errors_change_nothing stateStarted).1 (by decide) none,
   by decide, (usage_errors_change_nothing (newAgent "me")).2 (by decide) 10⟩

/-- C18: `NewAgent` with the option `SubjectPrefix "myprefix"` returns the same
agent as without any option: its `subjectPrefix` is the default prefix and
not `myprefix`, and its outbound subject starts with the default prefix.
With the empty prefix `NewAgent` returns the error of the option. -/
theorem SubjectPrefix_not_applied :
    NewAgent (.ok "me") [SubjectPrefix "myprefix"] = .ok (newAgent "me") ∧
      (newAgent "me").subjectPrefix = "github.com.hatobitoio.discovery" ∧
      (newAgent "me").subjectPrefix ≠ "myprefix" ∧
      (newAgent "me").serviceListSubject = "github.com.hatobitoio.discovery.servicelist.me" ∧
      NewAgent (.ok "me") [SubjectPrefix ""] = .error "Empty topic prefix" := by
  refine ⟨rfl, rfl, by decide, by decide, rfl⟩

/-- With `prefixParts` equal to the number of segments of the prefix, a subject
built as prefix, action, sender is parsed into the payload decoded for that
action, the sender and the comparison of the sender with the own identifier. -/
theorem parseNatsMessage_subject (a : Agent) (msg : Msg) (action c : String)
    (hparts : a.prefixParts = (Split a.subjectPrefix).length)
    (hact : Split action = [action])
    (hsubj : msg.Subject = a.subjectPrefix ++ "." ++ action ++ "." ++ c) :
    a.parseNatsMessage msg =
      ((if action = "interest" then msg.asServiceInterest.map protoMessage.ServiceInterest
        else if action = "servicelist" then msg.asServicesList.map protoMessage.ServicesList
        else if action = "stop" then msg.asAgentStopped.map protoMessage.AgentStopped
        else none), c, c == a.clientID) := by
  have hs := Split_subject a.subjectPrefix action c hact
  have hnil : Split c ≠ [] := by
    have := splitChars_ne_nil '.' c.data
    simpa [Split] using this
  have hne : 0 < (Split c).length := List.length_pos.mpr hnil
  unfold Agent.parseNatsMessage
  simp only [hsubj, hs, hparts]
  have hlen : (Split a.subjectPrefix ++ action :: Split c).length >
      (Split a.subjectPrefix).length + 1 := by
    simp only [List.length_append, List.length_cons]; omega
  have htake : List.take (Split a.subjectPrefix).length
      (Split a.subjectPrefix ++ action :: Split c) = Split a.subjectPrefix := by
    simp
  have hdrop : List.drop ((Split a.subjectPrefix).length + 1)
      (Split a.subjectPrefix ++ action :: Split c) = Split c := by
    rw [← List.drop_drop]
    simp
  simp [hlen, htake, hdrop, Join_Split, hnil, List.getElem_append_right]

/-- C16: for every prefix, every sender `c` and each of the three actions, an
agent whose `prefixParts` is the number of segments of its prefix parses the
subject prefix, action, `c` into the sender `c`, the flag `myself` set exactly
when `c` is the own identifier, and the payload decoded as the message kind
of that action. -/
theorem subject_round_trip (a : Agent) (msg : Msg) (action c : String)
    (hparts : a.prefixParts = (Split a.subjectPrefix).length)
    (haction : action ∈ ["interest", "servicelist", "stop"])
    (hsubj : msg.Subject = a.subjectPrefix ++ "." ++ action ++ "." ++ c) :
    (a.parseNatsMessage msg).2.1 = c ∧
      ((a.parseNatsMessage msg).2.2 = true ↔ c = a.clientID) ∧
      (action = "interest" →
        (a.parseNatsMessage msg).1 = msg.asServiceInterest.map protoMessage.ServiceInterest) ∧
      (action = "servicelist" →
        (a.parseNatsMessage msg).1 = msg.asServicesList.map protoMessage.ServicesList) ∧
      (action = "stop" →
        (a.parseNatsMessage msg).1 = msg.asAgentStopped.map protoMessage.AgentStopped) := by
  have hact : Split action = [action] := by
    simp only [List.mem_cons, List.mem_singleton, List.not_mem_nil, or_false] at haction
    rcases haction with h | h | h <;> subst h <;> decide
  rw [parseNatsMessage_subject a msg action c hparts hact hsubj]
  refine ⟨rfl, by simp, ?_, ?_, ?_⟩
  · intro h; subst h; simp
  · intro h; subst h
    rw [if_neg (by decide), if_pos rfl]
  · intro h; subst h
    rw [if_neg (by decide), if_neg (by decide), if_pos rfl]

/-- C16 at a concrete input: an interest message from the sender `peer.7`
(an identifier with a dot) on the default prefix. -/
theorem subject_round_trip_witness :
    (newAgent "me").prefixParts = (Split (newAgent "me").subjectPrefix).length ∧
      "interest" ∈ ["interest", "servicelist", "stop"] ∧
      (interestFrom "peer.7" ["svc"]).Subject =
        (newAgent "me").subjectPrefix ++ "." ++ "interest" ++ "." ++ "peer.7" ∧
      (newAgent "me").parseNatsMessage (interestFrom "peer.7" ["svc"]) =
        (some (protoMessage.ServiceInterest ["svc"]), "peer.7", false) ∧
      ((newAgent "me").parseNatsMessage (interestFrom "peer.7" ["svc"])).2.1 = "peer.7" :=
  ⟨by decide, by decide, by decide, by decide,
   (subject_round_trip (newAgent "me") (interestFrom "peer.7" ["svc"]) "interest" "peer.7"
     (by decide) (by decide) (by decide)).1⟩

/-- C20: `startStopWorker(true)` returns; the new channel is `send`, is open
and holds exactly one message, addressed to prefix, `interest`, own
identifier, whose name list has twice the length of the watch set: as many
empty strings as there are watched names, followed by the watched names. -/
theorem startStopWorker_interest (a : Agent) :
    ∃ names : List String,
      a.startStopWorker true =
        some { a with
          send := some a.chans.length,
          chans := a.chans ++
            [⟨[⟨a.subjectPrefix ++ ".interest." ++ a.clientID,
                some (protoMessage.ServiceInterest names)⟩], false⟩] } ∧
      names.length = 2 * a.watched.length ∧
      names.take a.watched.length = List.replicate a.watched.length "" ∧
      (names.drop a.watched.length).Perm a.watched := by
  refine ⟨List.replicate a.watched.length "" ++ a.watched, ?_, ?_, ?_, ?_⟩
  · simp [Agent.startStopWorker, Agent.enqueue, Agent.interestSubject]
  · simp; omega
  · simp
  · simp

/-! ## The worker invariant -/

theorem QueueInv_of_frame (a b : Agent) (hf : QueueFrame a b) (hi : QueueInv a) :
    QueueInv b := by
  obtain ⟨hr, hc, hs, hm⟩ := hf
  obtain ⟨h1, h2⟩ := hi
  refine ⟨by rw [hs, hr, hc]; exact h1, ?_⟩
  intro c hc1
  rw [hs] at hc1
  obtain ⟨ch, hch, hcl⟩ := h2 c hc1
  have h3 : (a.chans.map chanState.closed)[c]? = some false := by
    simp [List.getElem?_map, hch, hcl]
  rw [← hm] at h3
  simp only [List.getElem?_map, Option.map_eq_some'] at h3
  exact h3

theorem QueueFrame_refl (a : Agent) : QueueFrame a a := ⟨rfl, rfl, rfl, rfl⟩

theorem QueueFrame_trans (a b c : Agent) (h1 : QueueFrame a b) (h2 : QueueFrame b c) :
    QueueFrame a c :=
  ⟨h2.1.trans h1.1, h2.2.1.trans h1.2.1, h2.2.2.1.trans h1.2.2.1, h2.2.2.2.trans h1.2.2.2⟩

/-- A successful send appends the message to the buffer of the channel `send`,
which is allocated and open, and changes nothing else. -/
theorem enqueue_eq_some (a b : Agent) (w : msgWrapper) (h : a.enqueue w = some b) :
    ∃ c ch, a.send = some c ∧ a.chans[c]? = some ch ∧ ch.closed = false ∧
      b = { a with chans := a.chans.set c { ch with buf := ch.buf ++ [w] } } := by
  unfold Agent.enqueue at h
  split at h
  · simp at h
  · rename_i c hc
    split at h
    · simp at h
    · rename_i ch hch
      split at h
      · simp at h
      · rename_i hcl
        simp only [Option.some.injEq] at h
        exact ⟨c, ch, hc, hch, by simpa using hcl, h.symm⟩

theorem map_closed_set_buf (cs : List chanState) (c : Nat) (ch : chanState)
    (buf : List msgWrapper) (h : cs[c]? = some ch) :
    (cs.set c { ch with buf := buf }).map chanState.closed = cs.map chanState.closed := by
  apply List.ext_getElem?
  intro i
  simp only [List.getElem?_map, List.getElem?_set]
  by_cases hic : c = i
  · subst hic
    simp only [if_true]
    have hlt : c < cs.length := by
      rcases Nat.lt_or_ge c cs.length with h1 | h1
      · exact h1
      · rw [List.getElem?_eq_none h1] at h; simp at h
    simp [hlt, h]
  · simp [hic]

theorem enqueue_frame (a b : Agent) (w : msgWrapper) (h : a.enqueue w = some b) :
    QueueFrame a b := by
  obtain ⟨c, ch, _, hch, _, rfl⟩ := enqueue_eq_some a b w h
  exact ⟨rfl, rfl, rfl, map_closed_set_buf a.chans c ch _ hch⟩

/-- The shape of a successful `Register`: `find` returns, the store and the
provided list change by an in-place update of the node found or by an insert,
and then either nothing or one send follows. -/
theorem Register_eq_some (a b : Agent) (info fuel : Nat) (h : a.Register info fuel = some b) :
    ∃ item m l, a.providedServices.find a.mem info fuel = some item ∧
      ((item = none ∧ a.providedServices.insert a.mem info = some (m, l)) ∨
        (∃ ip inf0 m1 inf1, item = some ip ∧ l = a.providedServices ∧
          a.mem[info]? = some inf0 ∧
          a.mem.upd ip (fun v => { v with Address := inf0.Address }) = some m1 ∧
          m1[info]? = some inf1 ∧
          m1.upd ip (fun v => { v with Name := inf1.Name }) = some m)) ∧
      ((a.running && a.connected) = false ∧
          b = { a with mem := m, providedServices := l } ∨
        (a.running && a.connected) = true ∧ ∃ inf, m[info]? = some inf ∧
          ({ a with mem := m, providedServices := l } : Agent).enqueue
            ⟨a.subjectPrefix ++ ".servicelist." ++ a.clientID,
              some (protoMessage.ServicesList [⟨inf.Name, inf.Address, ""⟩])⟩ = some b) := by
  unfold Agent.Register at h
  cases hfind : a.providedServices.find a.mem info fuel with
  | none => simp [hfind] at h
  | some item =>
    cases item with
    | none =>
      simp only [hfind, Option.bind_eq_bind, Option.some_bind, Option.bind_eq_some] at h
      obtain ⟨⟨m, l⟩, hins, h⟩ := h
      simp only [Option.some_bind] at h
      refine ⟨none, m, l, rfl, Or.inl ⟨rfl, hins⟩, ?_⟩
      by_cases hrc : (a.running && a.connected) = true
      · right
        simp only [hrc, if_true, Option.bind_eq_some] at h
        obtain ⟨inf, hinf, h⟩ := h
        exact ⟨hrc, inf, hinf, h⟩
      · left
        rw [if_neg hrc] at h
        simp only [Option.some.injEq] at h
        exact ⟨by simpa using hrc, h.symm⟩
    | some ip =>
      simp only [hfind, Option.bind_eq_bind, Option.some_bind, Option.bind_eq_some] at h
      obtain ⟨inf0, h0, m1, h1, inf1, h2, m, h3, h⟩ := h
      refine ⟨some ip, m, a.providedServices, rfl,
        Or.inr ⟨ip, inf0, m1, inf1, rfl, rfl, h0, h1, h2, h3⟩, ?_⟩
      by_cases hrc : (a.running && a.connected) = true
      · right
        simp only [hrc, if_true, Option.bind_eq_some] at h
        obtain ⟨inf, hinf, h⟩ := h
        exact ⟨hrc, inf, hinf, h⟩
      · left
        rw [if_neg hrc] at h
        simp only [Option.some.injEq] at h
        exact ⟨by simpa using hrc, h.symm⟩

theorem Register_frame (a b : Agent) (info fuel : Nat) (h : a.Register info fuel = some b) :
    QueueFrame a b := by
  obtain ⟨item, m, l, _, _, h1 | h1⟩ := Register_eq_some a b info fuel h
  · obtain ⟨_, rfl⟩ := h1
    exact ⟨rfl, rfl, rfl, rfl⟩
  · obtain ⟨_, inf, _, h2⟩ := h1
    exact QueueFrame_trans a { a with mem := m, providedServices := l } b
      ⟨rfl, rfl, rfl, rfl⟩ (enqueue_frame _ _ _ h2)

/-- The shape of a successful `Unregister`. -/
theorem Unregister_eq_some (a b : Agent) (info fuel : Nat)
    (h : a.Unregister info fuel = some b) :
    ∃ item, a.providedServices.find a.mem info fuel = some item ∧
      ((item = none ∧ b = a) ∨
        ∃ ip m l, item = some ip ∧ a.providedServices.remove a.mem ip = some (m, l) ∧
          b = { a with mem := m, providedServices := l }) := by
  unfold Agent.Unregister at h
  cases hfind : a.providedServices.find a.mem info fuel with
  | none => simp [hfind] at h
  | some item =>
    cases item with
    | none =>
      simp only [hfind, Option.bind_eq_bind, Option.some_bind, Option.some.injEq] at h
      exact ⟨none, rfl, Or.inl ⟨rfl, h.symm⟩⟩
    | some ip =>
      simp only [hfind, Option.bind_eq_bind, Option.some_bind, Option.bind_eq_some] at h
      obtain ⟨⟨m, l⟩, hrem, h⟩ := h
      simp only [Option.some.injEq] at h
      exact ⟨some ip, rfl, Or.inr ⟨ip, m, l, rfl, hrem, h.symm⟩⟩

theorem Unregister_frame (a b : Agent) (info fuel : Nat)
    (h : a.Unregister info fuel = some b) : QueueFrame a b := by
  obtain ⟨item, _, h1 | h1⟩ := Unregister_eq_some a b info fuel h
  · obtain ⟨_, rfl⟩ := h1
    exact QueueFrame_refl _
  · obtain ⟨ip, m, l, _, _, rfl⟩ := h1
    exact ⟨rfl, rfl, rfl, rfl⟩

/-- The shape of a successful loop-based removal on the known list. -/
theorem Unwatch_eq_some (a b : Agent) (name : String) (fuel : Nat)
    (h : a.Unwatch name fuel = some b) :
    ∃ m l, removeLoop (fun item => item.Name == name) fuel a.mem a.knownServices
        a.knownServices.first = some (m, l) ∧
      b = { a with mem := m, knownServices := l,
                   watched := a.watched.filter (fun w => w != name) } := by
  unfold Agent.Unwatch at h
  split at h
  · simp at h
  · rename_i m l hm
    simp only [Option.some.injEq] at h
    exact ⟨m, l, hm, h.symm⟩

theorem checkExpiration_eq_some (a b : Agent) (now : Int) (fuel : Nat)
    (h : a.checkExpiration now fuel = some b) :
    ∃ m l, removeLoop (fun item => decide (item.GoodUntil < now)) fuel a.mem a.knownServices
        a.knownServices.first = some (m, l) ∧
      b = { a with mem := m, knownServices := l } := by
  unfold Agent.checkExpiration at h
  split at h
  · simp at h
  · rename_i m l hm
    simp only [Option.some.injEq] at h
    exact ⟨m, l, hm, h.symm⟩

theorem handleStopMessage_eq_some (a b : Agent) (clientID : String) (fuel : Nat)
    (h : a.handleStopMessage clientID fuel = some b) :
    ∃ m l, removeLoop (fun item => item.updatedBy == clientID) fuel a.mem a.knownServices
        a.knownServices.first = some (m, l) ∧
      b = { a with mem := m, knownServices := l } := by
  unfold Agent.handleStopMessage at h
  split at h
  · simp at h
  · rename_i m l hm
    simp only [Option.some.injEq] at h
    exact ⟨m, l, hm, h.symm⟩

theorem handleServiceListMessage_eq_some (a b : Agent) (msg : List ServiceInfoProto)
    (clientID : String) (now : Int) (fuel : Nat)
    (h : a.handleServiceListMessage msg clientID now fuel = some b) :
    (msg = [] ∧ b = a) ∨
      ∃ m l, serviceListLoop clientID now
          (now + (DefaultUpdateInterval + DefaultUpdateInterval / 10)) fuel msg a.mem
          a.knownServices = some (m, l) ∧
        b = { a with mem := m, knownServices := l } := by
  unfold Agent.handleServiceListMessage at h
  simp only at h
  split at h
  · rename_i hlen
    simp only [Option.some.injEq] at h
    left
    refine ⟨?_, h.symm⟩
    cases msg with
    | nil => rfl
    | cons x xs => simp at hlen
  · split at h
    · simp at h
    · rename_i m l hm
      simp only [Option.some.injEq] at h
      exact Or.inr ⟨m, l, hm, h.symm⟩

theorem handleInterestMessage_eq_some (a b : Agent) (msg : List String) (fuel : Nat)
    (h : a.handleInterestMessage msg fuel = some b) :
    b = a ∨ ∃ w, a.enqueue w = some b := by
  unfold Agent.handleInterestMessage at h
  split at h
  · simp only [Option.some.injEq] at h
    exact Or.inl h.symm
  · split at h
    · simp at h
    · split at h
      · exact Or.inr ⟨_, h⟩
      · simp only [Option.some.injEq] at h
        exact Or.inl h.symm

theorem handleMessage_frame (a b : Agent) (msg : Msg) (now : Int) (fuel : Nat)
    (h : a.handleMessage msg now fuel = some b) : QueueFrame a b := by
  unfold Agent.handleMessage at h
  split at h
  · simp only [Option.some.injEq] at h
    subst h
    exact QueueFrame_refl a
  · split at h
    · rcases handleInterestMessage_eq_some a b _ fuel h with rfl | ⟨w, hw⟩
      · exact QueueFrame_refl _
      · exact enqueue_frame _ _ _ hw
    · simp only [Option.some.injEq] at h
      subst h
      exact QueueFrame_refl a
  · split at h
    · rcases handleServiceListMessage_eq_some a b _ _ now fuel h with ⟨_, rfl⟩ | ⟨m, l, _, rfl⟩
      · exact QueueFrame_refl _
      · exact ⟨rfl, rfl, rfl, rfl⟩
    · simp only [Option.some.injEq] at h
      subst h
      exact QueueFrame_refl a
  · split at h
    · obtain ⟨m, l, _, rfl⟩ := handleStopMessage_eq_some a b _ fuel h
      exact ⟨rfl, rfl, rfl, rfl⟩
    · simp only [Option.some.injEq] at h
      subst h
      exact QueueFrame_refl a

/-- What `startStopWorker(true)` returns. -/
theorem startStopWorker_true_eq (a : Agent) :
    a.startStopWorker true =
      some { a with
        send := some a.chans.length,
        chans := a.chans ++
          [⟨[⟨a.subjectPrefix ++ ".interest." ++ a.clientID,
              some (protoMessage.ServiceInterest
                (List.replicate a.watched.length "" ++ a.watched))⟩], false⟩] } := by
  simp [Agent.startStopWorker, Agent.enqueue, Agent.interestSubject]

/-- The shape of a successful `startStopWorker(false)`. -/
theorem startStopWorker_false_eq_some (a b : Agent) (h : a.startStopWorker false = some b) :
    ∃ c ch, a.send = some c ∧ a.chans[c]? = some ch ∧ ch.closed = false ∧
      b = { a with chans := a.chans.set c { ch with closed := true }, send := none } := by
  unfold Agent.startStopWorker at h
  simp only [Bool.false_eq_true, if_false] at h
  split at h
  · simp at h
  · rename_i c hc
    split at h
    · simp at h
    · rename_i ch hch
      split at h
      · simp at h
      · rename_i hcl
        simp only [Option.some.injEq] at h
        exact ⟨c, ch, hc, hch, by simpa using hcl, h.symm⟩

theorem startStopWorker_false_of_open (a : Agent) (c : Nat) (ch : chanState)
    (hs : a.send = some c) (hch : a.chans[c]? = some ch) (hcl : ch.closed = false) :
    a.startStopWorker false =
      some { a with chans := a.chans.set c { ch with closed := true }, send := none } := by
  simp [Agent.startStopWorker, hs, hch, hcl]

theorem enqueue_of_open (a : Agent) (w : msgWrapper) (c : Nat) (ch : chanState)
    (hs : a.send = some c) (hch : a.chans[c]? = some ch) (hcl : ch.closed = false) :
    a.enqueue w = some { a with chans := a.chans.set c { ch with buf := ch.buf ++ [w] } } := by
  simp [Agent.enqueue, hs, hch, hcl]

theorem getElem?_lt_of_eq_some {α : Type} (l : List α) (i : Nat) (x : α)
    (h : l[i]? = some x) : i < l.length := by
  rcases Nat.lt_or_ge i l.length with h1 | h1
  · exact h1
  · rw [List.getElem?_eq_none h1] at h; simp at h

/-- What `Stop` returns on a running agent whose known list can be cleared:
when not connected only the flags and the known list change; when connected
and `send` is an open channel, the stop notice is appended to it and it is
closed. -/
theorem Stop_eq_of_running (a : Agent) (fuel : Nat) (m : Store) (l : infoList)
    (hrun : a.running = true) (hclear : a.knownServices.clear a.mem fuel = some (m, l)) :
    (a.connected = false →
        a.Stop fuel = some ({ a with running := false, subs := false, mem := m,
                                     knownServices := l }, none)) ∧
      (a.connected = true → ∀ c ch, a.send = some c → a.chans[c]? = some ch →
        ch.closed = false →
        a.Stop fuel = some ({ a with running := false, subs := false, mem := m,
                                     knownServices := l, send := none,
                                     chans := a.chans.set c
                                       ⟨ch.buf ++ [⟨a.subjectPrefix ++ ".stop." ++ a.clientID,
                                                    none⟩], true⟩ }, none)) := by
  constructor
  · intro hc
    simp [Agent.Stop, hrun, hclear, hc]
  · intro hc c ch hs hch hcl
    have hlt := getElem?_lt_of_eq_some _ _ _ hch
    simp [Agent.Stop, hrun, hclear, hc, Agent.publish, Agent.enqueue, hs, hch, hcl,
      Agent.startStopWorker, Agent.stopSubject, hlt]

/-- The shape of a successful `Stop`. -/
theorem Stop_eq_some (a b : Agent) (fuel : Nat) (err : Option String)
    (h : a.Stop fuel = some (b, err)) :
    (a.running = false ∧ b = a) ∨
      (a.running = true ∧ err = none ∧ ∃ m l, a.knownServices.clear a.mem fuel = some (m, l) ∧
        ((a.connected = false ∧
            b = { a with running := false, subs := false, mem := m, knownServices := l }) ∨
          (a.connected = true ∧ ∃ c ch, a.send = some c ∧ a.chans[c]? = some ch ∧
            ch.closed = false ∧
            b = { a with running := false, subs := false, mem := m, knownServices := l,
                         send := none,
                         chans := a.chans.set c
                           ⟨ch.buf ++ [⟨a.subjectPrefix ++ ".stop." ++ a.clientID, none⟩],
                             true⟩ }))) := by
  cases hrun : a.running with
  | false =>
    left
    simp [Agent.Stop, hrun] at h
    exact ⟨rfl, h.1.symm⟩
  | true =>
    right
    cases hclear : a.knownServices.clear a.mem fuel with
    | none => simp [Agent.Stop, hrun, hclear] at h
    | some ml =>
      obtain ⟨m, l⟩ := ml
      have hS := Stop_eq_of_running a fuel m l hrun hclear
      rcases Bool.eq_false_or_eq_true a.connected with hc | hc
      swap
      · rw [hS.1 hc] at h
        simp only [Option.some.injEq, Prod.mk.injEq] at h
        exact ⟨rfl, h.2.symm, m, l, rfl, Or.inl ⟨hc, h.1.symm⟩⟩
      · cases hs : a.send with
        | none => simp [Agent.Stop, hrun, hclear, hc, Agent.publish, Agent.enqueue, hs] at h
        | some c =>
          cases hch : a.chans[c]? with
          | none =>
            simp [Agent.Stop, hrun, hclear, hc, Agent.publish, Agent.enqueue, hs, hch] at h
          | some ch =>
            rcases Bool.eq_false_or_eq_true ch.closed with hcl | hcl
            · simp [Agent.Stop, hrun, hclear, hc, Agent.publish, Agent.enqueue, hs, hch, hcl] at h
            · rw [hS.2 hc c ch hs hch hcl] at h
              simp only [Option.some.injEq, Prod.mk.injEq] at h
              exact ⟨rfl, h.2.symm, m, l, rfl,
                Or.inr ⟨hc, c, ch, rfl, hch, hcl, h.1.symm⟩⟩

theorem Watch_frame (a b : Agent) (name : String) (h : a.Watch name = some b) :
    QueueFrame a b := by
  unfold Agent.Watch at h
  split at h
  · simp only [Option.some.injEq] at h
    subst h
    exact QueueFrame_refl a
  · simp only at h
    split at h
    · exact QueueFrame_trans a { a with watched := a.watched ++ [name] } b
        ⟨rfl, rfl, rfl, rfl⟩ (enqueue_frame _ _ _ h)
    · simp only [Option.some.injEq] at h
      subst h
      exact ⟨rfl, rfl, rfl, rfl⟩

theorem workerRecv_frame (a b : Agent) (c : Nat) (h : a.workerRecv c = some b) :
    QueueFrame a b := by
  unfold Agent.workerRecv at h
  split at h
  · simp at h
  · rename_i ch hch
    split at h
    · simp at h
    · simp only [Option.some.injEq] at h
      subst h
      exact ⟨rfl, rfl, rfl, map_closed_set_buf a.chans c ch _ hch⟩

theorem QueueInv_startStopWorker_true (a b : Agent) (h : a.startStopWorker true = some b)
    (hr : a.running = true) (hc : a.connected = true) : QueueInv b := by
  rw [startStopWorker_true_eq] at h
  simp only [Option.some.injEq] at h
  subst h
  refine ⟨by simp [hr, hc], ?_⟩
  intro c hc1
  simp only [Option.some.injEq] at hc1
  subst hc1
  refine ⟨⟨[⟨a.subjectPrefix ++ ".interest." ++ a.clientID,
    some (protoMessage.ServiceInterest (List.replicate a.watched.length "" ++ a.watched))⟩],
    false⟩, by simp, rfl⟩

theorem QueueInv_startStopWorker_false (a b : Agent) (h : a.startStopWorker false = some b)
    (hrc : ¬ (a.running = true ∧ a.connected = true)) : QueueInv b := by
  obtain ⟨c, ch, _, _, _, rfl⟩ := startStopWorker_false_eq_some a b h
  refine ⟨by simpa using hrc, ?_⟩
  intro c1 hc1
  simp at hc1

theorem QueueInv_Start (a b : Agent) (err r : Option String) (hi : QueueInv a)
    (h : a.Start err = some (b, r)) : QueueInv b := by
  unfold Agent.Start at h
  split at h
  · simp only [Option.some.injEq, Prod.mk.injEq] at h
    rw [← h.1]; exact hi
  · rename_i hrun
    split at h
    · simp only [Option.some.injEq, Prod.mk.injEq] at h
      rw [← h.1]; exact hi
    · simp only at h
      split at h
      · rename_i hc
        simp only [Option.map_eq_some', Prod.mk.injEq] at h
        obtain ⟨b1, hb1, rfl, _⟩ := h
        exact QueueInv_startStopWorker_true _ _ hb1 rfl hc
      · rename_i hc
        simp only [Option.some.injEq, Prod.mk.injEq] at h
        obtain ⟨rfl, _⟩ := h
        have hsend : a.send = none := by
          by_contra hne
          exact hrun ((hi.1.mp hne).1)
        refine ⟨by simpa [hsend] using hc, ?_⟩
        intro c hc1
        simp [hsend] at hc1

theorem QueueInv_Stop (a b : Agent) (fuel : Nat) (r : Option String) (hi : QueueInv a)
    (h : a.Stop fuel = some (b, r)) : QueueInv b := by
  rcases Stop_eq_some a b fuel r h with ⟨_, rfl⟩ | ⟨hrun, _, m, l, _, h1 | h1⟩
  · exact hi
  · obtain ⟨hc, rfl⟩ := h1
    have hsend : a.send = none := by
      by_contra hne
      have := (hi.1.mp hne).2
      rw [hc] at this
      exact absurd this (by decide)
    refine ⟨by simp [hsend], ?_⟩
    intro c hc1
    simp [hsend] at hc1
  · obtain ⟨hc, c, ch, _, _, _, rfl⟩ := h1
    refine ⟨by simp, ?_⟩
    intro c1 hc1
    simp at hc1

theorem ConnStateHandler_isSome (a : Agent) (hi : QueueInv a) (conn : Bool) :
    ∃ b, a.ConnStateHandler conn = some b := by
  unfold Agent.ConnStateHandler
  by_cases hcc : conn = a.connected
  · exact ⟨a, by simp [hcc]⟩
  · simp only [hcc, if_false]
    by_cases hrun : a.running = true
    · simp only [hrun, if_true]
      cases conn with
      | true => exact ⟨_, startStopWorker_true_eq _⟩
      | false =>
        have hc : a.connected = true := by
          cases h : a.connected with
          | true => rfl
          | false => exact absurd h.symm hcc
        have hne : a.send ≠ none := hi.1.mpr ⟨hrun, hc⟩
        obtain ⟨c, hs⟩ := Option.ne_none_iff_exists'.mp hne
        obtain ⟨ch, hch, hcl⟩ := hi.2 c hs
        exact ⟨_, startStopWorker_false_of_open _ c ch hs hch hcl⟩
    · exact ⟨{ a with connected := conn }, by simp [hrun]⟩

theorem QueueInv_ConnStateHandler (a b : Agent) (conn : Bool) (hi : QueueInv a)
    (h : a.ConnStateHandler conn = some b) : QueueInv b := by
  unfold Agent.ConnStateHandler at h
  split at h
  · simp only [Option.some.injEq] at h
    rw [← h]; exact hi
  · rename_i hcc
    simp only at h
    split at h
    · rename_i hrun
      cases conn with
      | true => exact QueueInv_startStopWorker_true _ _ h hrun rfl
      | false => exact QueueInv_startStopWorker_false _ _ h (by simp)
    · rename_i hrun
      simp only [Option.some.injEq] at h
      subst h
      have hsend : a.send = none := by
        by_contra hne
        exact hrun ((hi.1.mp hne).1)
      refine ⟨by simp [hsend, hrun], ?_⟩
      intro c hc1
      simp [hsend] at hc1

theorem QueueInv_step (fuel : Nat) (a b : Agent) (op : Op) (hi : QueueInv a)
    (h : step fuel a op = some b) : QueueInv b := by
  cases op with
  | alloc n ad =>
    simp only [step, Option.some.injEq] at h
    subst h
    exact QueueInv_of_frame a _ ⟨rfl, rfl, rfl, rfl⟩ hi
  | Register info => exact QueueInv_of_frame a b (Register_frame a b info fuel h) hi
  | Unregister info => exact QueueInv_of_frame a b (Unregister_frame a b info fuel h) hi
  | Start err =>
    simp only [step, Option.map_eq_some'] at h
    obtain ⟨⟨b1, r⟩, hb, rfl⟩ := h
    exact QueueInv_Start a b1 err r hi hb
  | Stop =>
    simp only [step, Option.map_eq_some'] at h
    obtain ⟨⟨b1, r⟩, hb, rfl⟩ := h
    exact QueueInv_Stop a b1 fuel r hi hb
  | Watch n => exact QueueInv_of_frame a b (Watch_frame a b n h) hi
  | Unwatch n =>
    obtain ⟨m, l, _, rfl⟩ := Unwatch_eq_some a b n fuel h
    exact QueueInv_of_frame a _ ⟨rfl, rfl, rfl, rfl⟩ hi
  | ConnStateHandler c => exact QueueInv_ConnStateHandler a b c hi h
  | handleMessage msg now => exact QueueInv_of_frame a b (handleMessage_frame a b msg now fuel h) hi
  | checkExpiration now =>
    obtain ⟨m, l, _, rfl⟩ := checkExpiration_eq_some a b now fuel h
    exact QueueInv_of_frame a _ ⟨rfl, rfl, rfl, rfl⟩ hi
  | sendUpdates =>
    simp only [step, Option.map_eq_some'] at h
    obtain ⟨_, _, rfl⟩ := h
    exact hi
  | workerRecv c => exact QueueInv_of_frame a b (workerRecv_frame a b c h) hi

theorem QueueInv_run (fuel : Nat) (ops : List Op) :
    ∀ a b : Agent, QueueInv a → run fuel a ops = some b → QueueInv b := by
  induction ops with
  | nil =>
    intro a b hi h
    simp only [run, Option.some.injEq] at h
    rw [← h]; exact hi
  | cons op rest ih =>
    intro a b hi h
    simp only [run] at h
    split at h
    · simp at h
    · rename_i a1 h1
      exact ih a1 b (QueueInv_step fuel a a1 op hi h1) h

theorem QueueInv_newAgent (cid : String) : QueueInv (newAgent cid) := by
  refine ⟨by simp [newAgent], ?_⟩
  intro c hc
  simp [newAgent] at hc

theorem QueueInv_of_Reachable (a : Agent) (h : Reachable a) : QueueInv a := by
  obtain ⟨cid, fuel, ops, hrun⟩ := h
  exact QueueInv_run fuel ops _ a (QueueInv_newAgent cid) hrun

/-! ## The store invariant under the list operations -/

theorem upd_eq_some (m m1 : Store) (p : Nat) (f : ServiceInfo → ServiceInfo) :
    m.upd p f = some m1 ↔ ∃ v, m[p]? = some v ∧ m1 = m.set p (f v) := by
  unfold Store.upd
  cases h : m[p]? with
  | none => simp
  | some v => simp [eq_comm]

theorem upd_of_lt (m : Store) (p : Nat) (f : ServiceInfo → ServiceInfo) (h : p < m.length) :
    ∃ v, m[p]? = some v ∧ m.upd p f = some (m.set p (f v)) := by
  have hv : m[p]? = some m[p] := List.getElem?_eq_getElem h
  exact ⟨m[p], hv, by simp [Store.upd, hv]⟩

theorem getElem?_set_self_of_some (m : Store) (p : Nat) (v w : ServiceInfo)
    (h : m[p]? = some v) : (m.set p w)[p]? = some w := by
  have hlt := getElem?_lt_of_eq_some m p v h
  simp [List.getElem?_set, hlt]

theorem getElem?_set_of_ne (m : Store) (p i : Nat) (w : ServiceInfo) (h : p ≠ i) :
    (m.set p w)[i]? = m[i]? := by
  simp [List.getElem?_set, h]

/-- Writing a well-linked value into an allocated node keeps the store well linked. -/
theorem StoreOK_set (K : List Nat) (m : Store) (p : Nat) (v w : ServiceInfo)
    (hS : StoreOK K m) (hv : m[p]? = some v) (hw : nodeOK K m.length p w) :
    StoreOK K (m.set p w) := by
  constructor
  · intro i u hu
    rw [List.length_set]
    by_cases hpi : p = i
    · subst hpi
      rw [getElem?_set_self_of_some m p v w hv] at hu
      simp only [Option.some.injEq] at hu
      subst hu
      exact hw
    · rw [getElem?_set_of_ne m p i w hpi] at hu
      exact hS.1 i u hu
  · intro i hi
    rw [List.length_set]
    exact hS.2 i hi

/-- A write that keeps `next` and `prev` keeps the store well linked. -/
theorem StoreOK_upd_fields (K : List Nat) (m m1 : Store) (p : Nat)
    (f : ServiceInfo → ServiceInfo) (hS : StoreOK K m) (hu : m.upd p f = some m1)
    (hf : ∀ v, (f v).next = v.next ∧ (f v).prev = v.prev) :
    StoreOK K m1 ∧ m1.length = m.length ∧ ∀ i, i ≠ p → m1[i]? = m[i]? := by
  obtain ⟨v, hv, rfl⟩ := (upd_eq_some m m1 p f).mp hu
  refine ⟨StoreOK_set K m p v (f v) hS hv ?_, List.length_set _ _ _, ?_⟩
  · have h0 := hS.1 p v hv
    unfold nodeOK at h0 ⊢
    rw [(hf v).1, (hf v).2]
    exact h0
  · intro i hi
    exact getElem?_set_of_ne m p i _ (Ne.symm hi)

/-- The method `insert` on a well-linked store: it returns, keeps the store
well linked and the list ends on their side, and writes only to nodes of the
side of the list. -/
theorem insert_spec (K : List Nat) (s : Prop) (l : infoList) (m : Store) (item : Nat)
    (hS : StoreOK K m) (hl : listOK K m.length s l) (hv : item < m.length)
    (hside : item ∈ K ↔ s) (hord : s → ∀ j, l.last = some j → j < item) :
    ∃ m1 l1, l.insert m item = some (m1, l1) ∧ StoreOK K m1 ∧ listOK K m1.length s l1 ∧
      m1.length = m.length ∧ (∀ i, ¬ (i ∈ K ↔ s) → m1[i]? = m[i]?) ∧
      l1.last = some item ∧ (l.first = none → l1.first = some item) ∧
      (l.first ≠ none → l1.first = l.first) := by
  have hlast : ∀ j, l.last = some j → j < m.length ∧ (j ∈ K ↔ item ∈ K) ∧ (item ∈ K → j < item) := by
    intro j hj
    obtain ⟨h1, h2⟩ := hl.2 j hj
    exact ⟨h1, h2.trans hside.symm, fun hi => hord (hside.mp hi) j hj⟩
  -- first write: item.prev = l.last
  obtain ⟨v, hv0, hu1⟩ := upd_of_lt m item (fun v => { v with prev := l.last }) hv
  have hS1 : StoreOK K (m.set item { v with prev := l.last }) := by
    apply StoreOK_set K m item v _ hS hv0
    exact ⟨(hS.1 item v hv0).1, fun j hj => hlast j hj⟩
  have hlen1 : (m.set item { v with prev := l.last }).length = m.length := List.length_set _ _ _
  -- second write: item.next = nil
  have hv1 : (m.set item { v with prev := l.last })[item]? = some { v with prev := l.last } :=
    getElem?_set_self_of_some m item v _ hv0
  have hu2 : Store.upd (m.set item { v with prev := l.last }) item
      (fun v => { v with next := none }) =
      some ((m.set item { v with prev := l.last }).set item
        { v with prev := l.last, next := none }) := by
    simp [Store.upd, hv1]
  have hset2 : (m.set item { v with prev := l.last }).set item
      { v with prev := l.last, next := none } =
      m.set item { v with prev := l.last, next := none } := by
    simp [List.set_set]
  rw [hset2] at hu2
  have hS2 : StoreOK K (m.set item { v with prev := l.last, next := none }) := by
    apply StoreOK_set K m item v _ hS hv0
    exact ⟨fun j hj => by simp at hj, fun j hj => hlast j hj⟩
  have hlen2 : (m.set item { v with prev := l.last, next := none }).length = m.length :=
    List.length_set _ _ _
  have hl1 : ∀ m3 : Store, m3.length = m.length →
      listOK K m3.length s
        { first := if l.first = none then some item else l.first, last := some item,
          size := l.size + 1 } := by
    intro m3 h3
    rw [h3]
    constructor
    · intro j hj
      simp only at hj
      split at hj
      · simp only [Option.some.injEq] at hj
        subst hj
        exact ⟨hv, hside⟩
      · exact hl.1 j hj
    · intro j hj
      simp only [Option.some.injEq] at hj
      subst hj
      exact ⟨hv, hside⟩
  have hframe2 : ∀ i, ¬ (i ∈ K ↔ s) →
      (m.set item { v with prev := l.last, next := none })[i]? = m[i]? := by
    intro i hi
    apply getElem?_set_of_ne
    intro h
    subst h
    exact hi hside
  cases hll : l.last with
  | none =>
    refine ⟨m.set item { v with prev := l.last, next := none }, _, ?_, hS2, hl1 _ hlen2, hlen2,
      hframe2, rfl, ?_, ?_⟩
    · simp only [infoList.insert, Option.bind_eq_bind, hu1, Option.some_bind, hu2]
      simp only [hll, Option.some_bind, Option.some.injEq, Prod.mk.injEq, true_and]
      by_cases hf : l.first = none <;> simp [hf]
    · intro hf; simp [hf]
    · intro hf; simp [hf]
  | some lp =>
    obtain ⟨hlp, hlpK, hlpo⟩ := hlast lp hll
    have hlp2 : lp < (m.set item { v with prev := l.last, next := none }).length := by
      rw [hlen2]; exact hlp
    obtain ⟨w, hw, hu3⟩ := upd_of_lt _ lp (fun v => { v with next := some item }) hlp2
    have hS3 := StoreOK_set K _ lp w { w with next := some item } hS2 hw (by
      rw [hlen2]
      refine ⟨fun j hj => ?_, ?_⟩
      · simp only [Option.some.injEq] at hj
        subst hj
        exact ⟨hv, hlpK.symm, fun hi => hlpo (hlpK.mp hi)⟩
      · have := (hS2.1 lp w hw).2
        rw [hlen2] at this
        exact this)
    refine ⟨_, _, ?_, hS3, hl1 _ (by rw [List.length_set, hlen2]),
      by rw [List.length_set, hlen2], ?_, rfl, ?_, ?_⟩
    · simp only [infoList.insert, Option.bind_eq_bind, hu1, Option.some_bind, hu2]
      simp only [hll, Option.some_bind]
      simp only [hll] at hu3
      simp only [hu3, Option.some_bind, Option.some.injEq, Prod.mk.injEq, true_and]
      by_cases hf : l.first = none <;> simp [hf]
    · intro i hi
      rw [getElem?_set_of_ne _ lp i _ (by
        intro h
        subst h
        exact hi (hlpK.trans hside))]
      exact hframe2 i hi
    · intro hf; simp [hf]
    · intro hf; simp [hf]

/-- The method `remove` on a well-linked store: it returns, keeps the store
well linked and the list ends on their side, and writes only to nodes of the
side of the list. -/
theorem remove_spec (K : List Nat) (s : Prop) (l : infoList) (m : Store) (item : Nat)
    (hS : StoreOK K m) (hl : listOK K m.length s l) (hv : item < m.length)
    (hside : item ∈ K ↔ s) :
    ∃ m1 l1, l.remove m item = some (m1, l1) ∧ StoreOK K m1 ∧ listOK K m1.length s l1 ∧
      m1.length = m.length ∧ (∀ i, ¬ (i ∈ K ↔ s) → m1[i]? = m[i]?) := by
  have hit : m[item]? = some m[item] := List.getElem?_eq_getElem hv
  generalize m[item] = it at hit
  have hnode := hS.1 item it hit
  -- first statement
  have step1 : ∃ m1 l1,
      (match it.prev with
        | some pp => (m.upd pp (fun v => { v with next := it.next })).map (fun m1 => (m1, l))
        | none => some (m, { l with first := it.prev })) = some (m1, l1) ∧
      StoreOK K m1 ∧ listOK K m1.length s l1 ∧ m1.length = m.length ∧
      (∀ i, ¬ (i ∈ K ↔ s) → m1[i]? = m[i]?) := by
    cases hp : it.prev with
    | none =>
      refine ⟨m, { l with first := none }, rfl, hS, ⟨?_, hl.2⟩, rfl, fun _ _ => rfl⟩
      intro j hj
      simp at hj
    | some pp =>
      obtain ⟨hpp, hppK, hppo⟩ := hnode.2 pp hp
      obtain ⟨vp, hvp, hup⟩ := upd_of_lt m pp (fun v => { v with next := it.next }) hpp
      have hS1 := StoreOK_set K m pp vp { vp with next := it.next } hS hvp (by
        refine ⟨fun j hj => ?_, (hS.1 pp vp hvp).2⟩
        obtain ⟨h1, h2, h3⟩ := hnode.1 j hj
        exact ⟨h1, h2.trans hppK.symm, fun hi =>
          Nat.lt_trans (hppo (hppK.mp hi)) (h3 (hppK.mp hi))⟩)
      refine ⟨_, l, by simp [hup], hS1, by rw [List.length_set]; exact hl,
        List.length_set _ _ _, ?_⟩
      intro i hi
      apply getElem?_set_of_ne
      intro h
      subst h
      exact hi (hppK.trans hside)
  obtain ⟨m1, l1, he1, hS1, hl1, hlen1, hfr1⟩ := step1
  -- second statement
  have hv1 : item < m1.length := by rw [hlen1]; exact hv
  have hit2 : m1[item]? = some m1[item] := List.getElem?_eq_getElem hv1
  generalize m1[item] = it2 at hit2
  have hnode2 := hS1.1 item it2 hit2
  have step2 : ∃ m2 l2,
      (match it2.next with
        | some np => (m1.upd np (fun v => { v with prev := it2.prev })).map (fun m2 => (m2, l1))
        | none => some (m1, { l1 with last := some item })) = some (m2, l2) ∧
      StoreOK K m2 ∧ listOK K m2.length s l2 ∧ m2.length = m1.length ∧
      (∀ i, ¬ (i ∈ K ↔ s) → m2[i]? = m1[i]?) := by
    cases hn : it2.next with
    | none =>
      refine ⟨m1, { l1 with last := some item }, rfl, hS1, ⟨hl1.1, ?_⟩, rfl, fun _ _ => rfl⟩
      intro j hj
      simp only [Option.some.injEq] at hj
      subst hj
      exact ⟨hv1, hside⟩
    | some np =>
      obtain ⟨hnp, hnpK, hnpo⟩ := hnode2.1 np hn
      obtain ⟨vn, hvn, hun⟩ := upd_of_lt m1 np (fun v => { v with prev := it2.prev }) hnp
      have hS2 := StoreOK_set K m1 np vn { vn with prev := it2.prev } hS1 hvn (by
        refine ⟨(hS1.1 np vn hvn).1, fun j hj => ?_⟩
        obtain ⟨h1, h2, h3⟩ := hnode2.2 j hj
        exact ⟨h1, h2.trans hnpK.symm, fun hi =>
          Nat.lt_trans (h3 (hnpK.mp hi)) (hnpo (hnpK.mp hi))⟩)
      refine ⟨_, l1, by simp [hun], hS2, by rw [List.length_set]; exact hl1,
        List.length_set _ _ _, ?_⟩
      intro i hi
      apply getElem?_set_of_ne
      intro h
      subst h
      exact hi (hnpK.trans hside)
  obtain ⟨m2, l2, he2, hS2, hl2, hlen2, hfr2⟩ := step2
  refine ⟨m2, { l2 with size := l.size - 1 }, ?_, hS2, ⟨hl2.1, hl2.2⟩, hlen2.trans hlen1, ?_⟩
  · have fin2 : ∀ (mm : Store) (ll : infoList), mm = m1 → ll = l1 →
        (match it2.next with
          | some np =>
            (Option.map (fun m2 => (m2, ll))
              (mm.upd np (fun v => { v with prev := it2.prev }))).bind
              (fun y => some (y.1, { y.2 with size := y.2.size - 1 }))
          | none => some (mm, { ll with last := some item, size := ll.size - 1 })) =
        some (m2, { l2 with size := l1.size - 1 }) := by
      intro mm ll hmm hll
      subst hmm hll
      cases hn : it2.next with
      | none =>
        rw [hn] at he2
        simp only [Option.some.injEq, Prod.mk.injEq] at he2
        obtain ⟨rfl, rfl⟩ := he2
        rfl
      | some np =>
        rw [hn] at he2
        simp only [Option.map_eq_some', Prod.mk.injEq] at he2
        obtain ⟨m3, hm3, rfl, rfl⟩ := he2
        simp [hm3]
    simp only [infoList.remove, Option.bind_eq_bind, hit, Option.some_bind]
    cases hp : it.prev with
    | none =>
      rw [hp] at he1
      simp only [Option.some.injEq, Prod.mk.injEq] at he1
      obtain ⟨rfl, rfl⟩ := he1
      rw [hit] at hit2
      simp only [Option.some.injEq] at hit2
      subst hit2
      have := fin2 m { l with first := none } rfl rfl
      simpa [hp] using this
    | some pp =>
      rw [hp] at he1
      simp only [Option.map_eq_some', Prod.mk.injEq] at he1
      obtain ⟨m3, hm3, rfl, rfl⟩ := he1
      simp only [hm3, Option.map_some', Option.some_bind, hit2]
      have := fin2 m3 l rfl rfl
      simpa using this
  · intro i hi
    rw [hfr2 i hi, hfr1 i hi]

/-- The removal loop on the known side of a well-linked store: whatever it
returns keeps the invariant and leaves caller records alone, and it returns
as soon as the fuel exceeds the number of nodes behind the start. -/
theorem removeLoop_spec (K : List Nat) (cond : ServiceInfo → Bool) :
    ∀ (fuel : Nat) (m : Store) (l : infoList) (start : Option Nat),
      StoreOK K m → listOK K m.length True l → (∀ p, start = some p → p ∈ K) →
      (∀ r, removeLoop cond fuel m l start = some r →
        StoreOK K r.1 ∧ listOK K r.1.length True r.2 ∧ r.1.length = m.length ∧
          ∀ i, i ∉ K → r.1[i]? = m[i]?) ∧
      ((∀ p, start = some p → m.length - p < fuel) → 0 < fuel →
        ∃ r, removeLoop cond fuel m l start = some r) := by
  intro fuel
  induction fuel with
  | zero =>
    intro m l start _ _ _
    exact ⟨fun r hr => by simp [removeLoop] at hr, fun _ h0 => absurd h0 (by decide)⟩
  | succ f ih =>
    intro m l start hS hl hst
    cases start with
    | none =>
      refine ⟨fun r hr => ?_, fun _ _ => ⟨(m, l), by simp [removeLoop]⟩⟩
      simp only [removeLoop, Option.some.injEq] at hr
      subst hr
      exact ⟨hS, hl, rfl, fun _ _ => rfl⟩
    | some p =>
      have hpK : p ∈ K := hst p rfl
      have hp : p < m.length := hS.2 p hpK
      have hit : m[p]? = some m[p] := List.getElem?_eq_getElem hp
      generalize m[p] = it at hit
      have hnode := hS.1 p it hit
      have hnext : ∀ q, it.next = some q → q ∈ K := fun q hq => (hnode.1 q hq).2.1.mpr hpK
      have hnlt : ∀ q, it.next = some q → p < q ∧ q < m.length :=
        fun q hq => ⟨(hnode.1 q hq).2.2 hpK, (hnode.1 q hq).1⟩
      by_cases hc : cond it = true
      · obtain ⟨m1, l1, hrem, hS1, hl1, hlen1, hfr1⟩ :=
          remove_spec K True l m p hS hl hp (by simp [hpK])
        have heq : removeLoop cond (f + 1) m l (some p) = removeLoop cond f m1 l1 it.next := by
          simp [removeLoop, hit, hc, hrem]
        obtain ⟨ihA, ihB⟩ := ih m1 l1 it.next hS1 hl1 hnext
        rw [heq]
        refine ⟨fun r hr => ?_, fun hfuel _ => ?_⟩
        · obtain ⟨h1, h2, h3, h4⟩ := ihA r hr
          refine ⟨h1, h2, h3.trans hlen1, fun i hi => ?_⟩
          rw [h4 i hi]
          exact hfr1 i (by simp [hi])
        · have hf := hfuel p rfl
          apply ihB
          · intro q hq
            obtain ⟨h1, h2⟩ := hnlt q hq
            rw [hlen1]
            omega
          · omega
      · have heq : removeLoop cond (f + 1) m l (some p) = removeLoop cond f m l it.next := by
          simp [removeLoop, hit, hc]
        obtain ⟨ihA, ihB⟩ := ih m l it.next hS hl hnext
        rw [heq]
        refine ⟨ihA, fun hfuel _ => ?_⟩
        have hf := hfuel p rfl
        apply ihB
        · intro q hq
          obtain ⟨h1, h2⟩ := hnlt q hq
          omega
        · omega

/-- The loop of `clear` on the known side of a well-linked store. -/
theorem clearLoop_spec (K : List Nat) :
    ∀ (fuel : Nat) (m : Store) (start : Option Nat),
      StoreOK K m → (∀ p, start = some p → p ∈ K) →
      (∀ r, clearLoop fuel m start = some r →
        StoreOK K r ∧ r.length = m.length ∧ ∀ i, i ∉ K → r[i]? = m[i]?) ∧
      ((∀ p, start = some p → m.length - p < fuel) → 0 < fuel →
        ∃ r, clearLoop fuel m start = some r) := by
  intro fuel
  induction fuel with
  | zero =>
    intro m start _ _
    exact ⟨fun r hr => by simp [clearLoop] at hr, fun _ h0 => absurd h0 (by decide)⟩
  | succ f ih =>
    intro m start hS hst
    cases start with
    | none =>
      refine ⟨fun r hr => ?_, fun _ _ => ⟨m, by simp [clearLoop]⟩⟩
      simp only [clearLoop, Option.some.injEq] at hr
      subst hr
      exact ⟨hS, rfl, fun _ _ => rfl⟩
    | some p =>
      have hpK : p ∈ K := hst p rfl
      have hp : p < m.length := hS.2 p hpK
      have hit : m[p]? = some m[p] := List.getElem?_eq_getElem hp
      generalize m[p] = it at hit
      have hnode := hS.1 p it hit
      have hnext : ∀ q, it.next = some q → q ∈ K := fun q hq => (hnode.1 q hq).2.1.mpr hpK
      have hnlt : ∀ q, it.next = some q → p < q ∧ q < m.length :=
        fun q hq => ⟨(hnode.1 q hq).2.2 hpK, (hnode.1 q hq).1⟩
      have hu1 : m.upd p (fun v => { v with next := none }) =
          some (m.set p { it with next := none }) := by
        simp [Store.upd, hit]
      have hv1 : (m.set p { it with next := none })[p]? = some { it with next := none } :=
        getElem?_set_self_of_some m p it _ hit
      have hu2 : Store.upd (m.set p { it with next := none }) p
          (fun v => { v with prev := none }) =
          some (m.set p { it with next := none, prev := none }) := by
        simp [Store.upd, hv1, List.set_set]
      have hS2 : StoreOK K (m.set p { it with next := none, prev := none }) :=
        StoreOK_set K m p it _ hS hit
          ⟨fun j hj => by simp at hj, fun j hj => by simp at hj⟩
      have hlen2 : (m.set p { it with next := none, prev := none }).length = m.length :=
        List.length_set _ _ _
      have heq : clearLoop (f + 1) m (some p) =
          clearLoop f (m.set p { it with next := none, prev := none }) it.next := by
        simp [clearLoop, hit, hu1, hu2]
      obtain ⟨ihA, ihB⟩ := ih _ it.next hS2 hnext
      rw [heq]
      refine ⟨fun r hr => ?_, fun hfuel _ => ?_⟩
      · obtain ⟨h1, h2, h3⟩ := ihA r hr
        refine ⟨h1, h2.trans hlen2, fun i hi => ?_⟩
        rw [h3 i hi]
        apply getElem?_set_of_ne
        intro h
        subst h
        exact hi hpK
      · have hf := hfuel p rfl
        apply ihB
        · intro q hq
          obtain ⟨h1, h2⟩ := hnlt q hq
          rw [hlen2]
          omega
        · omega

/-- A node returned by the loop of `find` is allocated and lies on the side on
which the walk started. -/
theorem findLoop_side (K : List Nat) (s : Prop) (m : Store) (item : ServiceInfo)
    (hS : StoreOK K m) :
    ∀ (fuel : Nat) (start : Option Nat) (ip : Nat),
      (∀ p, start = some p → (p ∈ K ↔ s)) →
      findLoop m item fuel start = some (some ip) → ip < m.length ∧ (ip ∈ K ↔ s) := by
  intro fuel
  induction fuel with
  | zero => intro start ip _ h; simp [findLoop] at h
  | succ f ih =>
    intro start ip hst h
    cases start with
    | none => simp [findLoop] at h
    | some p =>
      cases hit : m[p]? with
      | none => simp [findLoop, hit] at h
      | some cur =>
        simp only [findLoop, hit] at h
        split at h
        · simp only [Option.some.injEq] at h
          subst h
          exact ⟨getElem?_lt_of_eq_some m p cur hit, hst p rfl⟩
        · apply ih cur.next ip _ h
          intro q hq
          exact ((hS.1 p cur hit).1 q hq).2.1.trans (hst p rfl)

theorem nodeOK_mono (K : List Nat) (n i : Nat) (v : ServiceInfo) (hi : i < n)
    (h : nodeOK K n i v) : nodeOK (K ++ [n]) (n + 1) i v := by
  have hmem : ∀ j, j < n → (j ∈ K ++ [n] ↔ j ∈ K) := by
    intro j hj
    simp only [List.mem_append, List.mem_singleton]
    constructor
    · rintro (h1 | h1)
      · exact h1
      · omega
    · exact Or.inl
  constructor
  · intro j hj
    obtain ⟨h1, h2, h3⟩ := h.1 j hj
    exact ⟨by omega, by rw [hmem j h1, hmem i hi]; exact h2,
      fun hiK => h3 ((hmem i hi).mp hiK)⟩
  · intro j hj
    obtain ⟨h1, h2, h3⟩ := h.2 j hj
    exact ⟨by omega, by rw [hmem j h1, hmem i hi]; exact h2,
      fun hiK => h3 ((hmem i hi).mp hiK)⟩

/-- Allocating a record with nil links for a handler: the new index joins `K`. -/
theorem StoreOK_alloc_handler (K : List Nat) (m : Store) (v : ServiceInfo)
    (hS : StoreOK K m) (hn : v.next = none) (hp : v.prev = none) :
    StoreOK (K ++ [m.length]) (m ++ [v]) := by
  constructor
  · intro i u hu
    rw [List.length_append, List.length_singleton]
    rcases Nat.lt_or_ge i m.length with hi | hi
    · rw [List.getElem?_append_left hi] at hu
      exact nodeOK_mono K m.length i u hi (hS.1 i u hu)
    · have hlt := getElem?_lt_of_eq_some _ _ _ hu
      rw [List.length_append, List.length_singleton] at hlt
      have hie : i = m.length := by omega
      subst hie
      simp only [List.getElem?_concat_length, Option.some.injEq] at hu
      subst hu
      exact ⟨fun j hj => by rw [hn] at hj; simp at hj,
        fun j hj => by rw [hp] at hj; simp at hj⟩
  · intro i hi
    rw [List.length_append, List.length_singleton]
    simp only [List.mem_append, List.mem_singleton] at hi
    rcases hi with h | h
    · have := hS.2 i h; omega
    · omega

/-- Allocating a record with nil links for the caller: `K` stays as it is. -/
theorem StoreOK_alloc_caller (K : List Nat) (m : Store) (v : ServiceInfo)
    (hS : StoreOK K m) (hn : v.next = none) (hp : v.prev = none) :
    StoreOK K (m ++ [v]) := by
  constructor
  · intro i u hu
    rw [List.length_append, List.length_singleton]
    rcases Nat.lt_or_ge i m.length with hi | hi
    · rw [List.getElem?_append_left hi] at hu
      have h := hS.1 i u hu
      exact ⟨fun j hj => ⟨by have := (h.1 j hj).1; omega, (h.1 j hj).2⟩,
        fun j hj => ⟨by have := (h.2 j hj).1; omega, (h.2 j hj).2⟩⟩
    · have hlt := getElem?_lt_of_eq_some _ _ _ hu
      rw [List.length_append, List.length_singleton] at hlt
      have hie : i = m.length := by omega
      subst hie
      simp only [List.getElem?_concat_length, Option.some.injEq] at hu
      subst hu
      exact ⟨fun j hj => by rw [hn] at hj; simp at hj,
        fun j hj => by rw [hp] at hj; simp at hj⟩
  · intro i hi
    rw [List.length_append, List.length_singleton]
    have := hS.2 i hi
    omega

theorem listOK_alloc_handler (K : List Nat) (n : Nat) (s : Prop) (l : infoList)
    (h : listOK K n s l) : listOK (K ++ [n]) (n + 1) s l := by
  have hmem : ∀ j, j < n → (j ∈ K ++ [n] ↔ j ∈ K) := by
    intro j hj
    simp only [List.mem_append, List.mem_singleton]
    constructor
    · rintro (h1 | h1)
      · exact h1
      · omega
    · exact Or.inl
  constructor
  · intro j hj
    obtain ⟨h1, h2⟩ := h.1 j hj
    exact ⟨by omega, by rw [hmem j h1]; exact h2⟩
  · intro j hj
    obtain ⟨h1, h2⟩ := h.2 j hj
    exact ⟨by omega, by rw [hmem j h1]; exact h2⟩

theorem listOK_alloc_caller (K : List Nat) (n : Nat) (s : Prop) (l : infoList)
    (h : listOK K n s l) : listOK K (n + 1) s l :=
  ⟨fun j hj => ⟨by have := (h.1 j hj).1; omega, (h.1 j hj).2⟩,
   fun j hj => ⟨by have := (h.2 j hj).1; omega, (h.2 j hj).2⟩⟩

theorem append_range_succ (K : List Nat) (n k : Nat) (h : n + 1 ≤ k) :
    (K ++ [n]) ++ List.range' (n + 1) (k - (n + 1)) = K ++ List.range' n (k - n) := by
  have hk : k - n = (k - (n + 1)) + 1 := by omega
  rw [hk, List.range'_succ]
  simp

/-- The loop of `handleServiceListMessage` on a well-linked store: the records
it allocates join `K`, the known list stays in `K`, and the caller records
that existed before are left alone. -/
theorem serviceListLoop_spec (clientID : String) (now deadline : Int) (fuel : Nat) :
    ∀ (msg : List ServiceInfoProto) (K : List Nat) (m : Store) (l : infoList)
      (r : Store × infoList),
      StoreOK K m → listOK K m.length True l →
      serviceListLoop clientID now deadline fuel msg m l = some r →
      StoreOK (K ++ List.range' m.length (r.1.length - m.length)) r.1 ∧
        listOK (K ++ List.range' m.length (r.1.length - m.length)) r.1.length True r.2 ∧
        m.length ≤ r.1.length ∧ ∀ i, i < m.length → i ∉ K → r.1[i]? = m[i]? := by
  intro msg
  induction msg with
  | nil =>
    intro K m l r hS hl h
    simp only [serviceListLoop, Option.some.injEq] at h
    subst h
    simpa using ⟨hS, hl⟩
  | cons svc rest ih =>
    intro K m l r hS hl h
    obtain ⟨sv, hsearch⟩ : ∃ sv : ServiceInfo, sv =
        ServiceInfo.mk svc.Name svc.Address now deadline clientID none none := ⟨_, rfl⟩
    have hsn : sv.next = none := by rw [hsearch]
    have hsp : sv.prev = none := by rw [hsearch]
    have hS0 := StoreOK_alloc_handler K m sv hS hsn hsp
    have hl0 : listOK (K ++ [m.length]) (m ++ [sv]).length True l := by
      rw [List.length_append, List.length_singleton]
      exact listOK_alloc_handler K m.length True l hl
    have hlen0 : (m ++ [sv]).length = m.length + 1 := by simp
    have hfr0 : ∀ i, i < m.length → (m ++ [sv])[i]? = m[i]? :=
      fun i hi => List.getElem?_append_left hi
    have hnotK0 : ∀ i, i < m.length → i ∉ K → i ∉ K ++ [m.length] := by
      intro i hi hiK
      simp only [List.mem_append, List.mem_singleton, not_or]
      exact ⟨hiK, by omega⟩
    have finish : ∀ (m3 : Store) (l3 : infoList),
        StoreOK (K ++ [m.length]) m3 → listOK (K ++ [m.length]) m3.length True l3 →
        m3.length = m.length + 1 → (∀ i, i ∉ K ++ [m.length] → m3[i]? = (m ++ [sv])[i]?) →
        serviceListLoop clientID now deadline fuel rest m3 l3 = some r →
        StoreOK (K ++ List.range' m.length (r.1.length - m.length)) r.1 ∧
          listOK (K ++ List.range' m.length (r.1.length - m.length)) r.1.length True r.2 ∧
          m.length ≤ r.1.length ∧ ∀ i, i < m.length → i ∉ K → r.1[i]? = m[i]? := by
      intro m3 l3 hS3 hl3 hlen3 hfr3 h3
      obtain ⟨h1, h2, h4, h5⟩ := ih (K ++ [m.length]) m3 l3 r hS3 hl3 h3
      rw [hlen3] at h1 h2 h4 h5
      rw [append_range_succ K m.length r.1.length h4] at h1 h2
      refine ⟨h1, h2, by omega, fun i hi hiK => ?_⟩
      rw [h5 i (by omega) (hnotK0 i hi hiK), hfr3 i (hnotK0 i hi hiK), hfr0 i hi]
    simp only [serviceListLoop] at h
    rw [← hsearch] at h
    cases hfind : infoList.find l (m ++ [sv]) m.length fuel with
    | none => simp [hfind] at h
    | some res =>
      cases res with
      | some ip =>
        simp only [hfind] at h
        have hip : ip < (m ++ [sv]).length ∧ (ip ∈ K ++ [m.length] ↔ True) := by
          unfold infoList.find at hfind
          split at hfind
          · simp at hfind
          · exact findLoop_side (K ++ [m.length]) True (m ++ [sv]) _ hS0 fuel l.first ip
              (fun p hp => (hl0.1 p hp).2) hfind
        cases hu1 : Store.upd (m ++ [sv]) ip (fun v => { v with updatedBy := clientID }) with
        | none => simp [hu1] at h
        | some m1 =>
          obtain ⟨hS1, hlen1, hfr1⟩ := StoreOK_upd_fields _ _ m1 ip _ hS0 hu1
            (fun v => ⟨rfl, rfl⟩)
          cases hu2 : Store.upd m1 ip (fun v => { v with UpdatedAt := now }) with
          | none => simp [hu1, hu2] at h
          | some m2 =>
            obtain ⟨hS2, hlen2, hfr2⟩ := StoreOK_upd_fields _ _ m2 ip _ hS1 hu2
              (fun v => ⟨rfl, rfl⟩)
            cases hu3 : Store.upd m2 ip (fun v => { v with GoodUntil := deadline }) with
            | none => simp [hu1, hu2, hu3] at h
            | some m3 =>
              obtain ⟨hS3, hlen3, hfr3⟩ := StoreOK_upd_fields _ _ m3 ip _ hS2 hu3
                (fun v => ⟨rfl, rfl⟩)
              simp only [hu1, hu2, hu3] at h
              have hne : ∀ i, i ∉ K ++ [m.length] → i ≠ ip := by
                intro i hi hie
                subst hie
                exact hi (hip.2.mpr trivial)
              apply finish m3 l hS3 (by rw [hlen3, hlen2, hlen1]; exact hl0)
                (by rw [hlen3, hlen2, hlen1, hlen0]) _ h
              intro i hi
              rw [hfr3 i (hne i hi), hfr2 i (hne i hi), hfr1 i (hne i hi)]
      | none =>
        simp only [hfind] at h
        obtain ⟨m1, l1, hins, hS1, hl1, hlen1, hfr1, _⟩ :=
          insert_spec (K ++ [m.length]) True l (m ++ [sv]) m.length hS0 hl0
            (by rw [hlen0]; omega) (by simp)
            (fun _ j hj => (hl.2 j hj).1)
        simp only [hins] at h
        apply finish m1 l1 hS1 hl1 (by rw [hlen1, hlen0]) _ h
        intro i hi
        exact hfr1 i (by simp only [iff_true]; exact hi)

/-! ## The store invariant along runs -/

theorem HeapInv_of_frame (K : List Nat) (a b : Agent) (hf : HeapFrame a b)
    (hi : HeapInv K a) : HeapInv K b := by
  obtain ⟨h1, h2, h3⟩ := hf
  unfold HeapInv
  rw [h1, h2, h3]
  exact hi

theorem enqueue_heap (a b : Agent) (w : msgWrapper) (h : a.enqueue w = some b) :
    HeapFrame a b := by
  obtain ⟨c, ch, _, _, _, rfl⟩ := enqueue_eq_some a b w h
  exact ⟨rfl, rfl, rfl⟩

theorem Start_heap (a b : Agent) (err r : Option String) (h : a.Start err = some (b, r)) :
    HeapFrame a b := by
  unfold Agent.Start at h
  split at h
  · simp only [Option.some.injEq, Prod.mk.injEq] at h
    rw [← h.1]; exact ⟨rfl, rfl, rfl⟩
  · split at h
    · simp only [Option.some.injEq, Prod.mk.injEq] at h
      rw [← h.1]; exact ⟨rfl, rfl, rfl⟩
    · simp only at h
      split at h
      · rw [startStopWorker_true_eq] at h
        simp only [Option.map_some', Option.some.injEq, Prod.mk.injEq] at h
        rw [← h.1]; exact ⟨rfl, rfl, rfl⟩
      · simp only [Option.some.injEq, Prod.mk.injEq] at h
        rw [← h.1]; exact ⟨rfl, rfl, rfl⟩

theorem ConnStateHandler_heap (a b : Agent) (conn : Bool)
    (h : a.ConnStateHandler conn = some b) : HeapFrame a b := by
  unfold Agent.ConnStateHandler at h
  split at h
  · simp only [Option.some.injEq] at h
    rw [← h]; exact ⟨rfl, rfl, rfl⟩
  · simp only at h
    split at h
    · cases conn with
      | true =>
        rw [startStopWorker_true_eq] at h
        simp only [Option.some.injEq] at h
        rw [← h]; exact ⟨rfl, rfl, rfl⟩
      | false =>
        obtain ⟨c, ch, _, _, _, rfl⟩ := startStopWorker_false_eq_some _ b h
        exact ⟨rfl, rfl, rfl⟩
    · simp only [Option.some.injEq] at h
      rw [← h]; exact ⟨rfl, rfl, rfl⟩

theorem Watch_heap (a b : Agent) (name : String) (h : a.Watch name = some b) :
    HeapFrame a b := by
  unfold Agent.Watch at h
  split at h
  · simp only [Option.some.injEq] at h
    rw [← h]; exact ⟨rfl, rfl, rfl⟩
  · simp only at h
    split at h
    · obtain ⟨h1, h2, h3⟩ := enqueue_heap _ b _ h
      exact ⟨h1, h2, h3⟩
    · simp only [Option.some.injEq] at h
      rw [← h]; exact ⟨rfl, rfl, rfl⟩

theorem workerRecv_heap (a b : Agent) (c : Nat) (h : a.workerRecv c = some b) :
    HeapFrame a b := by
  unfold Agent.workerRecv at h
  split at h
  · simp at h
  · split at h
    · simp at h
    · simp only [Option.some.injEq] at h
      rw [← h]; exact ⟨rfl, rfl, rfl⟩

theorem HeapInv_removeLoop (K : List Nat) (a : Agent) (cond : ServiceInfo → Bool)
    (fuel : Nat) (m : Store) (l : infoList) (hi : HeapInv K a)
    (h : removeLoop cond fuel a.mem a.knownServices a.knownServices.first = some (m, l)) :
    HeapInv K { a with mem := m, knownServices := l } := by
  obtain ⟨hS, hk, hp⟩ := hi
  obtain ⟨h1, h2, h3, _⟩ := (removeLoop_spec K cond fuel a.mem a.knownServices
    a.knownServices.first hS hk (fun p hp => ((hk.1 p hp).2).mpr trivial)).1 (m, l) h
  refine ⟨h1, h2, ?_⟩
  simp only at h3 ⊢
  rw [h3]
  exact hp

theorem listOK_extend (K : List Nat) (n k n1 : Nat) (l : infoList) (hn : n ≤ n1)
    (h : listOK K n False l) : listOK (K ++ List.range' n k) n1 False l := by
  have hmem : ∀ j, j < n → (j ∈ K ++ List.range' n k ↔ False) → True := fun _ _ _ => trivial
  constructor
  · intro j hj
    obtain ⟨h1, h2⟩ := h.1 j hj
    refine ⟨by omega, ?_⟩
    simp only [List.mem_append, List.mem_range', iff_false, not_or] at h2 ⊢
    refine ⟨h2, ?_⟩
    rintro ⟨i, _, hi⟩
    omega
  · intro j hj
    obtain ⟨h1, h2⟩ := h.2 j hj
    refine ⟨by omega, ?_⟩
    simp only [List.mem_append, List.mem_range', iff_false, not_or] at h2 ⊢
    refine ⟨h2, ?_⟩
    rintro ⟨i, _, hi⟩
    omega

theorem HeapInv_handleMessage (K : List Nat) (a b : Agent) (msg : Msg) (now : Int)
    (fuel : Nat) (hi : HeapInv K a) (h : a.handleMessage msg now fuel = some b) :
    HeapInv (K ++ List.range' a.mem.length (b.mem.length - a.mem.length)) b := by
  have same : ∀ b1 : Agent, HeapFrame a b1 →
      HeapInv (K ++ List.range' a.mem.length (b1.mem.length - a.mem.length)) b1 := by
    intro b1 hf
    rw [hf.1]
    simp only [Nat.sub_self, List.range'_zero, List.append_nil]
    exact HeapInv_of_frame K a b1 hf hi
  have viaLoop : ∀ (cond : ServiceInfo → Bool) (m : Store) (l : infoList),
      removeLoop cond fuel a.mem a.knownServices a.knownServices.first = some (m, l) →
      HeapInv (K ++ List.range' a.mem.length (m.length - a.mem.length))
        { a with mem := m, knownServices := l } := by
    intro cond m l hm
    have h1 := HeapInv_removeLoop K a cond fuel m l hi hm
    have h2 : m.length = a.mem.length := h1.2.2 |> fun _ =>
      ((removeLoop_spec K cond fuel a.mem a.knownServices a.knownServices.first hi.1 hi.2.1
        (fun p hp => ((hi.2.1.1 p hp).2).mpr trivial)).1 (m, l) hm).2.2.1
    rw [h2]
    simpa using h1
  unfold Agent.handleMessage at h
  split at h
  · simp only [Option.some.injEq] at h
    subst h
    exact same a ⟨rfl, rfl, rfl⟩
  · split at h
    · rcases handleInterestMessage_eq_some a b _ fuel h with rfl | ⟨w, hw⟩
      · exact same _ ⟨rfl, rfl, rfl⟩
      · exact same b (enqueue_heap a b w hw)
    · simp only [Option.some.injEq] at h
      subst h
      exact same a ⟨rfl, rfl, rfl⟩
  · split at h
    · rcases handleServiceListMessage_eq_some a b _ _ now fuel h with ⟨_, rfl⟩ | ⟨m, l, hm, rfl⟩
      · exact same _ ⟨rfl, rfl, rfl⟩
      · obtain ⟨h1, h2, h3, _⟩ := serviceListLoop_spec _ now _ fuel _ K a.mem a.knownServices
          (m, l) hi.1 hi.2.1 hm
        exact ⟨h1, h2, listOK_extend K a.mem.length _ m.length _ h3 hi.2.2⟩
    · simp only [Option.some.injEq] at h
      subst h
      exact same a ⟨rfl, rfl, rfl⟩
  · split at h
    · obtain ⟨m, l, hm, rfl⟩ := handleStopMessage_eq_some a b _ fuel h
      exact viaLoop _ m l hm
    · simp only [Option.some.injEq] at h
      subst h
      exact same a ⟨rfl, rfl, rfl⟩

theorem find_eq_some (l : infoList) (m : Store) (item fuel : Nat) (r : Option Nat)
    (h : l.find m item fuel = some r) :
    ∃ it, m[item]? = some it ∧ findLoop m it fuel l.first = some r := by
  unfold infoList.find at h
  split at h
  · simp at h
  · rename_i it hit
    exact ⟨it, hit, h⟩

theorem HeapInv_Register (K : List Nat) (a b : Agent) (info fuel : Nat) (hi : HeapInv K a)
    (hK : info ∉ K) (h : a.Register info fuel = some b) : HeapInv K b := by
  obtain ⟨hS, hk, hp⟩ := hi
  obtain ⟨item, m, l, hfind, hups, hfin⟩ := Register_eq_some a b info fuel h
  obtain ⟨it, hit, hloop⟩ := find_eq_some _ _ _ _ _ hfind
  have hmid : HeapInv K { a with mem := m, providedServices := l } := by
    rcases hups with ⟨_, hins⟩ | ⟨ip, inf0, m1, inf1, hitem, hl, _, hu1, _, hu2⟩
    · obtain ⟨m2, l2, hins2, hS2, hl2, hlen2, _⟩ :=
        insert_spec K False a.providedServices a.mem info hS hp
          (getElem?_lt_of_eq_some _ _ _ hit) (by simp [hK]) (fun hf => absurd hf id)
      rw [hins] at hins2
      simp only [Option.some.injEq, Prod.mk.injEq] at hins2
      obtain ⟨rfl, rfl⟩ := hins2
      refine ⟨hS2, ?_, hl2⟩
      simp only
      rw [hlen2]
      exact hk
    · subst hl
      obtain ⟨hS1, hlen1, _⟩ := StoreOK_upd_fields K _ m1 ip _ hS hu1 (fun v => ⟨rfl, rfl⟩)
      obtain ⟨hS2, hlen2, _⟩ := StoreOK_upd_fields K _ m ip _ hS1 hu2 (fun v => ⟨rfl, rfl⟩)
      refine ⟨hS2, ?_, ?_⟩
      · simp only; rw [hlen2, hlen1]; exact hk
      · simp only; rw [hlen2, hlen1]; exact hp
  rcases hfin with ⟨_, rfl⟩ | ⟨_, inf, _, henq⟩
  · exact hmid
  · exact HeapInv_of_frame K _ b (enqueue_heap _ b _ henq) hmid

theorem HeapInv_Unregister (K : List Nat) (a b : Agent) (info fuel : Nat)
    (hi : HeapInv K a) (h : a.Unregister info fuel = some b) : HeapInv K b := by
  obtain ⟨hS, hk, hp⟩ := hi
  obtain ⟨item, hfind, h1 | h1⟩ := Unregister_eq_some a b info fuel h
  · obtain ⟨_, rfl⟩ := h1
    exact ⟨hS, hk, hp⟩
  · obtain ⟨ip, m, l, hitem, hrem, rfl⟩ := h1
    subst hitem
    obtain ⟨it, hit, hloop⟩ := find_eq_some _ _ _ _ _ hfind
    obtain ⟨hipv, hipK⟩ := findLoop_side K False a.mem it hS fuel a.providedServices.first ip
      (fun p hp1 => (hp.1 p hp1).2) hloop
    obtain ⟨m2, l2, hrem2, hS2, hl2, hlen2, _⟩ :=
      remove_spec K False a.providedServices a.mem ip hS hp hipv hipK
    rw [hrem] at hrem2
    simp only [Option.some.injEq, Prod.mk.injEq] at hrem2
    obtain ⟨rfl, rfl⟩ := hrem2
    refine ⟨hS2, ?_, hl2⟩
    simp only
    rw [hlen2]
    exact hk

theorem clear_eq_some (l : infoList) (m : Store) (fuel : Nat) (r : Store × infoList)
    (h : l.clear m fuel = some r) :
    clearLoop fuel m l.first = some r.1 ∧ r.2 = { l with first := none, last := none } := by
  unfold infoList.clear at h
  split at h
  · simp at h
  · rename_i m1 hm1
    simp only [Option.some.injEq] at h
    subst h
    exact ⟨hm1, rfl⟩

theorem HeapInv_clear (K : List Nat) (a : Agent) (fuel : Nat) (m : Store) (l : infoList)
    (hi : HeapInv K a) (h : a.knownServices.clear a.mem fuel = some (m, l)) :
    HeapInv K { a with mem := m, knownServices := l } ∧ m.length = a.mem.length ∧
      (∀ i, i ∉ K → m[i]? = a.mem[i]?) ∧ l.first = none := by
  obtain ⟨hS, hk, hp⟩ := hi
  obtain ⟨hloop, hl⟩ := clear_eq_some _ _ _ _ h
  simp only at hloop hl
  obtain ⟨h1, h2, h3⟩ := (clearLoop_spec K fuel a.mem a.knownServices.first hS
    (fun p hp1 => ((hk.1 p hp1).2).mpr trivial)).1 m hloop
  refine ⟨⟨h1, ?_, ?_⟩, h2, h3, by rw [hl]⟩
  · rw [hl]
    exact ⟨fun j hj => by simp at hj, fun j hj => by simp at hj⟩
  · simp only
    rw [h2]
    exact hp

theorem HeapInv_Stop (K : List Nat) (a b : Agent) (fuel : Nat) (r : Option String)
    (hi : HeapInv K a) (h : a.Stop fuel = some (b, r)) : HeapInv K b := by
  rcases Stop_eq_some a b fuel r h with ⟨_, rfl⟩ | ⟨_, _, m, l, hclear, h1 | h1⟩
  · exact hi
  · obtain ⟨_, rfl⟩ := h1
    exact HeapInv_of_frame K { a with mem := m, knownServices := l } _ ⟨rfl, rfl, rfl⟩
      (HeapInv_clear K a fuel m l hi hclear).1
  · obtain ⟨_, c, ch, _, _, _, rfl⟩ := h1
    exact HeapInv_of_frame K { a with mem := m, knownServices := l } _ ⟨rfl, rfl, rfl⟩
      (HeapInv_clear K a fuel m l hi hclear).1

theorem HeapInv_step (fuel : Nat) (K : List Nat) (a b : Agent) (op : Op)
    (hi : HeapInv K a) (hreg : ∀ info, op = .Register info → info ∉ K)
    (hnm : ∀ msg now, op ≠ .handleMessage msg now)
    (h : step fuel a op = some b) : HeapInv K b := by
  cases op with
  | alloc n ad =>
    simp only [step, Option.some.injEq] at h
    subst h
    obtain ⟨hS, hk, hp⟩ := hi
    refine ⟨StoreOK_alloc_caller K a.mem _ hS rfl rfl, ?_, ?_⟩
    · simp only [List.length_append, List.length_singleton]
      exact listOK_alloc_caller K _ _ _ hk
    · simp only [List.length_append, List.length_singleton]
      exact listOK_alloc_caller K _ _ _ hp
  | Register info => exact HeapInv_Register K a b info fuel hi (hreg info rfl) h
  | Unregister info => exact HeapInv_Unregister K a b info fuel hi h
  | Start err =>
    simp only [step, Option.map_eq_some'] at h
    obtain ⟨⟨b1, r⟩, hb, rfl⟩ := h
    exact HeapInv_of_frame K a b1 (Start_heap a b1 err r hb) hi
  | Stop =>
    simp only [step, Option.map_eq_some'] at h
    obtain ⟨⟨b1, r⟩, hb, rfl⟩ := h
    exact HeapInv_Stop K a b1 fuel r hi hb
  | Watch n => exact HeapInv_of_frame K a b (Watch_heap a b n h) hi
  | Unwatch n =>
    obtain ⟨m, l, hm, rfl⟩ := Unwatch_eq_some a b n fuel h
    exact HeapInv_of_frame K { a with mem := m, knownServices := l } _ ⟨rfl, rfl, rfl⟩
      (HeapInv_removeLoop K a _ fuel m l hi hm)
  | ConnStateHandler c => exact HeapInv_of_frame K a b (ConnStateHandler_heap a b c h) hi
  | handleMessage msg now => exact absurd rfl (hnm msg now)
  | checkExpiration now =>
    obtain ⟨m, l, hm, rfl⟩ := checkExpiration_eq_some a b now fuel h
    exact HeapInv_removeLoop K a _ fuel m l hi hm
  | sendUpdates =>
    simp only [step, Option.map_eq_some'] at h
    obtain ⟨_, _, rfl⟩ := h
    exact hi
  | workerRecv c => exact HeapInv_of_frame K a b (workerRecv_heap a b c h) hi

/-- One guarded event keeps the store invariant and is an event of `step`. -/
theorem HeapInv_stepOwned (fuel : Nat) (K K1 : List Nat) (a b : Agent) (op : Op)
    (hi : HeapInv K a) (h : stepOwned fuel a K op = some (b, K1)) :
    HeapInv K1 b ∧ step fuel a op = some b := by
  cases op with
  | Register info =>
    simp only [stepOwned] at h
    split at h
    · simp at h
    · rename_i hK
      simp only [Option.map_eq_some', Prod.mk.injEq] at h
      obtain ⟨b1, hb, rfl, rfl⟩ := h
      refine ⟨HeapInv_step fuel K a b1 _ hi ?_ (fun _ _ => by simp) hb, hb⟩
      intro i hi1
      simp only [Op.Register.injEq] at hi1
      subst hi1
      exact hK
  | Unregister info =>
    simp only [stepOwned] at h
    split at h
    · simp at h
    · simp only [Option.map_eq_some', Prod.mk.injEq] at h
      obtain ⟨b1, hb, rfl, rfl⟩ := h
      exact ⟨HeapInv_step fuel K a b1 _ hi (fun _ h1 => by simp at h1) (fun _ _ => by simp) hb,
        hb⟩
  | handleMessage msg now =>
    simp only [stepOwned, Option.map_eq_some', Prod.mk.injEq] at h
    obtain ⟨b1, hb, rfl, rfl⟩ := h
    exact ⟨HeapInv_handleMessage K a b1 msg now fuel hi hb, hb⟩
  | alloc _ _ | Start _ | Stop | Watch _ | Unwatch _ | ConnStateHandler _ | checkExpiration _
  | sendUpdates | workerRecv _ =>
    simp only [stepOwned, Option.map_eq_some', Prod.mk.injEq] at h
    obtain ⟨b1, hb, rfl, rfl⟩ := h
    exact ⟨HeapInv_step fuel K a b1 _ hi (fun _ h1 => by simp at h1) (fun _ _ => by simp) hb,
      hb⟩

theorem HeapInv_runOwned (fuel : Nat) (ops : List Op) :
    ∀ (a b : Agent) (K K1 : List Nat), HeapInv K a →
      runOwned fuel a K ops = some (b, K1) → HeapInv K1 b ∧ run fuel a ops = some b := by
  induction ops with
  | nil =>
    intro a b K K1 hi h
    simp only [runOwned, Option.some.injEq, Prod.mk.injEq] at h
    obtain ⟨rfl, rfl⟩ := h
    exact ⟨hi, rfl⟩
  | cons op rest ih =>
    intro a b K K1 hi h
    simp only [runOwned] at h
    split at h
    · simp at h
    · rename_i a1 K2 h1
      obtain ⟨hi1, hs1⟩ := HeapInv_stepOwned fuel K K2 a a1 op hi h1
      obtain ⟨hi2, hr2⟩ := ih a1 b K2 K1 hi1 h
      exact ⟨hi2, by simp [run, hs1, hr2]⟩

theorem HeapInv_newAgent (cid : String) : HeapInv [] (newAgent cid) := by
  refine ⟨⟨fun i v h => by simp [newAgent] at h, fun i h => by simp at h⟩,
    ⟨fun j h => by simp [newAgent] at h, fun j h => by simp [newAgent] at h⟩,
    ⟨fun j h => by simp [newAgent] at h, fun j h => by simp [newAgent] at h⟩⟩

/-- Every state reachable by the caller is well formed. -/
theorem WellFormed_of_ReachableOwned (a : Agent) (h : ReachableOwned a) : WellFormed a := by
  obtain ⟨cid, fuel, ops, K, hrun⟩ := h
  obtain ⟨hi, hr⟩ := HeapInv_runOwned fuel ops _ a [] K (HeapInv_newAgent cid) hrun
  exact ⟨⟨K, hi⟩, QueueInv_of_Reachable a ⟨cid, fuel, ops, hr⟩⟩

/-! ## Stop, Watch, Unwatch, Register and the interest handler -/

/-- Walking from a caller record gives the same indices in two stores that
agree on the caller records. -/
theorem chain_congr (K : List Nat) (m m1 : Store) (hS : StoreOK K m)
    (hfr : ∀ i, i ∉ K → m1[i]? = m[i]?) :
    ∀ (fuel : Nat) (start : Option Nat), (∀ p, start = some p → p ∉ K) →
      chain m1 fuel start = chain m fuel start ∧
        ∀ ps, chain m fuel start = some ps → ∀ p ∈ ps, p ∉ K := by
  intro fuel
  induction fuel with
  | zero => intro start _; simp [chain]
  | succ f ih =>
    intro start hst
    cases start with
    | none => simp [chain]
    | some p =>
      have hp := hst p rfl
      simp only [chain, hfr p hp]
      cases hit : m[p]? with
      | none => simp
      | some it =>
        have hnext : ∀ q, it.next = some q → q ∉ K := by
          intro q hq hqK
          exact hp (((hS.1 p it hit).1 q hq).2.1.mp hqK)
        obtain ⟨h1, h2⟩ := ih it.next hnext
        simp only [h1, true_and]
        intro ps hps
        simp only [Option.map_eq_some'] at hps
        obtain ⟨rest, hrest, rfl⟩ := hps
        intro q hq
        simp only [List.mem_cons] at hq
        rcases hq with rfl | hq
        · exact hp
        · exact h2 rest hrest q hq

/-- The provided sequence is the same in two states that agree on the caller
records and on the provided list. -/
theorem provided_congr (K : List Nat) (a b : Agent) (hi : HeapInv K a)
    (hfr : ∀ i, i ∉ K → b.mem[i]? = a.mem[i]?)
    (hp : b.providedServices = a.providedServices) (fuel : Nat) :
    b.provided fuel = a.provided fuel := by
  obtain ⟨h1, h2⟩ := chain_congr K a.mem b.mem hi.1 hfr fuel a.providedServices.first
    (fun p hp1 => by simpa using (hi.2.2.1 p hp1).2)
  unfold Agent.provided
  rw [hp, h1]
  cases hc : chain a.mem fuel a.providedServices.first with
  | none => rfl
  | some ps =>
    simp only [Option.map_some', Option.some.injEq]
    apply List.filterMap_congr
    intro p hp1
    exact hfr p (h2 ps hc p hp1)

/-- The core of C11, for any well-formed state. -/
theorem Stop_of_wellFormed (K : List Nat) (a : Agent) (hi : HeapInv K a) (hq : QueueInv a)
    (hrun : a.running = true) (fuel : Nat) (hfuel : a.mem.length < fuel) :
    ∃ b, a.Stop fuel = some (b, none) ∧ b.running = false ∧
      b.knownServices.first = none ∧
      (∀ f, b.provided f = a.provided f) ∧
      (a.connected = true → ∃ c ch, a.send = some c ∧ a.chans[c]? = some ch ∧
        ch.closed = false ∧ b.send = none ∧
        b.chans = a.chans.set c
          ⟨ch.buf ++ [⟨a.subjectPrefix ++ ".stop." ++ a.clientID, none⟩], true⟩) ∧
      (a.connected = false → b.send = none ∧ b.chans = a.chans) := by
  obtain ⟨m, hm⟩ := (clearLoop_spec K fuel a.mem a.knownServices.first hi.1
    (fun p hp => ((hi.2.1.1 p hp).2).mpr trivial)).2
    (fun p _ => by omega) (by omega)
  have hclear : a.knownServices.clear a.mem fuel =
      some (m, { a.knownServices with first := none, last := none }) := by
    simp [infoList.clear, hm]
  obtain ⟨_, _, hfr, _⟩ := HeapInv_clear K a fuel m _ hi hclear
  have hS := Stop_eq_of_running a fuel m _ hrun hclear
  rcases Bool.eq_false_or_eq_true a.connected with hc | hc
  · have hne : a.send ≠ none := hq.1.mpr ⟨hrun, hc⟩
    obtain ⟨c, hs⟩ := Option.ne_none_iff_exists'.mp hne
    obtain ⟨ch, hch, hcl⟩ := hq.2 c hs
    refine ⟨_, hS.2 hc c ch hs hch hcl, rfl, rfl, ?_, ?_, ?_⟩
    · intro f
      apply provided_congr K a _ hi
      · exact hfr
      · rfl
    · intro _
      exact ⟨c, ch, hs, hch, hcl, rfl, rfl⟩
    · intro h
      rw [hc] at h
      exact absurd h (by decide)
  · have hsend : a.send = none := by
      by_contra hne
      have := (hq.1.mp hne).2
      rw [hc] at this
      exact absurd this (by decide)
    refine ⟨_, hS.1 hc, rfl, rfl, ?_, ?_, ?_⟩
    · intro f
      apply provided_congr K a _ hi
      · exact hfr
      · rfl
    · intro h
      rw [hc] at h
      exact absurd h (by decide)
    · intro _
      exact ⟨hsend, rfl⟩

theorem Discover_known_empty (b : Agent) (name : String) (f : Nat)
    (h : b.knownServices.first = none) : b.Discover name false (f + 1) = some [] := by
  simp [Agent.Discover, discoverLists, discoverLoop, h]

/-- C11: in every state reachable by the caller in which the agent is running,
`Stop` returns without error for every fuel above the size of the store; the
result is not running, its known list is empty (`Discover` without local
records returns nothing for every name), its provided sequence is the one
before, and when the agent was connected the channel that was `send` got
exactly one more message, the stop notice without payload on prefix, `stop`,
own identifier, as its last message and is now closed. -/
theorem Stop_when_running (a : Agent) (h : ReachableOwned a) (hrun : a.running = true)
    (fuel : Nat) (hfuel : a.mem.length < fuel) :
    ∃ b, a.Stop fuel = some (b, none) ∧ b.running = false ∧
      b.knownServices.first = none ∧
      (∀ name f, b.Discover name false (f + 1) = some []) ∧
      (∀ f, b.provided f = a.provided f) ∧
      (a.connected = true → ∃ c ch, a.send = some c ∧ a.chans[c]? = some ch ∧
        ch.closed = false ∧ b.send = none ∧
        b.chans = a.chans.set c
          ⟨ch.buf ++ [⟨a.subjectPrefix ++ ".stop." ++ a.clientID, none⟩], true⟩) ∧
      (a.connected = false → b.send = none ∧ b.chans = a.chans) := by
  obtain ⟨⟨K, hi⟩, hq⟩ := WellFormed_of_ReachableOwned a h
  obtain ⟨b, h1, h2, h3, h4, h5, h6⟩ := Stop_of_wellFormed K a hi hq hrun fuel hfuel
  exact ⟨b, h1, h2, h3, fun name f => Discover_known_empty b name f h3, h4, h5, h6⟩

/-- C11 at a concrete input: a started, connected agent that provides two
records and knows two. -/
theorem Stop_when_running_witness :
    ReachableOwned stateServing ∧ stateServing.running = true ∧
      stateServing.mem.length < 10 ∧
      ∃ b, stateServing.Stop 10 = some (b, none) ∧ b.running = false ∧
        b.knownServices.first = none ∧
        (∀ name f, b.Discover name false (f + 1) = some []) ∧
        (∀ f, b.provided f = stateServing.provided f) ∧
        (stateServing.connected = true → ∃ c ch, stateServing.send = some c ∧
          stateServing.chans[c]? = some ch ∧ ch.closed = false ∧ b.send = none ∧
          b.chans = stateServing.chans.set c
            ⟨ch.buf ++ [⟨stateServing.subjectPrefix ++ ".stop." ++ stateServing.clientID,
                         none⟩], true⟩) ∧
        (stateServing.connected = false → b.send = none ∧ b.chans = stateServing.chans) :=
  have hr : ReachableOwned stateServing := ⟨"me", 10, runServing, [2, 3], by decide⟩
  ⟨hr, by decide, by decide, Stop_when_running stateServing hr (by decide) 10 (by decide)⟩

theorem filter_ne_of_not_contains (l : List String) (name : String)
    (h : contains l name = false) : l.filter (fun w => w != name) = l := by
  induction l with
  | nil => rfl
  | cons x xs ih =>
    simp only [contains] at h
    split at h
    · simp at h
    · rename_i hx
      simp [List.filter_cons, hx, ih h]

theorem contains_append_self (l : List String) (name : String) :
    contains (l ++ [name]) name = true := by
  induction l with
  | nil => simp [contains]
  | cons x xs ih =>
    simp only [List.cons_append, contains]
    split
    · rfl
    · exact ih

/-- C13: in every well-formed state, `Watch` of a name returns; on a watched
name it returns the state itself (no second entry, no message); a second
`Watch` of the same name returns the result of the first one unchanged.
`Unwatch` returns for every fuel above the size of the store; for a name that
is not watched the watch set stays as it is, and a second `Unwatch` leaves
the watch set of the first result as it is. -/
theorem Watch_Unwatch_idempotent (a : Agent) (name : String) (hw : WellFormed a) :
    (contains a.watched name = true → a.Watch name = some a) ∧
      (∃ b, a.Watch name = some b ∧ contains b.watched name = true ∧
        b.Watch name = some b) ∧
      (∀ fuel, a.mem.length < fuel →
        ∃ b, a.Unwatch name fuel = some b ∧
          (contains a.watched name = false → b.watched = a.watched) ∧
          contains b.watched name = false ∧
          ∃ c, b.Unwatch name fuel = some c ∧ c.watched = b.watched) := by
  obtain ⟨⟨K, hi⟩, hq⟩ := hw
  have hW1 : ∀ x : Agent, contains x.watched name = true → x.Watch name = some x := by
    intro x hx
    simp [Agent.Watch, hx]
  refine ⟨hW1 a, ?_, ?_⟩
  · by_cases hc : contains a.watched name = true
    · exact ⟨a, hW1 a hc, hc, hW1 a hc⟩
    · by_cases hrc : (a.connected && a.running) = true
      · simp only [Bool.and_eq_true] at hrc
        have hne : a.send ≠ none := hq.1.mpr ⟨hrc.2, hrc.1⟩
        obtain ⟨c, hs⟩ := Option.ne_none_iff_exists'.mp hne
        obtain ⟨ch, hch, hcl⟩ := hq.2 c hs
        refine ⟨{ a with
            watched := a.watched ++ [name],
            chans := a.chans.set c { ch with buf := ch.buf ++
              [⟨a.subjectPrefix ++ ".interest." ++ a.clientID,
                some (protoMessage.ServiceInterest [name])⟩] } }, ?_, ?_, ?_⟩
        · simp [Agent.Watch, hc, hrc.1, hrc.2, Agent.publish, Agent.interestSubject,
            Agent.enqueue, hs, hch, hcl]
        · exact contains_append_self a.watched name
        · apply hW1
          exact contains_append_self a.watched name
      · refine ⟨{ a with watched := a.watched ++ [name] }, ?_, ?_, ?_⟩
        · simp only [Agent.Watch, hc, if_false]
          simp only [Bool.not_eq_true] at hrc
          simp [hrc]
        · exact contains_append_self a.watched name
        · apply hW1
          exact contains_append_self a.watched name
  · intro fuel hfuel
    have hfirst : ∀ p, a.knownServices.first = some p → p ∈ K :=
      fun p hp => ((hi.2.1.1 p hp).2).mpr trivial
    obtain ⟨⟨m, l⟩, hm⟩ := (removeLoop_spec K (fun item => item.Name == name) fuel a.mem
      a.knownServices a.knownServices.first hi.1 hi.2.1 hfirst).2
      (fun p _ => by omega) (by omega)
    obtain ⟨hS1, hl1, hlen1, _⟩ := (removeLoop_spec K (fun item => item.Name == name) fuel
      a.mem a.knownServices a.knownServices.first hi.1 hi.2.1 hfirst).1 (m, l) hm
    simp only at hS1 hl1 hlen1
    obtain ⟨⟨m2, l2⟩, hm2⟩ := (removeLoop_spec K (fun item => item.Name == name) fuel m l
      l.first hS1 hl1 (fun p hp => ((hl1.1 p hp).2).mpr trivial)).2
      (fun p _ => by omega) (by omega)
    have hnc : ∀ ws : List String, contains (ws.filter (fun w => w != name)) name = false := by
      intro ws
      induction ws with
      | nil => rfl
      | cons x xs ih =>
        by_cases hx : x = name
        · simp [List.filter_cons, hx, ih]
        · simp [List.filter_cons, hx, contains, ih]
    refine ⟨{ a with mem := m, knownServices := l,
                     watched := a.watched.filter (fun w => w != name) }, ?_, ?_, ?_, ?_⟩
    · simp [Agent.Unwatch, hm]
    · intro hc
      exact filter_ne_of_not_contains a.watched name hc
    · exact hnc a.watched
    · refine ⟨{ a with mem := m2, knownServices := l2,
                       watched := (a.watched.filter (fun w => w != name)).filter
                         (fun w => w != name) }, by simp [Agent.Unwatch, hm2], ?_⟩
      simp [List.filter_filter]

/-- C13 at a concrete input: the serving agent, which watches `svc`. -/
theorem Watch_Unwatch_idempotent_witness :
    WellFormed stateServing ∧ contains stateServing.watched "svc" = true ∧
      stateServing.Watch "svc" = some stateServing :=
  have hw : WellFormed stateServing :=
    WellFormed_of_ReachableOwned stateServing ⟨"me", 10, runServing, [2, 3], by decide⟩
  ⟨hw, by decide, (Watch_Unwatch_idempotent stateServing "svc" hw).1 (by decide)⟩

theorem SameFields_refl (m : Store) : SameFields m m :=
  ⟨rfl, fun _ v h => ⟨v, h, rfl, rfl⟩⟩

theorem SameFields_trans (m m1 m2 : Store) (h1 : SameFields m m1) (h2 : SameFields m1 m2) :
    SameFields m m2 := by
  refine ⟨h2.1.trans h1.1, fun i v hv => ?_⟩
  obtain ⟨w, hw, hn, ha⟩ := h1.2 i v hv
  obtain ⟨u, hu, hn2, ha2⟩ := h2.2 i w hw
  exact ⟨u, hu, hn2.trans hn, ha2.trans ha⟩

theorem SameFields_upd (m m1 : Store) (p : Nat) (f : ServiceInfo → ServiceInfo)
    (hu : m.upd p f = some m1) (hf : ∀ v, (f v).Name = v.Name ∧ (f v).Address = v.Address) :
    SameFields m m1 := by
  obtain ⟨v, hv, rfl⟩ := (upd_eq_some m m1 p f).mp hu
  refine ⟨List.length_set _ _ _, fun i u hu1 => ?_⟩
  by_cases hpi : p = i
  · subst hpi
    rw [hv] at hu1
    simp only [Option.some.injEq] at hu1
    subst hu1
    exact ⟨f v, getElem?_set_self_of_some m p v _ hv, (hf v).1, (hf v).2⟩
  · exact ⟨u, by rw [getElem?_set_of_ne m p i _ hpi]; exact hu1, rfl, rfl⟩

/-- The method `insert` changes no `Name` and no `Address`. -/
theorem insert_SameFields (l l1 : infoList) (m m1 : Store) (item : Nat)
    (h : l.insert m item = some (m1, l1)) : SameFields m m1 := by
  unfold infoList.insert at h
  cases ha : m.upd item (fun v => { v with prev := l.last }) with
  | none => simp [ha] at h
  | some ma =>
    cases hb : Store.upd ma item (fun v => { v with next := none }) with
    | none => simp [ha, hb] at h
    | some mb =>
      have h1 := SameFields_upd m ma item _ ha (fun v => ⟨rfl, rfl⟩)
      have h2 := SameFields_upd ma mb item _ hb (fun v => ⟨rfl, rfl⟩)
      simp only [ha, hb, Option.bind_eq_bind, Option.some_bind] at h
      cases hll : l.last with
      | none =>
        simp only [hll, Option.some_bind, Option.some.injEq, Prod.mk.injEq] at h
        obtain ⟨rfl, _⟩ := h
        exact SameFields_trans _ _ _ h1 h2
      | some lp =>
        cases hc : Store.upd mb lp (fun v => { v with next := some item }) with
        | none => simp [hll, hc] at h
        | some mc =>
          simp only [hll, hc, Option.some_bind, Option.some.injEq, Prod.mk.injEq] at h
          obtain ⟨rfl, _⟩ := h
          exact SameFields_trans _ _ _ (SameFields_trans _ _ _ h1 h2)
            (SameFields_upd mb mc lp _ hc (fun v => ⟨rfl, rfl⟩))

theorem findLoop_lt (m : Store) (item : ServiceInfo) :
    ∀ (fuel : Nat) (start : Option Nat) (ip : Nat),
      findLoop m item fuel start = some (some ip) → ip < m.length := by
  intro fuel
  induction fuel with
  | zero => intro start ip h; simp [findLoop] at h
  | succ f ih =>
    intro start ip h
    cases start with
    | none => simp [findLoop] at h
    | some p =>
      cases hit : m[p]? with
      | none => simp [findLoop, hit] at h
      | some cur =>
        simp only [findLoop, hit] at h
        split at h
        · simp only [Option.some.injEq] at h
          subst h
          exact getElem?_lt_of_eq_some m p cur hit
        · exact ih cur.next ip h

theorem StoreOK_forget (K : List Nat) (m : Store) (h : StoreOK K m) : StoreOK [] m :=
  ⟨fun i v hv =>
    ⟨fun j hj => ⟨((h.1 i v hv).1 j hj).1, by simp, fun hi => by simp at hi⟩,
     fun j hj => ⟨((h.1 i v hv).2 j hj).1, by simp, fun hi => by simp at hi⟩⟩,
   fun i hi => by simp at hi⟩

theorem listOK_forget (K : List Nat) (n : Nat) (s : Prop) (l : infoList)
    (h : listOK K n s l) : listOK [] n False l :=
  ⟨fun j hj => ⟨(h.1 j hj).1, by simp⟩, fun j hj => ⟨(h.2 j hj).1, by simp⟩⟩

/-- The upsert of `Register` on a well-formed state, given that `find` returns:
the store and the list that result exist, and the record `info` keeps its
`Name` and `Address`. -/
theorem Register_upsert (K : List Nat) (a : Agent) (info fuel : Nat) (item : Option Nat)
    (inf : ServiceInfo) (hi : HeapInv K a) (hinf : a.mem[info]? = some inf)
    (hfind : a.providedServices.find a.mem info fuel = some item) :
    ∃ m l w, m[info]? = some w ∧ w.Name = inf.Name ∧ w.Address = inf.Address ∧
      ∀ b, (a.Register info fuel = some b ↔
        (if (a.running && a.connected) = true then
          ({ a with mem := m, providedServices := l } : Agent).enqueue
            ⟨a.subjectPrefix ++ ".servicelist." ++ a.clientID,
              some (protoMessage.ServicesList [⟨w.Name, w.Address, ""⟩])⟩
         else some { a with mem := m, providedServices := l }) = some b) := by
  have hlt := getElem?_lt_of_eq_some _ _ _ hinf
  cases item with
  | none =>
    obtain ⟨m, l, hins, _⟩ := insert_spec [] False a.providedServices a.mem info
      (StoreOK_forget K _ hi.1) (listOK_forget K _ _ _ hi.2.2) hlt (by simp)
      (fun hf => absurd hf id)
    obtain ⟨w, hw, hn, had⟩ := (insert_SameFields _ _ _ _ _ hins).2 info inf hinf
    refine ⟨m, l, w, hw, hn, had, fun b => ?_⟩
    simp only [Agent.Register, hfind, Option.bind_eq_bind, Option.some_bind, hins,
      Agent.serviceListSubject]
    by_cases hrc : (a.running && a.connected) = true
    · simp [hrc, hw]
    · simp [hrc]
  | some ip =>
    obtain ⟨it, hit, hloop⟩ := find_eq_some _ _ _ _ _ hfind
    have hip := findLoop_lt a.mem it fuel _ ip hloop
    obtain ⟨v, hv, hu1⟩ := upd_of_lt a.mem ip (fun v => { v with Address := inf.Address }) hip
    have hinf1 : (a.mem.set ip { v with Address := inf.Address })[info]? = some inf := by
      by_cases hpi : ip = info
      · subst hpi
        rw [hv] at hinf
        simp only [Option.some.injEq] at hinf
        subst hinf
        exact getElem?_set_self_of_some a.mem ip v _ hv
      · rw [getElem?_set_of_ne a.mem ip info _ hpi]; exact hinf
    have hip1 : ip < (a.mem.set ip { v with Address := inf.Address }).length := by
      rw [List.length_set]; exact hip
    obtain ⟨v1, hv1, hu2⟩ := upd_of_lt _ ip (fun v => { v with Name := inf.Name }) hip1
    have hv1e : v1 = { v with Address := inf.Address } := by
      rw [getElem?_set_self_of_some a.mem ip v _ hv] at hv1
      simp only [Option.some.injEq] at hv1
      exact hv1.symm
    have hu2b : Store.upd (a.mem.set ip { v with Address := inf.Address }) ip
        (fun v => { v with Name := inf.Name }) =
        some (a.mem.set ip { v1 with Name := inf.Name }) := by
      rw [hu2, List.set_set]
    have hinf2 : (a.mem.set ip { v1 with Name := inf.Name })[info]? =
        some (if ip = info then { v1 with Name := inf.Name } else inf) := by
      by_cases hpi : ip = info
      · subst hpi
        simp only [if_true]
        exact getElem?_set_self_of_some _ ip v _ hv
      · rw [getElem?_set_of_ne _ ip info _ hpi, if_neg hpi]; exact hinf
    have hw : ∀ w, w = (if ip = info then { v1 with Name := inf.Name } else inf) →
        w.Name = inf.Name ∧ w.Address = inf.Address := by
      intro w hw
      subst hw
      by_cases hpi : ip = info
      · simp [hpi, hv1e]
      · simp [hpi]
    refine ⟨_, a.providedServices, _, hinf2, (hw _ rfl).1, (hw _ rfl).2, fun b => ?_⟩
    simp only [Agent.Register, hfind, Option.bind_eq_bind, Option.some_bind, hinf, hu1, hinf1,
      hu2b, Agent.serviceListSubject]
    by_cases hrc : (a.running && a.connected) = true
    · simp only [hrc, if_true, hinf2, Option.some_bind]
    · rw [if_neg hrc, if_neg hrc]

/-- What `Register` enqueues when it returns: in every well-formed state in
which the walk of `find` ends,
`Register` returns; `send` stays the same; when `running` and `connected` are
both set the channel `send` gets exactly one more message, at the end of its
buffer, addressed to prefix, `servicelist`, own identifier, a list with the
single entry of the `Name` and `Address` of `info`; otherwise no channel
changes. -/
theorem Register_enqueue (a : Agent) (info fuel : Nat) (item : Option Nat)
    (hw : WellFormed a) (hfind : a.providedServices.find a.mem info fuel = some item) :
    ∃ b inf, a.mem[info]? = some inf ∧ a.Register info fuel = some b ∧ b.send = a.send ∧
      ((a.running = true ∧ a.connected = true) →
        ∃ c ch, a.send = some c ∧ a.chans[c]? = some ch ∧
          b.chans = a.chans.set c { ch with buf := ch.buf ++
            [⟨a.subjectPrefix ++ ".servicelist." ++ a.clientID,
              some (protoMessage.ServicesList [⟨inf.Name, inf.Address, ""⟩])⟩] }) ∧
      (¬ (a.running = true ∧ a.connected = true) → b.chans = a.chans) := by
  obtain ⟨⟨K, hi⟩, hq⟩ := hw
  obtain ⟨inf, hinf, _⟩ := find_eq_some _ _ _ _ _ hfind
  obtain ⟨m, l, w, hw1, hn, had, hreg⟩ := Register_upsert K a info fuel item inf hi hinf hfind
  by_cases hrc : a.running = true ∧ a.connected = true
  · have hne : a.send ≠ none := hq.1.mpr hrc
    obtain ⟨c, hs⟩ := Option.ne_none_iff_exists'.mp hne
    obtain ⟨ch, hch, hcl⟩ := hq.2 c hs
    have hb : (a.running && a.connected) = true := by simp [hrc.1, hrc.2]
    refine ⟨{ a with mem := m, providedServices := l,
                     chans := a.chans.set c { ch with buf := ch.buf ++
                       [⟨a.subjectPrefix ++ ".servicelist." ++ a.clientID,
                         some (protoMessage.ServicesList [⟨inf.Name, inf.Address, ""⟩])⟩] } },
      inf, hinf, ?_, rfl, fun _ => ⟨c, ch, hs, hch, rfl⟩, fun h => absurd hrc h⟩
    rw [hreg, if_pos hb, hn, had]
    exact enqueue_of_open _ _ c ch hs hch hcl
  · have hb : ¬ (a.running && a.connected) = true := by
      simpa [Bool.and_eq_true] using hrc
    refine ⟨{ a with mem := m, providedServices := l }, inf, hinf, ?_, rfl,
      fun h => absurd h hrc, fun _ => rfl⟩
    rw [hreg, if_neg hb]

/-- The lemma `Register_enqueue` at a concrete input: the serving agent
registers record 0 again. -/
theorem Register_enqueue_witness :
    WellFormed stateServing ∧
      stateServing.providedServices.find stateServing.mem 0 10 = some (some 0) ∧
      ∃ b inf, stateServing.mem[0]? = some inf ∧ stateServing.Register 0 10 = some b ∧
        b.send = stateServing.send ∧
        ((stateServing.running = true ∧ stateServing.connected = true) →
          ∃ c ch, stateServing.send = some c ∧ stateServing.chans[c]? = some ch ∧
            b.chans = stateServing.chans.set c { ch with buf := ch.buf ++
              [⟨stateServing.subjectPrefix ++ ".servicelist." ++ stateServing.clientID,
                some (protoMessage.ServicesList [⟨inf.Name, inf.Address, ""⟩])⟩] }) ∧
        (¬ (stateServing.running = true ∧ stateServing.connected = true) →
          b.chans = stateServing.chans) :=
  have hw : WellFormed stateServing :=
    WellFormed_of_ReachableOwned stateServing ⟨"me", 10, runServing, [2, 3], by decide⟩
  ⟨hw, by decide, Register_enqueue stateServing 0 10 (some 0) hw (by decide)⟩

/-- The loop of `handleInterestMessage` appends to `acc` an entry for each
record of the walk whose name is asked for; it returns exactly when the walk
ends. -/
theorem interestLoop_eq_chain (m : Store) (names : List String) (clientID : String)
    (fuel : Nat) :
    ∀ (start : Option Nat) (acc : List ServiceInfoProto),
      interestLoop m names clientID fuel start acc =
        (chain m fuel start).map (fun ps =>
          acc ++ ((ps.filterMap (fun p => m[p]?)).filter
            (fun r => contains names r.Name)).map
              (fun r => ⟨r.Name, r.Address, clientID⟩)) := by
  induction fuel with
  | zero => intro start acc; simp [interestLoop, chain]
  | succ n ih =>
    intro start acc
    cases start with
    | none => simp [interestLoop, chain]
    | some p =>
      cases hp : m[p]? with
      | none => simp [interestLoop, chain, hp]
      | some s =>
        simp only [interestLoop, chain, hp, ih]
        cases chain m n s.next with
        | none => simp
        | some rest =>
          by_cases hn : contains names s.Name = true
          · simp [hp, hn, List.filter_cons]
          · simp [hp, hn, List.filter_cons]

/-- C15: the started agent that is not connected is reachable, is running and
provides `svc`, and `send` is nil; an interest in `svc` makes
`handleInterestMessage` send the reply on the nil channel, so it returns for
no fuel and no reply is enqueued. -/
theorem handleInterestMessage_blocks :
    Reachable stateStartedNotConnected ∧ stateStartedNotConnected.running = true ∧
      stateStartedNotConnected.connected = false ∧
      stateStartedNotConnected.send = none ∧
      stateStartedNotConnected.provided 10 =
        some [{ Name := "svc", Address := "local:1", UpdatedAt := 0, GoodUntil := 0,
                updatedBy := "", next := none, prev := none }] ∧
      ¬ ∃ fuel b, stateStartedNotConnected.handleInterestMessage ["svc"] fuel = some b := by
  refine ⟨⟨"me", 10, [.alloc "svc" "local:1", .Register 0, .Start none], rfl⟩,
    by decide, by decide, by decide, by decide, ?_⟩
  rintro ⟨fuel, b, h⟩
  have hsend : stateStartedNotConnected.send = none := by decide
  have hfirst : stateStartedNotConnected.providedServices.first = some 0 := by decide
  have hmem : stateStartedNotConnected.mem[0]? =
      some { Name := "svc", Address := "local:1", UpdatedAt := 0, GoodUntil := 0,
             updatedBy := "", next := none, prev := none } := by decide
  have hc : contains ["svc"] "svc" = true := by decide
  unfold Agent.handleInterestMessage at h
  simp only [List.length_singleton, Nat.lt_irrefl, if_false, hfirst] at h
  rcases fuel with _ | _ | f
  · simp [interestLoop] at h
  · simp [interestLoop, hmem] at h
  · simp [interestLoop, hmem, hc, Agent.enqueue, hsend] at h

/-- What `handleInterestMessage` enqueues when it returns: when `send` is an
open channel and the walk of the provided list ends with the records `P`,
`handleInterestMessage` returns; for a
non-empty name list with at least one provided record asked for, the result
is the state with exactly one more message at the end of the buffer of
`send`, addressed to prefix, `servicelist`, own identifier, with one entry
(name, address, own identifier) per provided record whose name is asked for,
in the order of the walk; otherwise the result is the state itself. -/
theorem handleInterestMessage_reply (a : Agent) (names : List String) (fuel : Nat)
    (P : List ServiceInfo) (c : Nat) (ch : chanState) (hsend : a.send = some c)
    (hch : a.chans[c]? = some ch) (hopen : ch.closed = false)
    (hwalk : a.provided fuel = some P) :
    a.handleInterestMessage names fuel =
      some (if names ≠ [] ∧ P.filter (fun r => contains names r.Name) ≠ [] then
        { a with chans := a.chans.set c { ch with buf := ch.buf ++
            [⟨a.subjectPrefix ++ ".servicelist." ++ a.clientID,
              some (protoMessage.ServicesList
                ((P.filter (fun r => contains names r.Name)).map
                  (fun r => ⟨r.Name, r.Address, a.clientID⟩)))⟩] } }
      else a) := by
  unfold Agent.provided at hwalk
  cases hck : chain a.mem fuel a.providedServices.first with
  | none => simp [hck] at hwalk
  | some ps =>
    simp only [hck, Option.map_some', Option.some.injEq] at hwalk
    cases names with
    | nil => simp [Agent.handleInterestMessage]
    | cons n ns =>
      simp only [Agent.handleInterestMessage, List.length_cons, interestLoop_eq_chain, hck,
        Option.map_some', List.nil_append, hwalk]
      by_cases hne : P.filter (fun r => contains (n :: ns) r.Name) = []
      · simp [hne]
      · have hlen : 0 < ((P.filter (fun r => contains (n :: ns) r.Name)).map
            (fun r => (⟨r.Name, r.Address, a.clientID⟩ : ServiceInfoProto))).length := by
          rw [List.length_map]
          exact List.length_pos.mpr hne
        simp only [show ¬ (ns.length + 1 < 1) by omega, if_false, gt_iff_lt, hlen, if_true,
          ne_eq, reduceCtorEq, not_false_eq_true, hne, and_self]
        rw [enqueue_of_open a _ c ch hsend hch hopen]
        rfl

/-- The lemma `handleInterestMessage_reply` at a concrete input: the serving
agent gets an interest in `svc` and `nothing`; the reply lists its one
provided record named `svc`. -/
theorem handleInterestMessage_reply_witness :
    stateServing.send = some 0 ∧ stateServing.chans[0]? = some chanServing ∧
      chanServing.closed = false ∧ stateServing.provided 10 = some providedServing ∧
      (stateServing.handleInterestMessage ["svc", "nothing"] 10).map
          (fun b => (b.chans[0]?).map (fun q => q.buf.drop 2)) =
        some (some [⟨"github.com.hatobitoio.discovery.servicelist.me",
          some (protoMessage.ServicesList [⟨"svc", "local:1", "me"⟩])⟩]) ∧
      stateServing.handleInterestMessage ["svc", "nothing"] 10 =
        some (if ["svc", "nothing"] ≠ [] ∧
            providedServing.filter (fun r => contains ["svc", "nothing"] r.Name) ≠ [] then
          { stateServing with chans := (stateServing.chans.set 0
            { chanServing with buf := chanServing.buf ++
                [⟨stateServing.subjectPrefix ++ ".servicelist." ++ stateServing.clientID,
                  some (protoMessage.ServicesList
                    ((providedServing.filter
                        (fun r => contains ["svc", "nothing"] r.Name)).map
                      (fun r => ⟨r.Name, r.Address, stateServing.clientID⟩)))⟩] }) }
        else stateServing) :=
  ⟨by decide, by decide, by decide, by decide, by decide,
   handleInterestMessage_reply stateServing ["svc", "nothing"] 10 providedServing 0
     chanServing (by decide) (by decide) (by decide) (by decide)⟩

/-! ## Discover without the lock -/

/-- C19: `Discover` takes no lock.  A handler that refreshes the one known
record on behalf of `p2` at 5 s holds the lock after its first action; a
goroutine that calls `a.lock()` first cannot run then, but the goroutine of
`Discover` can, and scheduled between the writes of `UpdatedAt` and
`GoodUntil` it returns a record updated at 5 s by `p2` with the old deadline
1.1 s: a record that is in the known list neither before the handler (`p1`,
0 s, 1.1 s) nor after it (`p2`, 5 s, 6.1 s).  Run alone, the actions of the
handler give the state that `handleServiceListMessage` returns. -/
theorem Discover_sees_half_refreshed_record :
    ((sharedRefresh (discoverActs "svc" false)).run 10 [0, 0, 0, 0, 1, 0, 0]).map
        (fun s => s.returned) =
      some [[{ Name := "svc", Address := "10.0.0.1:9000", UpdatedAt := 5000000000,
               GoodUntil := 1100000000, updatedBy := "p2", next := none, prev := none }]] ∧
      ((sharedRefresh (discoverActs "svc" false)).run 10 [0, 0, 0, 0]).map (fun s => s.l) =
        some true ∧
      (sharedRefresh (lockedDiscoverActs "svc" false)).run 10 [0, 0, 0, 0, 1] = none ∧
      stateOneKnown.Discover "svc" false 10 =
        some [{ Name := "svc", Address := "10.0.0.1:9000", UpdatedAt := 0,
                GoodUntil := 1100000000, updatedBy := "p1", next := none, prev := none }] ∧
      ((sharedRefresh []).run 10 [0, 0, 0, 0, 0, 0]).map (fun s => s.agent) =
        stateOneKnown.handleServiceListMessage [⟨"svc", "10.0.0.1:9000", "p2"⟩] "p2"
          5000000000 10 ∧
      ((sharedRefresh []).run 10 [0, 0, 0, 0, 0, 0]).bind
          (fun s => s.agent.Discover "svc" false 10) =
        some [{ Name := "svc", Address := "10.0.0.1:9000", UpdatedAt := 5000000000,
                GoodUntil := 6100000000, updatedBy := "p2", next := none, prev := none }] := by
  refine ⟨by decide, by decide, by decide, by decide, by decide, by decide⟩


/-! ## Walks over a record that is its own successor -/

/-- A walk that starts at a record whose `next` is the record itself ends
for no fuel. -/
theorem chain_self_loop (m : Store) (p : Nat) (v : ServiceInfo) (hv : m[p]? = some v)
    (hn : v.next = some p) : ∀ fuel, chain m fuel (some p) = none := by
  intro fuel
  induction fuel with
  | zero => rfl
  | succ n ih => simp [chain, hv, hn, ih]

/-- The loop of `find` from a record that is its own successor and is not
equal to the record looked for returns for no fuel. -/
theorem findLoop_self_loop (m : Store) (item : ServiceInfo) (p : Nat) (v : ServiceInfo)
    (hv : m[p]? = some v) (hn : v.next = some p) (he : v.equals item = false) :
    ∀ fuel, findLoop m item fuel (some p) = none := by
  intro fuel
  induction fuel with
  | zero => rfl
  | succ n ih => simp [findLoop, hv, hn, he, ih]

/-- The loop of `sendUpdates` from a record that is its own successor returns
for no fuel. -/
theorem sendUpdatesLoop_self_loop (m : Store) (clientID : String) (p : Nat) (v : ServiceInfo)
    (hv : m[p]? = some v) (hn : v.next = some p) :
    ∀ fuel acc, sendUpdatesLoop m clientID fuel (some p) acc = none := by
  intro fuel
  induction fuel with
  | zero => intro acc; rfl
  | succ n ih => intro acc; simp [sendUpdatesLoop, hv, hn, ih]

/-- C21: after the caller registers record 0, unregisters it and registers the
same record again, record 0 is the first provided record and its own `next`;
the walk of the provided list ends for no fuel, and neither `Discover` with
local records, nor `Register` of record 1, nor `sendUpdates`, nor the handler
of an interest message returns, whatever the fuel. -/
theorem provided_walk_never_ends :
    Reachable stateRegisteredAgain ∧ ReachableOwned stateRegisteredAgain ∧
      stateRegisteredAgain.providedServices.first = some 0 ∧
      stateRegisteredAgain.mem[0]? =
        some { Name := "a", Address := "1", UpdatedAt := 0, GoodUntil := 0, updatedBy := "",
               next := some 0, prev := some 0 } ∧
      (∀ fuel, chain stateRegisteredAgain.mem fuel
        stateRegisteredAgain.providedServices.first = none) ∧
      (∀ fuel, stateRegisteredAgain.Discover "b" true fuel = none) ∧
      (∀ fuel, stateRegisteredAgain.Register 1 fuel = none) ∧
      (∀ fuel, stateRegisteredAgain.sendUpdates fuel = none) ∧
      (∀ fuel, stateRegisteredAgain.handleInterestMessage ["b"] fuel = none) := by
  have hfirst : stateRegisteredAgain.providedServices.first = some 0 := by decide
  have hknown : stateRegisteredAgain.knownServices.first = none := by decide
  have h0 : stateRegisteredAgain.mem[0]? =
      some { Name := "a", Address := "1", UpdatedAt := 0, GoodUntil := 0, updatedBy := "",
             next := some 0, prev := some 0 } := by decide
  have h1 : stateRegisteredAgain.mem[1]? =
      some { Name := "b", Address := "2", UpdatedAt := 0, GoodUntil := 0, updatedBy := "",
             next := none, prev := none } := by decide
  have hchain := chain_self_loop stateRegisteredAgain.mem 0 _ h0 rfl
  refine ⟨⟨"me", 10, runRegisteredAgain, rfl⟩, ⟨"me", 10, runRegisteredAgain, [], by decide⟩,
    hfirst, h0, ?_, ?_, ?_, ?_, ?_⟩
  · intro fuel
    rw [hfirst]
    exact hchain fuel
  · intro fuel
    unfold Agent.Discover
    simp only [if_true, discoverLists, hknown, hfirst, discoverLoop_eq_chain, hchain]
    cases fuel <;> simp [chain]
  · intro fuel
    unfold Agent.Register infoList.find
    simp only [h1, hfirst]
    rw [findLoop_self_loop stateRegisteredAgain.mem _ 0 _ h0 rfl (by decide) fuel]
    rfl
  · intro fuel
    unfold Agent.sendUpdates
    rw [hfirst, sendUpdatesLoop_self_loop stateRegisteredAgain.mem _ 0 _ h0 rfl fuel]
  · intro fuel
    unfold Agent.handleInterestMessage
    simp only [List.length_singleton, Nat.lt_irrefl, if_false, hfirst, interestLoop_eq_chain,
      hchain, Option.map_none']

/-- C22: the agent that provides `svc` and lost its connection is running and
not connected, and `send` is nil; `Watch` and `Register` return there without
sending, but for an interest in `svc` from `peer` the handler builds the reply
with one entry and sends it on the nil channel: `handleMessage` returns for
no fuel. -/
theorem interest_reply_sent_without_queue :
    Reachable stateDisconnected ∧ stateDisconnected.running = true ∧
      stateDisconnected.connected = false ∧ stateDisconnected.send = none ∧
      stateDisconnected.Watch "svc" =
        some { stateDisconnected with watched := ["svc"] } ∧
      stateDisconnected.Register 0 10 = some stateDisconnected ∧
      stateDisconnected.parseNatsMessage (interestFrom "peer" ["svc"]) =
        (some (protoMessage.ServiceInterest ["svc"]), "peer", false) ∧
      interestLoop stateDisconnected.mem ["svc"] stateDisconnected.clientID 10
        stateDisconnected.providedServices.first [] = some [⟨"svc", "local:1", "me"⟩] ∧
      ∀ fuel now, stateDisconnected.handleMessage (interestFrom "peer" ["svc"]) now fuel =
        none := by
  have hparse : stateDisconnected.parseNatsMessage (interestFrom "peer" ["svc"]) =
      (some (protoMessage.ServiceInterest ["svc"]), "peer", false) := by decide
  refine ⟨⟨"me", 10, runDisconnected, rfl⟩, by decide, by decide, by decide, by decide,
    by decide, hparse, by decide, ?_⟩
  intro fuel now
  have hsend : stateDisconnected.send = none := by decide
  have hfirst : stateDisconnected.providedServices.first = some 0 := by decide
  have hmem : stateDisconnected.mem[0]? =
      some { Name := "svc", Address := "local:1", UpdatedAt := 0, GoodUntil := 0,
             updatedBy := "", next := none, prev := none } := by decide
  have hc : contains ["svc"] "svc" = true := by decide
  unfold Agent.handleMessage
  rw [hparse]
  simp only [Bool.not_false, if_true]
  unfold Agent.handleInterestMessage
  simp only [List.length_singleton, Nat.lt_irrefl, if_false, hfirst]
  rcases fuel with _ | _ | f
  · simp [interestLoop]
  · simp [interestLoop, hmem]
  · simp [interestLoop, hmem, hc, Agent.enqueue, hsend]


/-! ## The known records stay distinct -/

theorem Reach_none (m : Store) (p : Nat) : ¬ Reach m none p := by
  intro h
  cases h

/-- The set of records met from `start` is the least set that holds `start`
and is closed under `next`. -/
theorem Reach_least (m : Store) (P : Nat → Prop)
    (hcl : ∀ (s : Nat) (w : ServiceInfo) (q : Nat), P s → m[s]? = some w → w.next = some q →
      P q) :
    ∀ (start : Option Nat) (p : Nat), (∀ s, start = some s → P s) → Reach m start p → P p := by
  intro start p hs h
  induction h with
  | here p => exact hs p rfl
  | step s v p hv _ ih =>
    apply ih
    intro q hq
    exact hcl s v q (hs s rfl) hv hq

theorem Reach_snoc (m : Store) (start : Option Nat) (s q : Nat) (v : ServiceInfo)
    (h : Reach m start s) (hv : m[s]? = some v) (hq : v.next = some q) : Reach m start q := by
  induction h with
  | here p =>
    refine Reach.step p v q hv ?_
    rw [hq]
    exact Reach.here q
  | step s0 v0 p hv0 _ ih => exact Reach.step s0 v0 q hv0 (ih hv)

/-- A store that agrees with `m` on the records met from `start` has the same
records met from `start`, and they stay distinct. -/
theorem Distinct_of_agree (m m1 : Store) (start : Option Nat) (hlen : m.length ≤ m1.length)
    (hag : ∀ p, Reach m start p → m1[p]? = m[p]?) (h : Distinct m start) :
    Distinct m1 start := by
  have hsub : ∀ p, Reach m1 start p → Reach m start p := by
    intro p hp
    refine Reach_least m1 (fun x => Reach m start x) ?_ start p ?_ hp
    · intro s w q hs hw hq
      rw [hag s hs] at hw
      exact Reach_snoc m start s q w hs hw hq
    · intro s hs
      rw [hs]
      exact Reach.here s
  constructor
  · intro p hp
    exact Nat.lt_of_lt_of_le (h.1 p (hsub p hp)) hlen
  · intro p q vp vq hp hq hvp hvq
    rw [hag p (hsub p hp)] at hvp
    rw [hag q (hsub q hq)] at hvq
    exact h.2 p q vp vq (hsub p hp) (hsub q hq) hvp hvq

theorem Distinct_none (m : Store) : Distinct m none :=
  ⟨fun p hp => absurd hp (Reach_none m p), fun p _ _ _ hp => absurd hp (Reach_none m p)⟩

/-- What one field write does to the entries of the store. -/
theorem upd_get (m m1 : Store) (p : Nat) (f : ServiceInfo → ServiceInfo)
    (h : m.upd p f = some m1) :
    m1.length = m.length ∧
      ∀ (i : Nat) (v : ServiceInfo), m[i]? = some v →
        m1[i]? = some (if i = p then f v else v) := by
  obtain ⟨u, hu, rfl⟩ := (upd_eq_some m m1 p f).mp h
  refine ⟨List.length_set _ _ _, ?_⟩
  intro i v hv
  by_cases hip : i = p
  · subst hip
    rw [hu] at hv
    simp only [Option.some.injEq] at hv
    subst hv
    rw [getElem?_set_self_of_some m i u _ hu]
    simp
  · rw [getElem?_set_of_ne m p i _ (Ne.symm hip), hv]
    simp [hip]

theorem getElem?_of_lt (m : Store) (s : Nat) (h : s < m.length) : ∃ v, m[s]? = some v :=
  ⟨m[s], List.getElem?_eq_getElem h⟩

/-- A write that keeps `Name`, `Address` and `next` keeps the records met
from `start` distinct. -/
theorem Distinct_upd_fields (m m1 : Store) (p : Nat) (f : ServiceInfo → ServiceInfo)
    (start : Option Nat) (hu : m.upd p f = some m1)
    (hf : ∀ v, (f v).Name = v.Name ∧ (f v).Address = v.Address ∧ (f v).next = v.next)
    (h : Distinct m start) : Distinct m1 start := by
  obtain ⟨hlen, hget⟩ := upd_get m m1 p f hu
  have hkeep : ∀ (i : Nat) (v : ServiceInfo), m[i]? = some v →
      ∃ w, m1[i]? = some w ∧ w.Name = v.Name ∧ w.Address = v.Address ∧ w.next = v.next := by
    intro i v hv
    refine ⟨_, hget i v hv, ?_⟩
    by_cases hip : i = p
    · simp only [hip, if_true]
      exact hf v
    · simp [hip]
  have hsub : ∀ x, Reach m1 start x → Reach m start x := by
    intro x hx
    refine Reach_least m1 (fun x => Reach m start x) ?_ start x ?_ hx
    · intro s w q hs hw hq
      obtain ⟨v, hv⟩ := getElem?_of_lt m s (h.1 s hs)
      obtain ⟨w1, hw1, _, _, hnx⟩ := hkeep s v hv
      rw [hw1] at hw
      simp only [Option.some.injEq] at hw
      subst hw
      exact Reach_snoc m start s q v hs hv (hnx ▸ hq)
    · intro s hs
      rw [hs]
      exact Reach.here s
  constructor
  · intro x hx
    rw [hlen]
    exact h.1 x (hsub x hx)
  · intro x y vx vy hx hy hvx hvy hn ha
    obtain ⟨ux, hux⟩ := getElem?_of_lt m x (h.1 x (hsub x hx))
    obtain ⟨uy, huy⟩ := getElem?_of_lt m y (h.1 y (hsub y hy))
    obtain ⟨wx, hwx, hxn, hxa, _⟩ := hkeep x ux hux
    obtain ⟨wy, hwy, hyn, hya, _⟩ := hkeep y uy huy
    rw [hwx] at hvx
    rw [hwy] at hvy
    simp only [Option.some.injEq] at hvx hvy
    subst hvx hvy
    exact h.2 x y ux uy (hsub x hx) (hsub y hy) hux huy (by rw [← hxn, ← hyn, hn])
      (by rw [← hxa, ← hya, ha])

theorem remove_links (l l1 : infoList) (m m1 : Store) (item : Nat) (it : ServiceInfo)
    (hit : m[item]? = some it) (h : l.remove m item = some (m1, l1)) :
    m1.length = m.length ∧ l1.first = (if it.prev = none then none else l.first) ∧
      ∀ (i : Nat) (v : ServiceInfo), m[i]? = some v →
        ∃ w, m1[i]? = some w ∧ w.Name = v.Name ∧ w.Address = v.Address ∧
          w.next = (if it.prev = some i then it.next else v.next) := by
  unfold infoList.remove at h
  simp only [hit, Option.bind_eq_bind, Option.some_bind] at h
  cases hp : it.prev with
  | none =>
    simp only [hp, Option.some_bind, hit] at h
    cases hn : it.next with
    | none =>
      simp only [hn, Option.some_bind, Option.some.injEq, Prod.mk.injEq] at h
      obtain ⟨rfl, rfl⟩ := h
      refine ⟨rfl, by simp, ?_⟩
      intro i v hv
      exact ⟨v, hv, rfl, rfl, by simp⟩
    | some np =>
      simp only [hn, Option.bind_eq_some, Option.map_eq_some'] at h
      obtain ⟨a, ⟨m2, hu, rfl⟩, h⟩ := h
      simp only [Option.some.injEq, Prod.mk.injEq] at h
      obtain ⟨rfl, rfl⟩ := h
      obtain ⟨hlen, hget⟩ := upd_get _ _ _ _ hu
      refine ⟨hlen, by simp, ?_⟩
      intro i v hv
      refine ⟨_, hget i v hv, ?_⟩
      by_cases hi : i = np <;> simp [hi]
  | some pp =>
    simp only [hp, Option.bind_eq_some, Option.map_eq_some'] at h
    obtain ⟨a, ⟨m2, hu, rfl⟩, it2, hit2, h⟩ := h
    simp only at hit2 h
    obtain ⟨hlen, hget⟩ := upd_get _ _ _ _ hu
    rw [hget item it hit] at hit2
    simp only [Option.some.injEq] at hit2
    have hnx : it2.next = it.next := by
      rw [← hit2]
      by_cases hi : item = pp <;> simp [hi]
    cases hn : it.next with
    | none =>
      rw [hnx, hn] at h
      simp only [Option.some.injEq, Prod.mk.injEq] at h
      obtain ⟨rfl, rfl⟩ := h
      refine ⟨hlen, by simp, ?_⟩
      intro i v hv
      refine ⟨_, hget i v hv, ?_⟩
      by_cases hi : i = pp
      · simp [hi, hn]
      · have hi2 : ¬ pp = i := fun e => hi e.symm
        simp [hi, hi2]
    | some np =>
      rw [hnx, hn] at h
      simp only [Option.bind_eq_some, Option.map_eq_some'] at h
      obtain ⟨a, ⟨m3, hu3, rfl⟩, h⟩ := h
      simp only [Option.some.injEq, Prod.mk.injEq] at h
      obtain ⟨rfl, rfl⟩ := h
      obtain ⟨hlen3, hget3⟩ := upd_get _ _ _ _ hu3
      refine ⟨by rw [hlen3, hlen], by simp, ?_⟩
      intro i v hv
      refine ⟨_, hget3 i _ (hget i v hv), ?_⟩
      by_cases hi : i = pp
      · subst hi
        by_cases hi3 : i = np
        · subst hi3
          simp [hn]
        · simp [hi3, hn]
      · have hi2 : ¬ pp = i := fun e => hi e.symm
        by_cases hi3 : i = np
        · subst hi3
          simp [hi, hi2]
        · simp [hi, hi2, hi3]

/-- What `insert` does to the links: `first` becomes `item` when it was nil,
the old `last` gets `item` as `next`, and `item` gets no `next` unless it is
the old `last` itself. -/
theorem insert_links (l l1 : infoList) (m m1 : Store) (item : Nat)
    (h : l.insert m item = some (m1, l1)) :
    m1.length = m.length ∧ l1.first = (if l.first = none then some item else l.first) ∧
      ∀ (i : Nat) (v : ServiceInfo), m[i]? = some v →
        ∃ w, m1[i]? = some w ∧ w.Name = v.Name ∧ w.Address = v.Address ∧
          w.next = (if l.last = some i then some item else if i = item then none
            else v.next) := by
  unfold infoList.insert at h
  simp only [Option.bind_eq_bind, Option.bind_eq_some] at h
  obtain ⟨m2, hu2, m3, hu3, h⟩ := h
  obtain ⟨hlen2, hget2⟩ := upd_get _ _ _ _ hu2
  obtain ⟨hlen3, hget3⟩ := upd_get _ _ _ _ hu3
  cases hl : l.last with
  | none =>
    simp only [hl, Option.some_bind, Option.some.injEq, Prod.mk.injEq] at h
    obtain ⟨rfl, rfl⟩ := h
    refine ⟨by rw [hlen3, hlen2], ?_, ?_⟩
    · by_cases hf : l.first = none <;> simp [hf]
    · intro i v hv
      refine ⟨_, hget3 i _ (hget2 i v hv), ?_⟩
      by_cases hi : i = item
      · subst hi
        simp
      · simp [hi]
  | some lp =>
    simp only [hl, Option.bind_eq_some] at h
    obtain ⟨m4, hu4, h⟩ := h
    simp only [Option.some.injEq, Prod.mk.injEq] at h
    obtain ⟨rfl, rfl⟩ := h
    obtain ⟨hlen4, hget4⟩ := upd_get _ _ _ _ hu4
    refine ⟨by rw [hlen4, hlen3, hlen2], ?_, ?_⟩
    · by_cases hf : l.first = none <;> simp [hf]
    · intro i v hv
      refine ⟨_, hget4 i _ (hget3 i _ (hget2 i v hv)), ?_⟩
      by_cases hi : i = lp
      · subst hi
        by_cases hi2 : i = item
        · subst hi2
          simp
        · simp [hi2]
      · have hi1 : ¬ lp = i := fun e => hi e.symm
        by_cases hi2 : i = item
        · subst hi2
          simp [hi, hi1]
        · simp [hi, hi1, hi2]

/-- When every record met in `m1` was met in `m`, and the records keep their
`Name` and `Address`, distinctness carries over. -/
theorem Distinct_of_sub (m m1 : Store) (s s1 : Option Nat) (hlen : m1.length = m.length)
    (hkey : ∀ (i : Nat) (v : ServiceInfo), m[i]? = some v →
      ∃ w, m1[i]? = some w ∧ w.Name = v.Name ∧ w.Address = v.Address)
    (hsub : ∀ x, Reach m1 s1 x → Reach m s x) (h : Distinct m s) : Distinct m1 s1 := by
  constructor
  · intro x hx
    rw [hlen]
    exact h.1 x (hsub x hx)
  · intro x y vx vy hx hy hvx hvy hn ha
    obtain ⟨ux, hux⟩ := getElem?_of_lt m x (h.1 x (hsub x hx))
    obtain ⟨uy, huy⟩ := getElem?_of_lt m y (h.1 y (hsub y hy))
    obtain ⟨wx, hwx, hxn, hxa⟩ := hkey x ux hux
    obtain ⟨wy, hwy, hyn, hya⟩ := hkey y uy huy
    rw [hwx] at hvx
    rw [hwy] at hvy
    simp only [Option.some.injEq] at hvx hvy
    subst hvx hvy
    exact h.2 x y ux uy (hsub x hx) (hsub y hy) hux huy (by rw [← hxn, ← hyn, hn])
      (by rw [← hxa, ← hya, ha])

/-- A record met in `m` is still met after the `next` of the records `pp`
with `prv = some pp` was rewritten, unless the walk passes such a record,
which is then met. -/
theorem Reach_avoid (m m1 : Store) (prv : Option Nat)
    (hget : ∀ (i : Nat) (v : ServiceInfo), m[i]? = some v →
      ∃ w, m1[i]? = some w ∧ (prv ≠ some i → w.next = v.next))
    (start : Option Nat) (x : Nat) (h : Reach m start x) :
    Reach m1 start x ∨ ∃ pp, prv = some pp ∧ Reach m1 start pp := by
  induction h with
  | here p => exact Or.inl (Reach.here p)
  | step s v p hv _ ih =>
    by_cases hs : prv = some s
    · exact Or.inr ⟨s, hs, Reach.here s⟩
    · obtain ⟨w, hw, hnx⟩ := hget s v hv
      have hnx1 := hnx hs
      rcases ih with h1 | ⟨pp, hpp, h1⟩
      · exact Or.inl (Reach.step s w p hw (hnx1 ▸ h1))
      · exact Or.inr ⟨pp, hpp, Reach.step s w pp hw (hnx1 ▸ h1)⟩

/-- The method `remove`, called on a record met from `first` (or when `first`
is nil), keeps the records met from `first` distinct, and the successor of
the removed record is met afterwards unless `first` is nil. -/
theorem Distinct_remove (l l1 : infoList) (m m1 : Store) (item : Nat) (it : ServiceInfo)
    (hit : m[item]? = some it) (h : l.remove m item = some (m1, l1))
    (hd : Distinct m l.first) (hr : l.first = none ∨ Reach m l.first item) :
    Distinct m1 l1.first ∧ ∀ q, it.next = some q → l1.first = none ∨ Reach m1 l1.first q := by
  obtain ⟨hlen, hfirst, hget⟩ := remove_links l l1 m m1 item it hit h
  by_cases hp : it.prev = none
  · rw [if_pos hp] at hfirst
    rw [hfirst]
    exact ⟨Distinct_none m1, fun _ _ => Or.inl rfl⟩
  · rw [if_neg hp] at hfirst
    rw [hfirst]
    rcases hr with hnone | hreach
    · rw [hnone]
      exact ⟨Distinct_none m1, fun _ _ => Or.inl rfl⟩
    · have hsub : ∀ x, Reach m1 l.first x → Reach m l.first x := by
        intro x hx
        refine Reach_least m1 (fun x => Reach m l.first x) ?_ l.first x ?_ hx
        · intro s w q hs hw hq
          obtain ⟨v, hv⟩ := getElem?_of_lt m s (hd.1 s hs)
          obtain ⟨w1, hw1, _, _, hnx⟩ := hget s v hv
          rw [hw1] at hw
          simp only [Option.some.injEq] at hw
          subst hw
          by_cases hps : it.prev = some s
          · rw [if_pos hps] at hnx
            exact Reach_snoc m l.first item q it hreach hit (hnx ▸ hq)
          · rw [if_neg hps] at hnx
            exact Reach_snoc m l.first s q v hs hv (hnx ▸ hq)
        · intro s hs
          rw [hs]
          exact Reach.here s
      refine ⟨Distinct_of_sub m m1 l.first l.first hlen ?_ hsub hd, ?_⟩
      · intro i v hv
        obtain ⟨w, hw, h1, h2, _⟩ := hget i v hv
        exact ⟨w, hw, h1, h2⟩
      · intro q hq
        right
        have havoid := Reach_avoid m m1 it.prev (fun i v hv => by
          obtain ⟨w, hw, _, _, hnx⟩ := hget i v hv
          exact ⟨w, hw, fun hne => by rw [if_neg hne] at hnx; exact hnx⟩) l.first item hreach
        rcases havoid with h1 | ⟨pp, hpp, h1⟩
        · obtain ⟨w, hw, _, _, hnx⟩ := hget item it hit
          refine Reach_snoc m1 l.first item q w h1 hw ?_
          rw [hnx, ← hq]
          simp
        · obtain ⟨v, hv⟩ := getElem?_of_lt m pp (by
            have := hd.1 pp (hsub pp h1); exact this)
          obtain ⟨w, hw, _, _, hnx⟩ := hget pp v hv
          refine Reach_snoc m1 l.first pp q w h1 hw ?_
          rw [hnx, if_pos hpp, hq]

/-- The removal loop, started at a record met from `first`, keeps the records
met from `first` distinct. -/
theorem removeLoop_distinct (cond : ServiceInfo → Bool) :
    ∀ (fuel : Nat) (m : Store) (l : infoList) (cur : Option Nat) (r : Store × infoList),
      Distinct m l.first → (∀ p, cur = some p → l.first = none ∨ Reach m l.first p) →
      removeLoop cond fuel m l cur = some r → Distinct r.1 r.2.first := by
  intro fuel
  induction fuel with
  | zero => intro m l cur r _ _ h; simp [removeLoop] at h
  | succ f ih =>
    intro m l cur r hd hr h
    cases cur with
    | none =>
      simp only [removeLoop, Option.some.injEq] at h
      subst h
      exact hd
    | some p =>
      cases hit : m[p]? with
      | none => simp [removeLoop, hit] at h
      | some it =>
        simp only [removeLoop, hit] at h
        split at h
        · cases hrem : l.remove m p with
          | none => simp [hrem] at h
          | some r1 =>
            obtain ⟨m1, l1⟩ := r1
            simp only [hrem] at h
            obtain ⟨hd1, hnext⟩ := Distinct_remove l l1 m m1 p it hit hrem hd (hr p rfl)
            exact ih m1 l1 it.next r hd1 hnext h
        · refine ih m l it.next r hd ?_ h
          intro q hq
          rcases hr p rfl with h1 | h1
          · exact Or.inl h1
          · exact Or.inr (Reach_snoc m l.first p q it h1 hit hq)

/-- When the loop of `find` ends without a match, no record met from `start`
equals the record looked for. -/
theorem findLoop_none (m : Store) (item : ServiceInfo) :
    ∀ (fuel : Nat) (start : Option Nat), findLoop m item fuel start = some none →
      ∀ p, Reach m start p → ∃ v, m[p]? = some v ∧ v.equals item = false := by
  intro fuel
  induction fuel with
  | zero => intro start h; simp [findLoop] at h
  | succ f ih =>
    intro start h p hp
    cases start with
    | none => exact absurd hp (Reach_none m p)
    | some c =>
      cases hc : m[c]? with
      | none => simp [findLoop, hc] at h
      | some cur =>
        simp only [findLoop, hc] at h
        split at h
        · simp at h
        · rename_i hne
          cases hp with
          | here => exact ⟨cur, hc, by simpa using hne⟩
          | step s v p hv hrest =>
            rw [hc] at hv
            simp only [Option.some.injEq] at hv
            subst hv
            exact ih cur.next h p hrest

/-- The method `insert` of a record that equals none of the records met from
`first` keeps the records met from `first` distinct. -/
theorem Distinct_insert (l l1 : infoList) (m m1 : Store) (item : Nat) (it : ServiceInfo)
    (hit : m[item]? = some it) (h : l.insert m item = some (m1, l1))
    (hd : Distinct m l.first)
    (hnew : ∀ p, Reach m l.first p → ∃ v, m[p]? = some v ∧ v.equals it = false) :
    Distinct m1 l1.first := by
  obtain ⟨hlen, hfirst, hget⟩ := insert_links l l1 m m1 item h
  have hitem : item < m.length := getElem?_lt_of_eq_some m item it hit
  have hsub : ∀ x, Reach m1 l1.first x → x = item ∨ Reach m l.first x := by
    intro x hx
    refine Reach_least m1 (fun x => x = item ∨ Reach m l.first x) ?_ l1.first x ?_ hx
    · intro s w q hs hw hq
      have hslt : s < m.length := by
        rcases hs with rfl | hs
        · exact hitem
        · exact hd.1 s hs
      obtain ⟨v, hv⟩ := getElem?_of_lt m s hslt
      obtain ⟨w1, hw1, _, _, hnx⟩ := hget s v hv
      rw [hw1] at hw
      simp only [Option.some.injEq] at hw
      subst hw
      by_cases h1 : l.last = some s
      · rw [if_pos h1, hq] at hnx
        simp only [Option.some.injEq] at hnx
        exact Or.inl hnx
      · rw [if_neg h1] at hnx
        by_cases h2 : s = item
        · rw [if_pos h2, hq] at hnx
          simp at hnx
        · rw [if_neg h2] at hnx
          rcases hs with hs | hs
          · exact absurd hs h2
          · exact Or.inr (Reach_snoc m l.first s q v hs hv (hnx ▸ hq))
    · intro s hs
      rw [hfirst] at hs
      by_cases hf : l.first = none
      · rw [if_pos hf] at hs
        simp only [Option.some.injEq] at hs
        exact Or.inl hs.symm
      · rw [if_neg hf] at hs
        rw [hs]
        exact Or.inr (Reach.here s)
  have hlt : ∀ x, Reach m1 l1.first x → x < m.length := by
    intro x hx
    rcases hsub x hx with rfl | h1
    · exact hitem
    · exact hd.1 x h1
  have hclash : ∀ (y : Nat) (vi vy : ServiceInfo), Reach m l.first y → m1[item]? = some vi →
      m1[y]? = some vy → vi.Name = vy.Name → vi.Address = vy.Address → False := by
    intro y vi vy hy hvi hvy hn ha
    obtain ⟨uy, huy, hne⟩ := hnew y hy
    obtain ⟨wi, hwi, hin, hia, _⟩ := hget item it hit
    obtain ⟨wy, hwy, hyn, hya, _⟩ := hget y uy huy
    rw [hwi] at hvi
    rw [hwy] at hvy
    simp only [Option.some.injEq] at hvi hvy
    subst hvi hvy
    have : uy.equals it = true := by
      simp only [ServiceInfo.equals, Bool.and_eq_true, beq_iff_eq]
      exact ⟨by rw [← hyn, ← hin, hn], by rw [← hya, ← hia, ha]⟩
    rw [hne] at this
    exact absurd this (by decide)
  constructor
  · intro x hx
    rw [hlen]
    exact hlt x hx
  · intro x y vx vy hx hy hvx hvy hn ha
    rcases hsub x hx with hxi | hxr
    · rcases hsub y hy with hyi | hyr
      · rw [hxi, hyi]
      · subst hxi
        exact absurd (hclash y vx vy hyr hvx hvy hn ha) id
    · rcases hsub y hy with hyi | hyr
      · subst hyi
        exact absurd (hclash x vy vx hxr hvy hvx hn.symm ha.symm) id
      · obtain ⟨ux, hux⟩ := getElem?_of_lt m x (hd.1 x hxr)
        obtain ⟨uy, huy⟩ := getElem?_of_lt m y (hd.1 y hyr)
        obtain ⟨wx, hwx, hxn, hxa, _⟩ := hget x ux hux
        obtain ⟨wy, hwy, hyn, hya, _⟩ := hget y uy huy
        rw [hwx] at hvx
        rw [hwy] at hvy
        simp only [Option.some.injEq] at hvx hvy
        subst hvx hvy
        exact hd.2 x y ux uy hxr hyr hux huy (by rw [← hxn, ← hyn, hn])
          (by rw [← hxa, ← hya, ha])

/-- Allocating one more record keeps the records met from `start` distinct. -/
theorem Distinct_alloc (m : Store) (v : ServiceInfo) (start : Option Nat)
    (h : Distinct m start) : Distinct (m ++ [v]) start := by
  refine Distinct_of_agree m (m ++ [v]) start (by simp) ?_ h
  intro p hp
  exact List.getElem?_append_left (h.1 p hp)

/-- The loop of `handleServiceListMessage` keeps the records met from `first`
distinct: an entry is inserted only after `find` met no equal record. -/
theorem serviceListLoop_distinct (clientID : String) (now deadline : Int) (fuel : Nat) :
    ∀ (msg : List ServiceInfoProto) (m : Store) (l : infoList) (r : Store × infoList),
      Distinct m l.first → serviceListLoop clientID now deadline fuel msg m l = some r →
      Distinct r.1 r.2.first := by
  intro msg
  induction msg with
  | nil =>
    intro m l r hd h
    simp only [serviceListLoop, Option.some.injEq] at h
    subst h
    exact hd
  | cons svc rest ih =>
    intro m l r hd h
    obtain ⟨sv, hsv⟩ : ∃ sv : ServiceInfo, sv = ServiceInfo.mk svc.Name svc.Address now
      deadline clientID none none := ⟨_, rfl⟩
    have hd0 : Distinct (m ++ [sv]) l.first := Distinct_alloc m sv l.first hd
    have hget : (m ++ [sv])[m.length]? = some sv := by simp
    simp only [serviceListLoop] at h
    rw [← hsv] at h
    cases hfind : l.find (m ++ [sv]) m.length fuel with
    | none => simp [hfind] at h
    | some found =>
      obtain ⟨it, hit, hloop⟩ := find_eq_some _ _ _ _ _ hfind
      rw [hget] at hit
      simp only [Option.some.injEq] at hit
      subst hit
      cases found with
      | some item =>
        simp only [hfind] at h
        cases hu1 : (m ++ [sv]).upd item (fun v => { v with updatedBy := clientID }) with
        | none => simp [hu1] at h
        | some m1 =>
          simp only [hu1] at h
          cases hu2 : m1.upd item (fun v => { v with UpdatedAt := now }) with
          | none => simp [hu2] at h
          | some m2 =>
            simp only [hu2] at h
            cases hu3 : m2.upd item (fun v => { v with GoodUntil := deadline }) with
            | none => simp [hu3] at h
            | some m3 =>
              simp only [hu3] at h
              have hd1 := Distinct_upd_fields _ m1 item _ l.first hu1
                (fun v => ⟨rfl, rfl, rfl⟩) hd0
              have hd2 := Distinct_upd_fields _ m2 item _ l.first hu2
                (fun v => ⟨rfl, rfl, rfl⟩) hd1
              have hd3 := Distinct_upd_fields _ m3 item _ l.first hu3
                (fun v => ⟨rfl, rfl, rfl⟩) hd2
              exact ih m3 l r hd3 h
      | none =>
        simp only [hfind] at h
        cases hins : l.insert (m ++ [sv]) m.length with
        | none => simp [hins] at h
        | some r1 =>
          obtain ⟨m1, l1⟩ := r1
          simp only [hins] at h
          have hd1 := Distinct_insert l l1 (m ++ [sv]) m1 m.length sv hget hins hd0
            (findLoop_none (m ++ [sv]) sv fuel l.first hloop)
          exact ih m1 l1 r hd1 h

/-- The records met from a handler-made record are handler-made. -/
theorem Reach_mem_K (K : List Nat) (m : Store) (start : Option Nat) (hS : StoreOK K m)
    (hst : ∀ p, start = some p → p ∈ K) (x : Nat) (h : Reach m start x) : x ∈ K := by
  refine Reach_least m (fun x => x ∈ K) ?_ start x hst h
  intro s w q hs hw hq
  exact ((hS.1 s w hw).1 q hq).2.1.mpr hs

/-- A step that leaves the handler-made records and the known list alone
keeps the known records distinct. -/
theorem Distinct_of_frame (K : List Nat) (a b : Agent) (hi : HeapInv K a)
    (hk : b.knownServices = a.knownServices) (hlen : a.mem.length ≤ b.mem.length)
    (hfr : ∀ i, i ∈ K → b.mem[i]? = a.mem[i]?)
    (hd : Distinct a.mem a.knownServices.first) : Distinct b.mem b.knownServices.first := by
  rw [hk]
  refine Distinct_of_agree a.mem b.mem _ hlen ?_ hd
  intro p hp
  exact hfr p (Reach_mem_K K a.mem _ hi.1 (fun q hq => ((hi.2.1.1 q hq).2).mpr trivial) p hp)

theorem Distinct_of_heapFrame (a b : Agent) (hf : HeapFrame a b)
    (hd : Distinct a.mem a.knownServices.first) : Distinct b.mem b.knownServices.first := by
  rw [hf.1, hf.2.1]
  exact hd

/-- The method `Register` of a caller-made record writes to no handler-made
record and not to the known list. -/
theorem Register_known_frame (K : List Nat) (a b : Agent) (info fuel : Nat) (hi : HeapInv K a)
    (hK : info ∉ K) (h : a.Register info fuel = some b) :
    b.knownServices = a.knownServices ∧ b.mem.length = a.mem.length ∧
      ∀ i, i ∈ K → b.mem[i]? = a.mem[i]? := by
  obtain ⟨hS, hk, hp⟩ := hi
  obtain ⟨item, m, l, hfind, hups, hfin⟩ := Register_eq_some a b info fuel h
  obtain ⟨it, hit, hloop⟩ := find_eq_some _ _ _ _ _ hfind
  have hmid : m.length = a.mem.length ∧ ∀ i, i ∈ K → m[i]? = a.mem[i]? := by
    rcases hups with ⟨_, hins⟩ | ⟨ip, inf0, m1, inf1, hitem, hl, _, hu1, _, hu2⟩
    · obtain ⟨m2, l2, hins2, _, _, hlen2, hfr2, _⟩ :=
        insert_spec K False a.providedServices a.mem info hS hp
          (getElem?_lt_of_eq_some _ _ _ hit) (by simp [hK]) (fun hf => absurd hf id)
      rw [hins] at hins2
      simp only [Option.some.injEq, Prod.mk.injEq] at hins2
      obtain ⟨rfl, rfl⟩ := hins2
      exact ⟨hlen2, fun i hiK => hfr2 i (by simp [hiK])⟩
    · subst hitem
      obtain ⟨_, hipK⟩ := findLoop_side K False a.mem it hS fuel a.providedServices.first ip
        (fun p hp1 => (hp.1 p hp1).2) hloop
      obtain ⟨hS1, hlen1, hfr1⟩ := StoreOK_upd_fields K _ m1 ip _ hS hu1 (fun v => ⟨rfl, rfl⟩)
      obtain ⟨_, hlen2, hfr2⟩ := StoreOK_upd_fields K _ m ip _ hS1 hu2 (fun v => ⟨rfl, rfl⟩)
      refine ⟨by rw [hlen2, hlen1], ?_⟩
      intro i hiK
      have hne : i ≠ ip := fun e => (hipK.mp (e ▸ hiK)).elim
      rw [hfr2 i hne, hfr1 i hne]
  rcases hfin with ⟨_, rfl⟩ | ⟨_, inf, _, henq⟩
  · exact ⟨rfl, hmid.1, hmid.2⟩
  · obtain ⟨h1, h2, _⟩ := enqueue_heap _ b _ henq
    rw [h1, h2]
    exact ⟨rfl, hmid.1, hmid.2⟩

/-- The method `Unregister` writes to no handler-made record and not to the
known list. -/
theorem Unregister_known_frame (K : List Nat) (a b : Agent) (info fuel : Nat)
    (hi : HeapInv K a) (h : a.Unregister info fuel = some b) :
    b.knownServices = a.knownServices ∧ b.mem.length = a.mem.length ∧
      ∀ i, i ∈ K → b.mem[i]? = a.mem[i]? := by
  obtain ⟨hS, hk, hp⟩ := hi
  obtain ⟨item, hfind, h1 | h1⟩ := Unregister_eq_some a b info fuel h
  · obtain ⟨_, rfl⟩ := h1
    exact ⟨rfl, rfl, fun _ _ => rfl⟩
  · obtain ⟨ip, m, l, hitem, hrem, rfl⟩ := h1
    subst hitem
    obtain ⟨it, hit, hloop⟩ := find_eq_some _ _ _ _ _ hfind
    obtain ⟨hipv, hipK⟩ := findLoop_side K False a.mem it hS fuel a.providedServices.first ip
      (fun p hp1 => (hp.1 p hp1).2) hloop
    obtain ⟨m2, l2, hrem2, _, _, hlen2, hfr2⟩ :=
      remove_spec K False a.providedServices a.mem ip hS hp hipv hipK
    rw [hrem] at hrem2
    simp only [Option.some.injEq, Prod.mk.injEq] at hrem2
    obtain ⟨rfl, rfl⟩ := hrem2
    exact ⟨rfl, hlen2, fun i hiK => hfr2 i (by simp [hiK])⟩

/-- The loop-based removals on the known list keep the known records distinct. -/
theorem Distinct_removeLoop (a : Agent) (cond : ServiceInfo → Bool) (fuel : Nat) (m : Store)
    (l : infoList) (hd : Distinct a.mem a.knownServices.first)
    (h : removeLoop cond fuel a.mem a.knownServices a.knownServices.first = some (m, l)) :
    Distinct m l.first :=
  removeLoop_distinct cond fuel a.mem a.knownServices a.knownServices.first (m, l) hd
    (fun p hp => Or.inr (hp ▸ Reach.here p)) h

theorem Distinct_handleMessage (a b : Agent) (msg : Msg) (now : Int) (fuel : Nat)
    (hd : Distinct a.mem a.knownServices.first) (h : a.handleMessage msg now fuel = some b) :
    Distinct b.mem b.knownServices.first := by
  unfold Agent.handleMessage at h
  split at h
  · simp only [Option.some.injEq] at h
    subst h
    exact hd
  · split at h
    · rcases handleInterestMessage_eq_some a b _ fuel h with rfl | ⟨w, hw⟩
      · exact hd
      · exact Distinct_of_heapFrame a b (enqueue_heap a b w hw) hd
    · simp only [Option.some.injEq] at h
      subst h
      exact hd
  · split at h
    · rcases handleServiceListMessage_eq_some a b _ _ now fuel h with ⟨_, rfl⟩ | ⟨m, l, hm, rfl⟩
      · exact hd
      · exact serviceListLoop_distinct _ now _ fuel _ a.mem a.knownServices (m, l) hd hm
    · simp only [Option.some.injEq] at h
      subst h
      exact hd
  · split at h
    · obtain ⟨m, l, hm, rfl⟩ := handleStopMessage_eq_some a b _ fuel h
      exact Distinct_removeLoop a _ fuel m l hd hm
    · simp only [Option.some.injEq] at h
      subst h
      exact hd

theorem Distinct_Stop (a b : Agent) (fuel : Nat) (r : Option String)
    (hd : Distinct a.mem a.knownServices.first) (h : a.Stop fuel = some (b, r)) :
    Distinct b.mem b.knownServices.first := by
  rcases Stop_eq_some a b fuel r h with ⟨_, rfl⟩ | ⟨_, _, m, l, hclear, h1 | h1⟩
  · exact hd
  · obtain ⟨_, rfl⟩ := h1
    obtain ⟨_, hl⟩ := clear_eq_some _ _ _ _ hclear
    simp only at hl
    simp only [hl]
    exact Distinct_none m
  · obtain ⟨_, c, ch, _, _, _, rfl⟩ := h1
    obtain ⟨_, hl⟩ := clear_eq_some _ _ _ _ hclear
    simp only at hl
    simp only [hl]
    exact Distinct_none m

/-- One event of a guarded run keeps the known records distinct. -/
theorem Distinct_stepOwned (fuel : Nat) (K K1 : List Nat) (a b : Agent) (op : Op)
    (hi : HeapInv K a) (hd : Distinct a.mem a.knownServices.first)
    (h : stepOwned fuel a K op = some (b, K1)) : Distinct b.mem b.knownServices.first := by
  cases op with
  | Register info =>
    simp only [stepOwned] at h
    split at h
    · simp at h
    · rename_i hK
      simp only [Option.map_eq_some', Prod.mk.injEq] at h
      obtain ⟨b1, hb, rfl, rfl⟩ := h
      obtain ⟨h1, h2, h3⟩ := Register_known_frame K a b1 info fuel hi hK hb
      exact Distinct_of_frame K a b1 hi h1 (Nat.le_of_eq h2.symm) h3 hd
  | Unregister info =>
    simp only [stepOwned] at h
    split at h
    · simp at h
    · simp only [Option.map_eq_some', Prod.mk.injEq] at h
      obtain ⟨b1, hb, rfl, rfl⟩ := h
      obtain ⟨h1, h2, h3⟩ := Unregister_known_frame K a b1 info fuel hi hb
      exact Distinct_of_frame K a b1 hi h1 (Nat.le_of_eq h2.symm) h3 hd
  | handleMessage msg now =>
    simp only [stepOwned, Option.map_eq_some', Prod.mk.injEq] at h
    obtain ⟨b1, hb, rfl, rfl⟩ := h
    exact Distinct_handleMessage a b1 msg now fuel hd hb
  | alloc n ad =>
    simp only [stepOwned, step, Option.map_eq_some', Prod.mk.injEq, Option.some.injEq] at h
    obtain ⟨b1, hb, rfl, rfl⟩ := h
    subst hb
    exact Distinct_alloc a.mem _ _ hd
  | Start err =>
    simp only [stepOwned, step, Option.map_eq_some', Prod.mk.injEq] at h
    obtain ⟨b1, ⟨⟨b2, r⟩, hb, rfl⟩, rfl, rfl⟩ := h
    exact Distinct_of_heapFrame a b2 (Start_heap a b2 err r hb) hd
  | Stop =>
    simp only [stepOwned, step, Option.map_eq_some', Prod.mk.injEq] at h
    obtain ⟨b1, ⟨⟨b2, r⟩, hb, rfl⟩, rfl, rfl⟩ := h
    exact Distinct_Stop a b2 fuel r hd hb
  | Watch n =>
    simp only [stepOwned, step, Option.map_eq_some', Prod.mk.injEq] at h
    obtain ⟨b1, hb, rfl, rfl⟩ := h
    exact Distinct_of_heapFrame a b1 (Watch_heap a b1 n hb) hd
  | Unwatch n =>
    simp only [stepOwned, step, Option.map_eq_some', Prod.mk.injEq] at h
    obtain ⟨b1, hb, rfl, rfl⟩ := h
    obtain ⟨m, l, hm, rfl⟩ := Unwatch_eq_some a b1 n fuel hb
    exact Distinct_removeLoop a _ fuel m l hd hm
  | ConnStateHandler c =>
    simp only [stepOwned, step, Option.map_eq_some', Prod.mk.injEq] at h
    obtain ⟨b1, hb, rfl, rfl⟩ := h
    exact Distinct_of_heapFrame a b1 (ConnStateHandler_heap a b1 c hb) hd
  | checkExpiration now =>
    simp only [stepOwned, step, Option.map_eq_some', Prod.mk.injEq] at h
    obtain ⟨b1, hb, rfl, rfl⟩ := h
    obtain ⟨m, l, hm, rfl⟩ := checkExpiration_eq_some a b1 now fuel hb
    exact Distinct_removeLoop a _ fuel m l hd hm
  | sendUpdates =>
    simp only [stepOwned, step, Option.map_eq_some', Prod.mk.injEq] at h
    obtain ⟨b1, ⟨_, _, rfl⟩, rfl, rfl⟩ := h
    exact hd
  | workerRecv c =>
    simp only [stepOwned, step, Option.map_eq_some', Prod.mk.injEq] at h
    obtain ⟨b1, hb, rfl, rfl⟩ := h
    exact Distinct_of_heapFrame a b1 (workerRecv_heap a b1 c hb) hd

/-- A guarded run keeps the store invariant and the known records distinct. -/
theorem Distinct_runOwned (fuel : Nat) (ops : List Op) :
    ∀ (a b : Agent) (K K1 : List Nat), HeapInv K a → Distinct a.mem a.knownServices.first →
      runOwned fuel a K ops = some (b, K1) →
      HeapInv K1 b ∧ Distinct b.mem b.knownServices.first := by
  induction ops with
  | nil =>
    intro a b K K1 hi hd h
    simp only [runOwned, Option.some.injEq, Prod.mk.injEq] at h
    obtain ⟨rfl, rfl⟩ := h
    exact ⟨hi, hd⟩
  | cons op rest ih =>
    intro a b K K1 hi hd h
    simp only [runOwned] at h
    split at h
    · simp at h
    · rename_i a1 K2 h1
      obtain ⟨hi1, _⟩ := HeapInv_stepOwned fuel K K2 a a1 op hi h1
      exact ih a1 b K2 K1 hi1 (Distinct_stepOwned fuel K K2 a a1 op hi hd h1) h

/-- A walk over handler-made records: whatever it returns is strictly
increasing and holds only records met from `start`, and it returns as soon as
the fuel exceeds the number of records behind the start. -/
theorem chain_known (K : List Nat) (m : Store) (hS : StoreOK K m) :
    ∀ (fuel : Nat) (start : Option Nat), (∀ p, start = some p → p ∈ K) →
      (∀ ps, chain m fuel start = some ps →
        ps.Pairwise (fun x y => x < y) ∧
          ∀ q, q ∈ ps → Reach m start q ∧ ∀ p0, start = some p0 → p0 ≤ q) ∧
      ((∀ p, start = some p → m.length - p < fuel) → 0 < fuel →
        ∃ ps, chain m fuel start = some ps) := by
  intro fuel
  induction fuel with
  | zero =>
    intro start _
    exact ⟨fun ps h => by simp [chain] at h, fun _ h => absurd h (by decide)⟩
  | succ f ih =>
    intro start hst
    cases start with
    | none =>
      refine ⟨?_, fun _ _ => ⟨[], rfl⟩⟩
      intro ps h
      simp only [chain, Option.some.injEq] at h
      subst h
      exact ⟨List.Pairwise.nil, fun q hq => by simp at hq⟩
    | some p =>
      have hpK : p ∈ K := hst p rfl
      have hplt : p < m.length := hS.2 p hpK
      obtain ⟨it, hit⟩ := getElem?_of_lt m p hplt
      have hnode := (hS.1 p it hit).1
      have hnK : ∀ q, it.next = some q → q ∈ K := fun q hq => (hnode q hq).2.1.mpr hpK
      obtain ⟨ih1, ih2⟩ := ih it.next hnK
      constructor
      · intro ps h
        simp only [chain, hit, Option.map_eq_some'] at h
        obtain ⟨rest, hrest, rfl⟩ := h
        obtain ⟨hsorted, hmem⟩ := ih1 rest hrest
        refine ⟨List.Pairwise.cons ?_ hsorted, ?_⟩
        · intro q hq
          cases hn : it.next with
          | none =>
            rw [hn] at hrest
            cases f with
            | zero => simp [chain] at hrest
            | succ f1 =>
              simp only [chain, Option.some.injEq] at hrest
              subst hrest
              simp at hq
          | some q0 =>
            have h1 := (hmem q hq).2 q0 hn
            have h2 := (hnode q0 hn).2.2 hpK
            omega
        · intro q hq
          rcases List.mem_cons.mp hq with rfl | hq1
          · refine ⟨Reach.here q, ?_⟩
            intro p0 hp0
            simp only [Option.some.injEq] at hp0
            omega
          · refine ⟨Reach.step p it q hit (hmem q hq1).1, ?_⟩
            intro p0 hp0
            simp only [Option.some.injEq] at hp0
            subst hp0
            cases hn : it.next with
            | none =>
              rw [hn] at hrest
              cases f with
              | zero => simp [chain] at hrest
              | succ f1 =>
                simp only [chain, Option.some.injEq] at hrest
                subst hrest
                simp at hq1
            | some q0 =>
              have h1 := (hmem q hq1).2 q0 hn
              have h2 := (hnode q0 hn).2.2 hpK
              omega
      · intro hfuel _
        have hfp := hfuel p rfl
        have : ∃ rest, chain m f it.next = some rest := by
          apply ih2
          · intro q hq
            have h1 := (hnode q hq).1
            have h2 := (hnode q hq).2.2 hpK
            omega
          · omega
        obtain ⟨rest, hrest⟩ := this
        exact ⟨p :: rest, by simp [chain, hit, hrest]⟩

/-- Distinct records along a walk without repeated index have distinct
pairs of name and address. -/
theorem keys_nodup (m : Store) (start : Option Nat) (ps : List Nat)
    (hd : Distinct m start) (hs : ps.Pairwise (fun x y => x < y))
    (hr : ∀ q, q ∈ ps → Reach m start q) :
    ((ps.filterMap (fun p => m[p]?)).map (fun r => (r.Name, r.Address))).Nodup := by
  unfold List.Nodup
  rw [List.pairwise_map, List.pairwise_filterMap]
  refine List.Pairwise.imp_of_mem ?_ hs
  intro x y hx hy hxy vx hvx vy hvy heq
  simp only [Option.mem_def] at hvx hvy
  simp only [Prod.mk.injEq] at heq
  have := hd.2 x y vx vy (hr x hx) (hr y hy) hvx hvy heq.1 heq.2
  omega

/-- Records with distinct pairs of name and address, filtered by name, have
distinct addresses. -/
theorem addresses_nodup (recs : List ServiceInfo) (name : String)
    (h : (recs.map (fun r => (r.Name, r.Address))).Nodup) :
    ((recs.filter (fun s => decide (s.Name = name))).map ServiceInfo.Address).Nodup := by
  have h1 : ((recs.filter (fun s => decide (s.Name = name))).map
      (fun r => (r.Name, r.Address))).Nodup :=
    List.Nodup.sublist (List.Sublist.map _ (List.filter_sublist _)) h
  have h2 : (recs.filter (fun s => decide (s.Name = name))).map
      (fun r => (r.Name, r.Address)) =
      ((recs.filter (fun s => decide (s.Name = name))).map ServiceInfo.Address).map
        (fun ad => (name, ad)) := by
    rw [List.map_map]
    apply List.map_congr_left
    intro r hr
    have := (List.mem_filter.mp hr).2
    simp only [decide_eq_true_eq] at this
    simp [this]
  rw [h2] at h1
  exact List.Nodup.of_map _ h1

/-- C23: in every state reachable by the caller, and for every fuel above the
number of allocated records, walking the known list returns, no two of the
records met have the same name and the same address, and `Discover` without
local records returns the met records of the given name, no two of which
have the same address. -/
theorem known_records_distinct (a : Agent) (h : ReachableOwned a) (fuel : Nat)
    (hf : a.mem.length < fuel) :
    ∃ recs, a.known fuel = some recs ∧
      (recs.map (fun r => (r.Name, r.Address))).Nodup ∧
      ∀ name, a.Discover name false fuel =
          some (recs.filter (fun s => decide (s.Name = name))) ∧
        ((recs.filter (fun s => decide (s.Name = name))).map ServiceInfo.Address).Nodup := by
  obtain ⟨cid, fuel0, ops, K, hrun⟩ := h
  obtain ⟨hi, hd⟩ := Distinct_runOwned fuel0 ops (newAgent cid) a [] K (HeapInv_newAgent cid)
    (Distinct_none _) hrun
  have hst : ∀ p, a.knownServices.first = some p → p ∈ K :=
    fun q hq => ((hi.2.1.1 q hq).2).mpr trivial
  obtain ⟨h1, h2⟩ := chain_known K a.mem hi.1 fuel a.knownServices.first hst
  obtain ⟨ps, hps⟩ := h2 (fun p _ => by omega) (by omega)
  obtain ⟨hsorted, hmem⟩ := h1 ps hps
  have hkeys := keys_nodup a.mem a.knownServices.first ps hd hsorted (fun q hq => (hmem q hq).1)
  refine ⟨ps.filterMap (fun p => a.mem[p]?), by simp [Agent.known, hps], hkeys, ?_⟩
  intro name
  refine ⟨?_, addresses_nodup _ name hkeys⟩
  simp [Agent.Discover, discoverLists, discoverLoop_eq_chain, hps]

/-- C23 at a concrete input: an agent to which `p1` announced (`a`, `1`) twice
and (`b`, `2`), and then `p2` announced (`a`, `1`) and (`a`, `2`); its known
list holds (`a`, `1`), (`b`, `2`) and (`a`, `2`), once each. -/
theorem known_records_distinct_witness :
    ReachableOwned stateAnnouncedTwice ∧ stateAnnouncedTwice.mem.length < 10 ∧
      (stateAnnouncedTwice.known 10).map (fun rs => rs.map (fun r => (r.Name, r.Address))) =
        some [("a", "1"), ("b", "2"), ("a", "2")] ∧
      ∃ recs, stateAnnouncedTwice.known 10 = some recs ∧
        (recs.map (fun r => (r.Name, r.Address))).Nodup ∧
        ∀ name, stateAnnouncedTwice.Discover name false 10 =
            some (recs.filter (fun s => decide (s.Name = name))) ∧
          ((recs.filter (fun s => decide (s.Name = name))).map ServiceInfo.Address).Nodup :=
  ⟨⟨"me", 10, runAnnouncedTwice, [0, 1, 2, 3, 4], by decide⟩, by decide, by decide,
   known_records_distinct stateAnnouncedTwice
     ⟨"me", 10, runAnnouncedTwice, [0, 1, 2, 3, 4], by decide⟩ 10 (by decide)⟩


/-! ## Discover and Register on a provided list that does not end -/

/-- C10: a started, connected agent that knows (`a`, `9`) and whose caller
registered record 0, unregistered it and registered the same record again.
`Discover` without local records returns the known record, but record 0 is
its own `next`, and `Discover` with local records returns for no name and no
fuel. -/
theorem Discover_local_never_returns :
    Reachable stateKnownRegisteredAgain ∧ ReachableOwned stateKnownRegisteredAgain ∧
      stateKnownRegisteredAgain.Discover "a" false 10 =
        some [{ Name := "a", Address := "9", UpdatedAt := 0, GoodUntil := 1100000000,
                updatedBy := "p1", next := none, prev := none }] ∧
      stateKnownRegisteredAgain.providedServices.first = some 0 ∧
      stateKnownRegisteredAgain.mem[0]? =
        some { Name := "a", Address := "1", UpdatedAt := 0, GoodUntil := 0, updatedBy := "",
               next := some 0, prev := some 0 } ∧
      ∀ name fuel, stateKnownRegisteredAgain.Discover name true fuel = none := by
  have hfirst : stateKnownRegisteredAgain.providedServices.first = some 0 := by decide
  have h0 : stateKnownRegisteredAgain.mem[0]? =
      some { Name := "a", Address := "1", UpdatedAt := 0, GoodUntil := 0, updatedBy := "",
             next := some 0, prev := some 0 } := by decide
  have hchain := chain_self_loop stateKnownRegisteredAgain.mem 0 _ h0 rfl
  refine ⟨⟨"me", 10, runKnownRegisteredAgain, rfl⟩,
    ⟨"me", 10, runKnownRegisteredAgain, [1], by decide⟩, by decide, hfirst, h0, ?_⟩
  intro name fuel
  unfold Agent.Discover
  simp only [if_true, discoverLists, hfirst, discoverLoop_eq_chain, hchain]
  cases chain stateKnownRegisteredAgain.mem fuel
    stateKnownRegisteredAgain.knownServices.first <;> simp

/-- C14: a started, connected agent whose caller registered record 0,
unregistered it and registered the same record again.  The agent is running
and connected and `send` is an open channel, but record 0 is its own `next`:
`Register` of record 1, which is not equal to record 0, returns for no fuel,
so it enqueues no message. -/
theorem Register_never_returns :
    Reachable stateQueueRegisteredAgain ∧ ReachableOwned stateQueueRegisteredAgain ∧
      stateQueueRegisteredAgain.running = true ∧
      stateQueueRegisteredAgain.connected = true ∧
      stateQueueRegisteredAgain.send = some 0 ∧
      (stateQueueRegisteredAgain.chans[0]?).map chanState.closed = some false ∧
      stateQueueRegisteredAgain.mem[1]? =
        some { Name := "b", Address := "2", UpdatedAt := 0, GoodUntil := 0, updatedBy := "",
               next := none, prev := none } ∧
      stateQueueRegisteredAgain.providedServices.first = some 0 ∧
      stateQueueRegisteredAgain.mem[0]? =
        some { Name := "a", Address := "1", UpdatedAt := 0, GoodUntil := 0, updatedBy := "",
               next := some 0, prev := some 0 } ∧
      ∀ fuel, stateQueueRegisteredAgain.Register 1 fuel = none := by
  have hfirst : stateQueueRegisteredAgain.providedServices.first = some 0 := by decide
  have h0 : stateQueueRegisteredAgain.mem[0]? =
      some { Name := "a", Address := "1", UpdatedAt := 0, GoodUntil := 0, updatedBy := "",
             next := some 0, prev := some 0 } := by decide
  have h1 : stateQueueRegisteredAgain.mem[1]? =
      some { Name := "b", Address := "2", UpdatedAt := 0, GoodUntil := 0, updatedBy := "",
             next := none, prev := none } := by decide
  refine ⟨⟨"me", 10, runQueueRegisteredAgain, rfl⟩,
    ⟨"me", 10, runQueueRegisteredAgain, [], by decide⟩, by decide, by decide, by decide,
    by decide, h1, hfirst, h0, ?_⟩
  intro fuel
  unfold Agent.Register infoList.find
  simp only [h1, hfirst]
  rw [findLoop_self_loop stateQueueRegisteredAgain.mem _ 0 _ h0 rfl (by decide) fuel]
  rfl

/-! ## At most one Worker -/

theorem openFrom_mem (chans : List chanState) :
    ∀ (i x : Nat), x ∈ openFrom i chans ↔
      ∃ j ch, chans[j]? = some ch ∧ ch.closed = false ∧ x = i + j := by
  induction chans with
  | nil => intro i x; simp [openFrom]
  | cons ch rest ih =>
    intro i x
    constructor
    · intro hx
      rcases Bool.eq_false_or_eq_true ch.closed with hc | hc
      · simp only [openFrom, hc, if_true] at hx
        obtain ⟨j, ch1, h1, h2, h3⟩ := (ih (i + 1) x).mp hx
        exact ⟨j + 1, ch1, by simpa using h1, h2, by omega⟩
      · simp only [openFrom, hc, Bool.false_eq_true, if_false, List.mem_cons] at hx
        rcases hx with hx | hx
        · exact ⟨0, ch, by simp, hc, by omega⟩
        · obtain ⟨j, ch1, h1, h2, h3⟩ := (ih (i + 1) x).mp hx
          exact ⟨j + 1, ch1, by simpa using h1, h2, by omega⟩
    · rintro ⟨j, ch1, h1, h2, h3⟩
      cases j with
      | zero =>
        simp only [List.getElem?_cons_zero, Option.some.injEq] at h1
        subst h1
        simp [openFrom, h2, h3]
      | succ j1 =>
        simp only [List.getElem?_cons_succ] at h1
        have hmem : x ∈ openFrom (i + 1) rest := (ih (i + 1) x).mpr ⟨j1, ch1, h1, h2, by omega⟩
        rcases Bool.eq_false_or_eq_true ch.closed with hc | hc
        · simpa [openFrom, hc] using hmem
        · simp only [openFrom, hc, Bool.false_eq_true, if_false, List.mem_cons]
          exact Or.inr hmem

theorem openFrom_sorted (chans : List chanState) :
    ∀ i : Nat, (openFrom i chans).Pairwise (fun x y => x < y) := by
  induction chans with
  | nil => intro i; simp [openFrom]
  | cons ch rest ih =>
    intro i
    rcases Bool.eq_false_or_eq_true ch.closed with hc | hc
    · simpa [openFrom, hc] using ih (i + 1)
    · simp only [openFrom, hc, Bool.false_eq_true, if_false]
      refine List.Pairwise.cons ?_ (ih (i + 1))
      intro x hx
      obtain ⟨j, _, _, _, h3⟩ := (openFrom_mem rest (i + 1) x).mp hx
      omega

/-- The Workers of a state in which every open channel is `send`, and `send`
is an open channel: the one of `send`, or none. -/
theorem workers_eq (a : Agent) (hq : QueueInv a) (ho : OneWorker a) :
    a.workers = a.send.toList := by
  have hmem : ∀ x, x ∈ a.workers ↔ a.send = some x := by
    intro x
    unfold Agent.workers
    rw [openFrom_mem]
    constructor
    · rintro ⟨j, ch, h1, h2, h3⟩
      have : x = j := by omega
      subst this
      exact ho x ch h1 h2
    · intro hs
      obtain ⟨ch, h1, h2⟩ := hq.2 x hs
      exact ⟨x, ch, h1, h2, by omega⟩
  have hsorted : a.workers.Pairwise (fun x y => x < y) := openFrom_sorted a.chans 0
  cases hs : a.send with
  | none =>
    simp only [Option.toList]
    apply List.eq_nil_iff_forall_not_mem.mpr
    intro x hx
    have := (hmem x).mp hx
    rw [hs] at this
    simp at this
  | some c =>
    simp only [Option.toList]
    have hc : c ∈ a.workers := (hmem c).mpr hs
    have hall : ∀ x, x ∈ a.workers → x = c := by
      intro x hx
      have := (hmem x).mp hx
      rw [hs] at this
      simp only [Option.some.injEq] at this
      exact this.symm
    cases hw : a.workers with
    | nil => rw [hw] at hc; simp at hc
    | cons h t =>
      rw [hw] at hall hsorted
      have hh : h = c := hall h (by simp)
      have ht : t = [] := by
        apply List.eq_nil_iff_forall_not_mem.mpr
        intro x hx
        have hx1 : x = c := hall x (by simp [hx])
        have hlt := (List.pairwise_cons.mp hsorted).1 x hx
        omega
      rw [hh, ht]

theorem OneWorker_of_frame (a b : Agent) (hf : QueueFrame a b) (ho : OneWorker a) :
    OneWorker b := by
  obtain ⟨_, _, hs, hm⟩ := hf
  intro c ch hch hcl
  rw [hs]
  have h1 : (b.chans.map chanState.closed)[c]? = some false := by
    rw [List.getElem?_map, hch, Option.map_some', hcl]
  rw [hm, List.getElem?_map, Option.map_eq_some'] at h1
  obtain ⟨ch1, h2, h3⟩ := h1
  exact ho c ch1 h2 h3

theorem chans_length_of_frame (a b : Agent) (hf : QueueFrame a b) :
    b.chans.length = a.chans.length := by
  have := congrArg List.length hf.2.2.2
  simpa using this

theorem closed_of_send_none (a : Agent) (ho : OneWorker a) (hs : a.send = none) :
    ∀ (c : Nat) (ch : chanState), a.chans[c]? = some ch → ch.closed = true := by
  intro c ch hch
  rcases Bool.eq_false_or_eq_true ch.closed with h | h
  · exact h
  · have := ho c ch hch h
    rw [hs] at this
    simp at this

/-- Starting a Worker while `send` is nil leaves the new channel as the only
open one. -/
theorem OneWorker_startStopWorker_true (a b : Agent) (ho : OneWorker a) (hs : a.send = none)
    (h : a.startStopWorker true = some b) :
    OneWorker b ∧ b.send = some a.chans.length ∧ b.chans.length = a.chans.length + 1 := by
  rw [startStopWorker_true_eq] at h
  simp only [Option.some.injEq] at h
  subst h
  refine ⟨?_, rfl, by simp⟩
  intro c ch hch hcl
  simp only at hch ⊢
  by_cases hlt : c < a.chans.length
  · rw [List.getElem?_append_left hlt] at hch
    have := closed_of_send_none a ho hs c ch hch
    rw [hcl] at this
    exact absurd this (by decide)
  · have hc := getElem?_lt_of_eq_some _ _ _ hch
    simp only [List.length_append, List.length_singleton] at hc
    have : c = a.chans.length := by omega
    rw [this]

/-- Stopping the Worker closes `send`, the only open channel. -/
theorem OneWorker_startStopWorker_false (a b : Agent) (ho : OneWorker a)
    (h : a.startStopWorker false = some b) :
    OneWorker b ∧ b.chans.length = a.chans.length := by
  obtain ⟨c, ch, hs, hch, _, rfl⟩ := startStopWorker_false_eq_some a b h
  refine ⟨?_, by simp⟩
  intro c1 ch1 hch1 hcl1
  simp only at hch1 ⊢
  by_cases hcc : c = c1
  · subst hcc
    rw [List.getElem?_set_self (getElem?_lt_of_eq_some _ _ _ hch)] at hch1
    simp only [Option.some.injEq] at hch1
    subst hch1
    simp at hcl1
  · rw [List.getElem?_set_ne hcc] at hch1
    have := ho c1 ch1 hch1 hcl1
    rw [hs] at this
    simp only [Option.some.injEq] at this
    exact absurd this hcc

theorem OneWorker_of_eq (a b : Agent) (hc : b.chans = a.chans) (hs : b.send = a.send)
    (ho : OneWorker a) : OneWorker b := by
  intro c ch hch hcl
  rw [hc] at hch
  rw [hs]
  exact ho c ch hch hcl

/-- The method `Start` keeps every open channel equal to `send`; it makes a
channel only while `send` is nil. -/
theorem OneWorker_Start (a b : Agent) (err r : Option String) (hq : QueueInv a)
    (ho : OneWorker a) (h : a.Start err = some (b, r)) :
    OneWorker b ∧ (a.chans.length < b.chans.length →
      a.send = none ∧ b.send = some a.chans.length) := by
  unfold Agent.Start at h
  split at h
  · simp only [Option.some.injEq, Prod.mk.injEq] at h
    rw [← h.1]
    exact ⟨ho, fun hl => absurd hl (Nat.lt_irrefl _)⟩
  · rename_i hrun
    have hsend : a.send = none := by
      by_contra hne
      exact hrun ((hq.1.mp hne).1)
    split at h
    · simp only [Option.some.injEq, Prod.mk.injEq] at h
      rw [← h.1]
      exact ⟨ho, fun hl => absurd hl (Nat.lt_irrefl _)⟩
    · simp only at h
      split at h
      · simp only [Option.map_eq_some', Prod.mk.injEq] at h
        obtain ⟨b1, hb1, rfl, _⟩ := h
        obtain ⟨h1, h2, _⟩ := OneWorker_startStopWorker_true
          { a with subs := true, running := true } b1
          (OneWorker_of_eq a _ rfl rfl ho) hsend hb1
        exact ⟨h1, fun _ => ⟨hsend, h2⟩⟩
      · simp only [Option.some.injEq, Prod.mk.injEq] at h
        obtain ⟨rfl, _⟩ := h
        exact ⟨OneWorker_of_eq a _ rfl rfl ho, fun hl => absurd hl (Nat.lt_irrefl _)⟩

/-- The method `ConnStateHandler` keeps every open channel equal to `send`; it
makes a channel only while `send` is nil. -/
theorem OneWorker_ConnStateHandler (a b : Agent) (conn : Bool) (hq : QueueInv a)
    (ho : OneWorker a) (h : a.ConnStateHandler conn = some b) :
    OneWorker b ∧ (a.chans.length < b.chans.length →
      a.send = none ∧ b.send = some a.chans.length) := by
  unfold Agent.ConnStateHandler at h
  split at h
  · simp only [Option.some.injEq] at h
    rw [← h]
    exact ⟨ho, fun hl => absurd hl (Nat.lt_irrefl _)⟩
  · rename_i hcc
    simp only at h
    split at h
    · cases conn with
      | true =>
        have hc : a.connected = false := by
          cases hac : a.connected with
          | false => rfl
          | true => exact absurd hac.symm hcc
        have hsend : a.send = none := by
          by_contra hne
          have := (hq.1.mp hne).2
          rw [hc] at this
          exact absurd this (by decide)
        obtain ⟨h1, h2, _⟩ := OneWorker_startStopWorker_true
          { a with connected := true } b (OneWorker_of_eq a _ rfl rfl ho) hsend h
        exact ⟨h1, fun _ => ⟨hsend, h2⟩⟩
      | false =>
        obtain ⟨h1, h2⟩ := OneWorker_startStopWorker_false
          { a with connected := false } b (OneWorker_of_eq a _ rfl rfl ho) h
        refine ⟨h1, fun hl => ?_⟩
        simp only at h2
        omega
    · simp only [Option.some.injEq] at h
      subst h
      exact ⟨OneWorker_of_eq a _ rfl rfl ho, fun hl => absurd hl (Nat.lt_irrefl _)⟩

/-- The method `Stop` keeps every open channel equal to `send` and makes no
channel. -/
theorem OneWorker_Stop (a b : Agent) (fuel : Nat) (r : Option String) (hq : QueueInv a)
    (ho : OneWorker a) (h : a.Stop fuel = some (b, r)) :
    OneWorker b ∧ b.chans.length = a.chans.length := by
  rcases Stop_eq_some a b fuel r h with ⟨_, rfl⟩ | ⟨hrun, _, m, l, _, h1 | h1⟩
  · exact ⟨ho, rfl⟩
  · obtain ⟨hc, rfl⟩ := h1
    exact ⟨OneWorker_of_eq a _ rfl rfl ho, rfl⟩
  · obtain ⟨hc, c, ch, hs, hch, hcl, rfl⟩ := h1
    refine ⟨?_, by simp⟩
    intro c1 ch1 hch1 hcl1
    simp only at hch1 ⊢
    by_cases hcc : c = c1
    · subst hcc
      rw [List.getElem?_set_self (getElem?_lt_of_eq_some _ _ _ hch)] at hch1
      simp only [Option.some.injEq] at hch1
      subst hch1
      simp at hcl1
    · rw [List.getElem?_set_ne hcc] at hch1
      have := ho c1 ch1 hch1 hcl1
      rw [hs] at this
      simp only [Option.some.injEq] at this
      exact absurd this hcc

/-- One event keeps every open channel equal to `send`, and an event that
makes a channel happens only while `send` is nil and leaves `send` at the
new channel. -/
theorem OneWorker_step (fuel : Nat) (a b : Agent) (op : Op) (hq : QueueInv a)
    (ho : OneWorker a) (h : step fuel a op = some b) :
    OneWorker b ∧ (a.chans.length < b.chans.length →
      a.send = none ∧ b.send = some a.chans.length) := by
  have viaFrame : QueueFrame a b → OneWorker b ∧ (a.chans.length < b.chans.length →
      a.send = none ∧ b.send = some a.chans.length) := by
    intro hf
    refine ⟨OneWorker_of_frame a b hf ho, fun hl => ?_⟩
    have := chans_length_of_frame a b hf
    omega
  cases op with
  | alloc n ad =>
    simp only [step, Option.some.injEq] at h
    subst h
    exact ⟨OneWorker_of_eq a _ rfl rfl ho, fun hl => absurd hl (Nat.lt_irrefl _)⟩
  | Register info => exact viaFrame (Register_frame a b info fuel h)
  | Unregister info => exact viaFrame (Unregister_frame a b info fuel h)
  | Start err =>
    simp only [step, Option.map_eq_some'] at h
    obtain ⟨⟨b1, r⟩, hb, rfl⟩ := h
    exact OneWorker_Start a b1 err r hq ho hb
  | Stop =>
    simp only [step, Option.map_eq_some'] at h
    obtain ⟨⟨b1, r⟩, hb, rfl⟩ := h
    obtain ⟨h1, h2⟩ := OneWorker_Stop a b1 fuel r hq ho hb
    exact ⟨h1, fun hl => by simp only at hl; omega⟩
  | Watch n => exact viaFrame (Watch_frame a b n h)
  | Unwatch n =>
    obtain ⟨m, l, _, rfl⟩ := Unwatch_eq_some a b n fuel h
    exact ⟨OneWorker_of_eq a _ rfl rfl ho, fun hl => absurd hl (Nat.lt_irrefl _)⟩
  | ConnStateHandler c => exact OneWorker_ConnStateHandler a b c hq ho h
  | handleMessage msg now => exact viaFrame (handleMessage_frame a b msg now fuel h)
  | checkExpiration now =>
    obtain ⟨m, l, _, rfl⟩ := checkExpiration_eq_some a b now fuel h
    exact ⟨OneWorker_of_eq a _ rfl rfl ho, fun hl => absurd hl (Nat.lt_irrefl _)⟩
  | sendUpdates =>
    simp only [step, Option.map_eq_some'] at h
    obtain ⟨_, _, rfl⟩ := h
    exact ⟨ho, fun hl => absurd hl (Nat.lt_irrefl _)⟩
  | workerRecv c => exact viaFrame (workerRecv_frame a b c h)

theorem OneWorker_run (fuel : Nat) (ops : List Op) :
    ∀ a b : Agent, QueueInv a → OneWorker a → run fuel a ops = some b → OneWorker b := by
  induction ops with
  | nil =>
    intro a b _ ho h
    simp only [run, Option.some.injEq] at h
    rw [← h]; exact ho
  | cons op rest ih =>
    intro a b hq ho h
    simp only [run] at h
    split at h
    · simp at h
    · rename_i a1 h1
      exact ih a1 b (QueueInv_step fuel a a1 op hq h1) (OneWorker_step fuel a a1 op hq ho h1).1 h

theorem OneWorker_of_Reachable (a : Agent) (h : Reachable a) : OneWorker a := by
  obtain ⟨cid, fuel, ops, hrun⟩ := h
  refine OneWorker_run fuel ops _ a (QueueInv_newAgent cid) ?_ hrun
  intro c ch hch
  simp [newAgent] at hch

/-- C17: in every state reachable from a new agent, `send` is non-nil exactly
when `running` and `connected` are both set, and a non-nil `send` is an
allocated, open channel.  Every channel that is not closed is `send`, so the
Workers that exist are the one of `send`, or none.  `ConnStateHandler`
always returns, and `Stop` on a running agent returns as soon as the clearing
of the known list does: neither closes a nil channel.  An event that makes a
channel, and so starts a Worker, happens only while no Worker exists, and
after it the new Worker is the only one. -/
theorem worker_iff_running_connected (a : Agent) (h : Reachable a) :
    (a.send ≠ none ↔ (a.running = true ∧ a.connected = true)) ∧
      (∀ c, a.send = some c → ∃ ch, a.chans[c]? = some ch ∧ ch.closed = false) ∧
      (∀ conn, ∃ b, a.ConnStateHandler conn = some b) ∧
      (a.running = false → a.send = none) ∧
      (a.connected = false → a.send = none) ∧
      (a.running = true → a.connected = true → a.send ≠ none) ∧
      (∀ (c : Nat) (ch : chanState), a.chans[c]? = some ch → ch.closed = false →
        a.send = some c) ∧
      a.workers = a.send.toList ∧
      (∀ (fuel : Nat) (m : Store) (l : infoList), a.running = true →
        a.knownServices.clear a.mem fuel = some (m, l) → ∃ b, a.Stop fuel = some (b, none)) ∧
      (∀ (fuel : Nat) (op : Op) (b : Agent), step fuel a op = some b →
        (b.workers = [] ∨ ∃ c, b.workers = [c]) ∧
        (a.chans.length < b.chans.length →
          a.workers = [] ∧ b.workers = [a.chans.length])) := by
  have hi := QueueInv_of_Reachable a h
  have ho := OneWorker_of_Reachable a h
  have hw := workers_eq a hi ho
  refine ⟨hi.1, hi.2, ConnStateHandler_isSome a hi, ?_, ?_, ?_, ho, hw, ?_, ?_⟩
  · intro hr
    by_contra hne
    have := (hi.1.mp hne).1
    rw [hr] at this
    exact absurd this (by decide)
  · intro hc
    by_contra hne
    have := (hi.1.mp hne).2
    rw [hc] at this
    exact absurd this (by decide)
  · intro hr hc
    exact hi.1.mpr ⟨hr, hc⟩
  · intro fuel m l hrun hclear
    obtain ⟨h1, h2⟩ := Stop_eq_of_running a fuel m l hrun hclear
    rcases Bool.eq_false_or_eq_true a.connected with hc | hc
    · have hne : a.send ≠ none := hi.1.mpr ⟨hrun, hc⟩
      obtain ⟨c, hs⟩ := Option.ne_none_iff_exists'.mp hne
      obtain ⟨ch, hch, hcl⟩ := hi.2 c hs
      exact ⟨_, h2 hc c ch hs hch hcl⟩
    · exact ⟨_, h1 hc⟩
  · intro fuel op b hstep
    have hib := QueueInv_step fuel a b op hi hstep
    obtain ⟨hob, hnew⟩ := OneWorker_step fuel a b op hi ho hstep
    have hwb := workers_eq b hib hob
    constructor
    · rw [hwb]
      cases b.send with
      | none => exact Or.inl rfl
      | some c => exact Or.inr ⟨c, rfl⟩
    · intro hl
      obtain ⟨h1, h2⟩ := hnew hl
      rw [hw, hwb, h1, h2]
      exact ⟨rfl, rfl⟩

/-- C17 at a concrete input: a started agent that was connected, lost the
connection and is connected again; two channels were made, the first is
closed, and the only Worker is the one of `send`, the second channel. -/
theorem worker_iff_running_connected_witness :
    Reachable stateReconnected ∧ stateReconnected.running = true ∧
      stateReconnected.connected = true ∧ stateReconnected.chans.length = 2 ∧
      stateReconnected.send = some 1 ∧ stateReconnected.workers = [1] ∧
      (stateReconnected.send ≠ none ↔
        (stateReconnected.running = true ∧ stateReconnected.connected = true)) ∧
      stateReconnected.workers = stateReconnected.send.toList :=
  have hr : Reachable stateReconnected := ⟨"me", 10, runReconnected, rfl⟩
  ⟨hr, by decide, by decide, by decide, by decide, by decide,
   (worker_iff_running_connected stateReconnected hr).1,
   (worker_iff_running_connected stateReconnected hr).2.2.2.2.2.2.2.1⟩

end Discovery
